import Mathlib

/-!
# extract_from_mask.c (K-mer Toolkit, src/QC)

A shallow embedding of `src/QC/extract_from_mask.c` and theorems about it.

Conventions of the embedding.

* A `FILE*` opened for reading is the list of characters not yet read
  (`Stream`); `getc` takes the head of the list and gives `none` for `EOF`.
  The files are texts without the NUL character, and plain `char` is signed:
  no byte of a text is the one that a `char` confuses with `EOF`, so the test
  `c == EOF` on the `char` that holds the result of `getc` is true exactly at
  the end of the stream, and a C string is the list of its characters.
* `unsigned long` and `size_t` are 64 bits wide: `base_index`, `start`, `end`
  and `str_len_required` are naturals reduced modulo `ULONG_MOD`.  The `int`
  counters (`i`, `iCount`, `num_locations`, the two buffer indices and
  `chromo_name_buffsize`) are naturals.
* `malloc` and `realloc` succeed.  A buffer is the list of characters written
  to it together with its size; a write at an index that is not smaller than
  the size is undefined behaviour and ends the run with `Halt.undefined`.
* `fprintf(stderr, msg); exit(EXIT_FAILURE)` ends the run with
  `Halt.fatal msg`.
* `while ((d = getc(ref)) != '>');` (line 89) has no exit at the end of the
  stream, so the functions that run it take a bound on the number of its
  iterations (`fuel`) and give `none` when the bound is used up.
* Two things that the C program leaves to the machine are parameters of the
  driver (`Env`): what a read of `loc.name` gives after `free(str)` (line 244),
  and the largest array `char sequence[str_len_required]` (line 117) that the
  stack holds.  A read that gives no string, and an array that the stack does
  not hold, are undefined behaviour and end the run with `Halt.undefined`.
  `Env.intact` is the environment in which the freed name reads as it was
  written.  With the GNU C library that is so for a name that starts 16
  characters or more into the line, behind the part of the buffer that `free`
  writes to; `strtok` skips spaces at the front of a line, and the location
  lines of several examples start with 16 spaces for that reason.
-/

namespace ExtractFromMask

/-- A stream opened for reading: the characters that have not been read yet. -/
abbrev Stream := List Char

/-- The two ways a run stops before `return 0`. -/
inductive Halt where
  /-- A message on standard error followed by `exit(EXIT_FAILURE)`. -/
  | fatal (msg : String)
  /-- Undefined behaviour of the C program (what went wrong). -/
  | undefined (what : String)
  deriving DecidableEq, Repr

deriving instance DecidableEq for Except

/-- The value of `ULONG_MAX + 1` where `unsigned long` has 64 bits. -/
def ULONG_MOD : Nat := 18446744073709551616

/-- The value of `ULONG_MAX`. -/
def ULONG_MAX : Nat := 18446744073709551615

/-- Reads one character: `getc`. -/
def getc : Stream → Option Char × Stream
  | [] => (none, [])
  | c :: rest => (some c, rest)

/-- The test `d == 'A' || d == 'C' || d == 'G' || d == 'T' || d == 'N'`
(lines 107, 120, 132). -/
def is_base (d : Char) : Bool :=
  d == 'A' || d == 'C' || d == 'G' || d == 'T' || d == 'N'

/-! ## get_chromo_name (lines 152-201) -/

/-- The loop of lines 165-189: `d` is the character read last, `name` the
characters stored in `chromo_name` so far (`chromo_name_index` is its length)
and `buffsize` is `chromo_name_buffsize`. -/
def chromo_name_chars :
    Stream → Char → List Char → Nat → Except (Halt × Stream) (List Char × Nat × Char × Stream)
  | ref, d, name, buffsize =>
    if d ≠ '\n' ∧ d ≠ ' ' then
      let buffsize1 := if name.length = buffsize - 1 then buffsize * 2 else buffsize
      if name.length < buffsize1 then
        match ref with
        | [] => .error (.fatal "Unexpected end of file\n", [])
        | d1 :: ref1 => chromo_name_chars ref1 d1 (name ++ [d]) buffsize1
      else .error (.undefined "chromo_name[chromo_name_index] is outside the buffer", ref)
    else .ok (name, buffsize, d, ref)

/-- The loop of lines 191-196: reads up to and including the newline. -/
def skip_header_rest : Stream → Char → Except (Halt × Stream) Stream
  | ref, d =>
    if d ≠ '\n' then
      match ref with
      | [] => .error (.fatal "Unexpected end of file\n", [])
      | d1 :: ref1 => skip_header_rest ref1 d1
    else .ok ref

/-- The function `get_chromo_name`: the identifier and the stream after the
header line. -/
def get_chromo_name (ref : Stream) : Except (Halt × Stream) (List Char × Stream) :=
  match ref with
  | [] => .error (.fatal "Unexpected end of file\n", [])
  | d :: ref1 =>
    match chromo_name_chars ref1 d [] 60 with
    | .error e => .error e
    | .ok (name, buffsize, d1, ref2) =>
      match skip_header_rest ref2 d1 with
      | .error e => .error e
      | .ok ref3 =>
        if name.length < buffsize then .ok (name, ref3)
        else .error (.undefined "chromo_name[chromo_name_index] is outside the buffer", ref3)

/-! ## get_next_loc (lines 203-248) -/

/-- The struct `location`.  `name` is a pointer into the line buffer of
`get_next_loc`: the field holds the characters of the token it points at, and
`name_live` tells whether that buffer is still allocated. -/
structure location where
  name : List Char
  name_live : Bool
  start : Nat
  end_ : Nat
  deriving DecidableEq, Repr

/-- The loop of lines 213-235: `str` holds the characters stored so far (`i`
is its length). -/
def read_line : Stream → List Char → Nat → Except Halt (List Char × Nat × Stream)
  | [], _, _ => .error (.fatal "Unexpected end of file\n")
  | c :: rest, str, buffsize =>
    if c = '\n' then .ok (str, buffsize, rest)
    else
      let buffsize1 := if str.length = buffsize - 1 then buffsize * 2 else buffsize
      if str.length < buffsize1 then read_line rest (str ++ [c]) buffsize1
      else .error (.undefined "str[i] is outside the buffer")

/-- The C library's `strtok(s, " ")`: skips the spaces at the front, and gives
`none` (the null pointer) when nothing is left; else the token up to the next
space and the text after that space, where the next call goes on. -/
def strtok (s : List Char) : Option (List Char × List Char) :=
  match s.dropWhile (fun c => c == ' ') with
  | [] => none
  | c :: s1 =>
    some ((c :: s1).takeWhile (fun c => c != ' '), ((c :: s1).dropWhile (fun c => c != ' ')).drop 1)

/-- The C library's `isspace` in the C locale. -/
def isspace (c : Char) : Bool :=
  c == ' ' || c == '\t' || c == '\n' || c == '\x0b' || c == '\x0c' || c == '\r'

/-- The test `isdigit`. -/
def isdigit (c : Char) : Bool := '0' ≤ c && c ≤ '9'

/-- The value of the decimal digits at the front of `s`, from the value `acc`
of the digits before them. -/
def digits_value : List Char → Nat → Nat
  | [], acc => acc
  | c :: s, acc => if isdigit c then digits_value s (10 * acc + (c.toNat - 48)) else acc

/-- The C library's `strtoul(s, NULL, 10)`: white space, an optional sign, then
the longest run of decimal digits; 0 when there is no digit, `ULONG_MAX` when
the value does not fit, and the value negated modulo `ULONG_MOD` after `-`. -/
def strtoul (s : List Char) : Nat :=
  match s.dropWhile isspace with
  | '-' :: s1 =>
    let v := digits_value s1 0
    if ULONG_MAX < v then ULONG_MAX else (ULONG_MOD - v) % ULONG_MOD
  | '+' :: s1 => min (digits_value s1 0) ULONG_MAX
  | s1 => min (digits_value s1 0) ULONG_MAX

/-- The function `get_next_loc`: the location read from the next line of
`mask_locs` and the stream after that line.  A null pointer from `strtok` goes
to `strtoul` unchecked (lines 241, 242).  `free(str)` (line 244) runs before the
struct is returned, so `name_live` is `false`. -/
def get_next_loc (mask_locs : Stream) : Except Halt (location × Stream) :=
  match read_line mask_locs [] 100 with
  | .error e => .error e
  | .ok (str, buffsize, rest) =>
    if str.length < buffsize then
      match strtok str with
      | none => .error (.undefined "strtoul(NULL, NULL, 10)")
      | some (name, s1) =>
        match strtok s1 with
        | none => .error (.undefined "strtoul(NULL, NULL, 10)")
        | some (tok_start, s2) =>
          match strtok s2 with
          | none => .error (.undefined "strtoul(NULL, NULL, 10)")
          | some (tok_end, _) =>
            .ok ({ name := name, name_live := false,
                   start := strtoul tok_start, end_ := strtoul tok_end }, rest)
    else .error (.undefined "str[i] is outside the buffer")

/-! ## main (lines 36-150) -/

/-- The arguments of one call of `printf` at line 140: one record on standard
output. -/
structure Record where
  name : List Char
  start : Nat
  end_ : Nat
  sequence : List Char
  deriving DecidableEq, Repr

/-- The text `printf(">%s_%lu_%lu\n%s\n", ...)` writes for one record. -/
def Record.text (r : Record) : List Char :=
  '>' :: r.name ++ '_' :: Nat.toDigits 10 r.start ++ '_' :: Nat.toDigits 10 r.end_
    ++ '\n' :: r.sequence ++ ['\n']

/-- What a run depends on and the C program does not fix. -/
structure Env where
  /-- The characters that a read of a string gives once its buffer is freed,
  from the characters that the buffer held when it was freed: `none` when the
  read gives no string.  Every read of the same freed string is taken to give
  the same result. -/
  freed : List Char → Option (List Char)
  /-- The largest number of characters of an array that the stack holds. -/
  stack : Nat

/-- The environment in which a freed buffer still reads as the characters it
held last, and the stack holds an array of any size an `unsigned long` can
give. -/
def Env.intact : Env := ⟨some, 18446744073709551615⟩

/-- The string that `strcmp` (lines 87, 88) and `printf` (line 140) read
through `loc.name`. -/
def read_name (env : Env) (loc : location) : Option (List Char) :=
  if loc.name_live then some loc.name else env.freed loc.name

/-- The variables of `main` that live across the iterations of the loop over
the locations, and the records written so far. -/
structure Cursor where
  chromo_name : List Char
  d : Char
  ref : Stream
  base_index : Nat
  out : List Record
  deriving DecidableEq, Repr

/-- How a run ends: the records on standard output, the part of the reference
that was not read, and `none` for `return 0` or the reason of the stop. -/
structure Run where
  out : List Record
  ref : Stream
  halt : Option Halt
  deriving DecidableEq, Repr

/-- The text on standard output at the end of a run. -/
def Run.stdout (r : Run) : List Char := (r.out.map Record.text).flatten

/-- The loop of lines 59-63: the number of newline characters of the location
file. -/
def count_newlines : Stream → Nat → Nat
  | [], num_locations => num_locations
  | c :: rest, num_locations =>
    count_newlines rest (if c = '\n' then num_locations + 1 else num_locations)

/-- The loop `while ((d = getc(ref)) != '>');` of line 89, for at most `fuel`
iterations: the stream after the `>`.  At the end of the stream `getc` gives
`EOF`, which is not `>`, and the loop goes on. -/
def skip_to_marker : Nat → Stream → Option Stream
  | 0, _ => none
  | fuel + 1, [] => skip_to_marker fuel []
  | fuel + 1, d :: ref => if d ≠ '>' then skip_to_marker fuel ref else some ref

/-- The loop of lines 88-92: reads headers until `chromo_name` is the name of
the location. -/
def find_chromo :
    Nat → List Char → List Char → Stream → Option (Except (Halt × Stream) (List Char × Stream))
  | 0, _, _, _ => none
  | fuel + 1, chromo_name, loc_name, ref =>
    if chromo_name ≠ loc_name then
      match skip_to_marker fuel ref with
      | none => none
      | some ref1 =>
        match get_chromo_name ref1 with
        | .error e => some (.error e)
        | .ok (chromo_name1, ref2) => find_chromo fuel chromo_name1 loc_name ref2
    else some (.ok (chromo_name, ref))

/-- Lines 86-99: makes the chromosome of the location the current one, where
`name` is the string read through `loc.name`. -/
def resolve_chromo (fuel : Nat) (cur : Cursor) (name : List Char) :
    Option (Except (Halt × Stream) Cursor) :=
  if cur.chromo_name ≠ name then
    match find_chromo fuel cur.chromo_name name cur.ref with
    | none => none
    | some (.error e) => some (.error e)
    | some (.ok (chromo_name, ref)) =>
      match ref with
      | [] => some (.error (.fatal "ERROR: Reference file too short\n", []))
      | d :: ref1 =>
        some (.ok { cur with chromo_name := chromo_name, d := d, ref := ref1, base_index := 1 })
  else some (.ok cur)

/-- The loop of lines 102-114: reads until `base_index` is `start`. -/
def seek (start : Nat) : Stream → Char → Nat → Except (Halt × Stream) (Char × Stream × Nat)
  | ref, d, base_index =>
    if base_index < start then
      match ref with
      | [] => .error (.fatal "ERROR: Reference file too short [2]\n", [])
      | d1 :: ref1 =>
        if is_base d1 then seek start ref1 d1 ((base_index + 1) % ULONG_MOD)
        else if d1 = '>' then
          .error (.fatal "ERROR: Reached end of chromosome without finding location\n", ref1)
        else seek start ref1 d1 base_index
    else .ok (d, ref, base_index)

/-- The loop of lines 119-135: `sequence` holds the characters stored so far
(`i` is its length) in a buffer of `str_len_required` characters. -/
def extract (end_ str_len_required : Nat) :
    Stream → Char → Nat → List Char → Except (Halt × Stream) (Char × Stream × Nat × List Char)
  | ref, d, base_index, sequence =>
    if base_index ≤ end_ then
      if is_base d then
        if sequence.length < str_len_required then
          match ref with
          | [] => .error (.fatal "ERROR: Reference file too short [3]\n", [])
          | d1 :: ref1 =>
            extract end_ str_len_required ref1 d1
              (if is_base d1 then (base_index + 1) % ULONG_MOD else base_index) (sequence ++ [d])
        else .error (.undefined "sequence[i] is outside the buffer", ref)
      else if d = '>' then
        .error (.fatal "ERROR: Reached end of chromosome without finding location\n", ref)
      else
        match ref with
        | [] => .error (.fatal "ERROR: Reference file too short [3]\n", [])
        | d1 :: ref1 =>
          extract end_ str_len_required ref1 d1
            (if is_base d1 then (base_index + 1) % ULONG_MOD else base_index) sequence
    else .ok (d, ref, base_index, sequence)

/-- The body of the loop over the locations from line 81 on, for the location
`loc` that `get_next_loc` returned.  The name is read through `loc.name` after
the buffer it points into was freed (lines 87, 88, 140): `read_name` tells
what the reads give.  The array `sequence` lives on the stack (line 117). -/
def process_loc (env : Env) (fuel : Nat) (cur : Cursor) (loc : location) :
    Option (Except (Halt × Stream) Cursor) :=
  if loc.end_ < loc.start then
    some (.error
      (.fatal "ERROR: End point of location cannot be smaller than start point\n", cur.ref))
  else
    match read_name env loc with
    | none => some (.error (.undefined "loc.name is read after free(str)", cur.ref))
    | some name =>
      match resolve_chromo fuel cur name with
      | none => none
      | some (.error e) => some (.error e)
      | some (.ok cur1) =>
        match seek loc.start cur1.ref cur1.d cur1.base_index with
        | .error e => some (.error e)
        | .ok (d2, ref2, base_index2) =>
          let str_len_required :=
            ((loc.end_ + ULONG_MOD - loc.start) % ULONG_MOD + 2) % ULONG_MOD
          if str_len_required = 0 then
            some (.error (.undefined "char sequence[0]", ref2))
          else if env.stack < str_len_required then
            some (.error (.undefined "char sequence[str_len_required] is outside the stack", ref2))
          else
            match extract loc.end_ str_len_required ref2 d2 base_index2 [] with
            | .error e => some (.error e)
            | .ok (d3, ref3, base_index3, sequence) =>
              if sequence.length < str_len_required then
                some (.ok
                  { chromo_name := cur1.chromo_name, d := d3, ref := ref3,
                    base_index := base_index3,
                    out :=
                      if (str_len_required + ULONG_MOD - 1) % ULONG_MOD ≥ 100 then
                        cur1.out ++ [⟨name, loc.start, loc.end_, sequence⟩]
                      else cur1.out })
              else some (.error (.undefined "sequence[i] is outside the buffer", ref3))

/-- The loop of lines 78-143, with `n` locations still to read
(`num_locations - iCount`). -/
def loc_loop (env : Env) (fuel : Nat) : Nat → Cursor → Stream → Option Run
  | 0, cur, _ => some ⟨cur.out, cur.ref, none⟩
  | n + 1, cur, mask_locs =>
    match get_next_loc mask_locs with
    | .error e => some ⟨cur.out, cur.ref, some e⟩
    | .ok (loc, mask_locs1) =>
      match process_loc env fuel cur loc with
      | none => none
      | some (.error (e, ref)) => some ⟨cur.out, ref, some e⟩
      | some (.ok cur1) => loc_loop env fuel n cur1 mask_locs1

/-- The function `main` from line 56 on, for a reference and a location file
that were opened: `none` when `fuel` iterations of line 89 did not end it. -/
def main (env : Env) (fuel : Nat) (ref mask_locs : Stream) : Option Run :=
  let num_locations := count_newlines mask_locs 0
  match get_chromo_name (getc ref).2 with
  | .error (e, ref1) => some ⟨[], ref1, some e⟩
  | .ok (chromo_name, ref1) =>
    match getc ref1 with
    | (none, ref2) => some ⟨[], ref2, some (.fatal "ERROR: Reference file too short\n")⟩
    | (some d, ref2) => loc_loop env fuel num_locations ⟨chromo_name, d, ref2, 1, []⟩ mask_locs

/-- The locations that the first `n` calls of `get_next_loc` of the loop over
the locations return: `none` when one of the calls stops the run. -/
def read_locs : Nat → Stream → Option (List location)
  | 0, _ => some []
  | n + 1, mask_locs =>
    match get_next_loc mask_locs with
    | .error _ => none
    | .ok (loc, rest) => (read_locs n rest).map (fun locs => loc :: locs)

/-- The cursor after the loop body has run for the locations `locs` in turn:
the loop over the locations once the lines are read. -/
def process_locs (env : Env) (fuel : Nat) :
    Cursor → List location → Option (Except (Halt × Stream) Cursor)
  | cur, [] => some (.ok cur)
  | cur, loc :: locs =>
    match process_loc env fuel cur loc with
    | none => none
    | some (.error e) => some (.error e)
    | some (.ok cur1) => process_locs env fuel cur1 locs

/-! ## Positions in a chromosome

What the statements about the bodies of the records compare the loops with:
the bases of a chromosome by position, and locations in increasing order. -/

/-- The bases at the 1-based positions `start..end` of a sequence, the
characters that are no bases left out. -/
def bases_at (body : Stream) (start end_ : Nat) : List Char :=
  ((body.filter is_base).drop (start - 1)).take (end_ + 1 - start)

/-- The base at the 1-based position `p` of a sequence, the characters that
are no bases left out. -/
def base_at (body : Stream) (p : Nat) : Option Char := (body.filter is_base)[p - 1]?

/-- Locations in increasing order without overlap: every `start` is greater
than the end before it (`prev`) and not greater than its `end`. -/
def increasing_from : Nat → List location → Prop
  | _, [] => True
  | prev, loc :: locs => prev < loc.start ∧ loc.start ≤ loc.end_ ∧ increasing_from loc.end_ locs

instance increasing_from_decidable :
    (prev : Nat) → (locs : List location) → Decidable (increasing_from prev locs)
  | _, [] => isTrue trivial
  | prev, loc :: locs =>
    match increasing_from_decidable loc.end_ locs with
    | isTrue h =>
      if h1 : prev < loc.start ∧ loc.start ≤ loc.end_ then isTrue ⟨h1.1, h1.2, h⟩
      else isFalse (fun hx => h1 ⟨hx.1, hx.2.1⟩)
    | isFalse h => isFalse (fun hx => h hx.2.2)

/-- The loop variables stand on the base at position `p` of the chromosome
`name`, whose bases are `all`: the held character is that base, `base_index`
is `p`, and the bases from `p` on are the held one and those still unread in
the record. -/
def cursor_at (name all : List Char) (p : Nat) (cur : Cursor) : Prop :=
  cur.chromo_name = name ∧ is_base cur.d = true ∧ (∀ c ∈ cur.ref, c ≠ '>') ∧
    cur.base_index = p ∧ 1 ≤ p ∧ (cur.d :: cur.ref).filter is_base = all.drop (p - 1)

/-! ## Lemmas on get_chromo_name -/

theorem skip_header_rest_newline (ref : Stream) : skip_header_rest ref '\n' = .ok ref := by
  rw [skip_header_rest.eq_def]
  simp

theorem chromo_name_chars_stop (ref : Stream) (t : Char) (ht : t = '\n' ∨ t = ' ')
    (name : List Char) (buffsize : Nat) :
    chromo_name_chars ref t name buffsize = .ok (name, buffsize, t, ref) := by
  rw [chromo_name_chars.eq_def]
  rcases ht with h | h <;> simp [h]

theorem chromo_name_chars_id (tail : Stream) (t : Char) (ht : t = '\n' ∨ t = ' ') :
    ∀ (id : List Char) (d : Char) (name : List Char) (buffsize : Nat),
      (∀ c ∈ d :: id, c ≠ '\n' ∧ c ≠ ' ') → name.length < buffsize →
      ∃ buffsize1, (name ++ d :: id).length < buffsize1 ∧
        chromo_name_chars (id ++ t :: tail) d name buffsize
          = .ok (name ++ d :: id, buffsize1, t, tail) := by
  intro id
  induction id with
  | nil =>
    intro d name buffsize hd hlen
    have hd1 := hd d (by simp)
    have hbs : name.length <
        (if name.length = buffsize - 1 then buffsize * 2 else buffsize) := by
      split <;> omega
    have hlen1 : (name ++ [d]).length <
        (if name.length = buffsize - 1 then buffsize * 2 else buffsize) := by
      simp only [List.length_append, List.length_singleton]
      split <;> omega
    refine ⟨_, hlen1, ?_⟩
    rw [List.nil_append, chromo_name_chars]
    simp only [hd1.1, hd1.2, ne_eq, not_false_eq_true, and_self, if_true, hbs]
    exact chromo_name_chars_stop tail t ht _ _
  | cons c id ih =>
    intro d name buffsize hd hlen
    have hd1 := hd d (by simp)
    have hbs : name.length <
        (if name.length = buffsize - 1 then buffsize * 2 else buffsize) := by
      split <;> omega
    have hlen1 : (name ++ [d]).length <
        (if name.length = buffsize - 1 then buffsize * 2 else buffsize) := by
      simp only [List.length_append, List.length_singleton]
      split <;> omega
    obtain ⟨b1, hb1, hrun⟩ := ih c (name ++ [d]) _ (fun x hx => hd x (by simp at hx ⊢; tauto)) hlen1
    refine ⟨b1, by simpa using hb1, ?_⟩
    rw [List.cons_append, chromo_name_chars]
    simp only [hd1.1, hd1.2, ne_eq, not_false_eq_true, and_self, if_true, hbs]
    rw [hrun]
    simp

theorem skip_header_rest_line (tail : Stream) :
    ∀ (rest : List Char) (d : Char), (∀ c ∈ d :: rest, c ≠ '\n') →
      skip_header_rest (rest ++ '\n' :: tail) d = .ok tail := by
  intro rest
  induction rest with
  | nil =>
    intro d hd
    have hd1 := hd d (by simp)
    rw [List.nil_append, skip_header_rest]
    simp only [hd1, ne_eq, not_false_eq_true, if_true]
    exact skip_header_rest_newline tail
  | cons c rest ih =>
    intro d hd
    have hd1 := hd d (by simp)
    rw [List.cons_append, skip_header_rest]
    simp only [hd1, ne_eq, not_false_eq_true, if_true]
    exact ih c (fun x hx => hd x (by simp at hx ⊢; tauto))

/-- The identifier of a header line without description text. -/
theorem get_chromo_name_plain (id : List Char) (tail : Stream)
    (hid : ∀ c ∈ id, c ≠ '\n' ∧ c ≠ ' ') :
    get_chromo_name (id ++ '\n' :: tail) = .ok (id, tail) := by
  cases id with
  | nil =>
    simp [get_chromo_name, chromo_name_chars_stop _ '\n' (Or.inl rfl), skip_header_rest_newline]
  | cons d id =>
    obtain ⟨b1, hb1, hrun⟩ :=
      chromo_name_chars_id tail '\n' (Or.inl rfl) id d [] 60 hid (by simp)
    simp only [List.nil_append] at hb1 hrun
    simp only [List.cons_append, get_chromo_name, hrun, skip_header_rest_newline]
    simp only [List.length_cons] at hb1
    simp [hb1]

/-- The identifier of a header line with description text after a space. -/
theorem get_chromo_name_described (id rest : List Char) (tail : Stream)
    (hid : ∀ c ∈ id, c ≠ '\n' ∧ c ≠ ' ') (hrest : ∀ c ∈ rest, c ≠ '\n') :
    get_chromo_name (id ++ ' ' :: rest ++ '\n' :: tail) = .ok (id, tail) := by
  have hsk : skip_header_rest (rest ++ '\n' :: tail) ' ' = .ok tail :=
    skip_header_rest_line tail rest ' ' (by
      intro c hc
      rcases List.mem_cons.1 hc with h | h
      · rw [h]; decide
      · exact hrest c h)
  cases id with
  | nil =>
    simp [get_chromo_name, chromo_name_chars_stop _ ' ' (Or.inr rfl), hsk]
  | cons d id =>
    obtain ⟨b1, hb1, hrun⟩ :=
      chromo_name_chars_id (rest ++ '\n' :: tail) ' ' (Or.inr rfl) id d [] 60 hid (by simp)
    simp only [List.nil_append] at hb1 hrun
    simp only [List.cons_append, List.append_assoc, get_chromo_name, hrun, hsk]
    simp only [List.length_cons] at hb1
    simp [hb1]

/-! ## Lemmas on get_next_loc -/

theorem read_line_line (tail : Stream) :
    ∀ (line str : List Char) (buffsize : Nat), (∀ c ∈ line, c ≠ '\n') → str.length < buffsize →
      ∃ buffsize1, (str ++ line).length < buffsize1 ∧
        read_line (line ++ '\n' :: tail) str buffsize = .ok (str ++ line, buffsize1, tail) := by
  intro line
  induction line with
  | nil =>
    intro str buffsize _ hlen
    exact ⟨buffsize, by simpa using hlen, by simp [read_line]⟩
  | cons c line ih =>
    intro str buffsize hline hlen
    have hc : c ≠ '\n' := hline c (by simp)
    have hbs : str.length <
        (if str.length = buffsize - 1 then buffsize * 2 else buffsize) := by
      split <;> omega
    have hlen1 : (str ++ [c]).length <
        (if str.length = buffsize - 1 then buffsize * 2 else buffsize) := by
      simp only [List.length_append, List.length_singleton]
      split <;> omega
    obtain ⟨b1, hb1, hrun⟩ := ih (str ++ [c]) _ (fun x hx => hline x (by simp [hx])) hlen1
    refine ⟨b1, by simpa using hb1, ?_⟩
    rw [List.cons_append, read_line]
    simp only [hc, if_false, hbs, if_true]
    rw [hrun]
    simp

theorem dropWhile_not_space (tok : List Char) (htok : ∀ c ∈ tok, c ≠ ' ') (rest : List Char) :
    (tok ++ ' ' :: rest).dropWhile (fun c => c != ' ') = ' ' :: rest := by
  induction tok with
  | nil => simp
  | cons c tok ih =>
    have hc : c ≠ ' ' := htok c (by simp)
    rw [List.cons_append, List.dropWhile_cons]
    simp only [bne_iff_ne, ne_eq, hc, not_false_eq_true, if_true]
    exact ih (fun x hx => htok x (by simp [hx]))

theorem takeWhile_not_space (tok : List Char) (htok : ∀ c ∈ tok, c ≠ ' ') (rest : List Char) :
    (tok ++ ' ' :: rest).takeWhile (fun c => c != ' ') = tok := by
  induction tok with
  | nil => simp
  | cons c tok ih =>
    have hc : c ≠ ' ' := htok c (by simp)
    rw [List.cons_append, List.takeWhile_cons]
    simp only [bne_iff_ne, ne_eq, hc, not_false_eq_true, if_true]
    rw [ih (fun x hx => htok x (by simp [hx]))]

theorem dropWhile_not_space_all (tok : List Char) (htok : ∀ c ∈ tok, c ≠ ' ') :
    tok.dropWhile (fun c => c != ' ') = [] := by
  induction tok with
  | nil => simp
  | cons c tok ih =>
    have hc : c ≠ ' ' := htok c (by simp)
    rw [List.dropWhile_cons]
    simp only [bne_iff_ne, ne_eq, hc, not_false_eq_true, if_true]
    exact ih (fun x hx => htok x (by simp [hx]))

theorem takeWhile_not_space_all (tok : List Char) (htok : ∀ c ∈ tok, c ≠ ' ') :
    tok.takeWhile (fun c => c != ' ') = tok := by
  induction tok with
  | nil => simp
  | cons c tok ih =>
    have hc : c ≠ ' ' := htok c (by simp)
    rw [List.takeWhile_cons]
    simp only [bne_iff_ne, ne_eq, hc, not_false_eq_true, if_true]
    rw [ih (fun x hx => htok x (by simp [hx]))]

/-- A token followed by a space: `strtok` gives the token and goes on after
the space. -/
theorem strtok_token_space (tok rest : List Char) (hne : tok ≠ [])
    (htok : ∀ c ∈ tok, c ≠ ' ') :
    strtok (tok ++ ' ' :: rest) = some (tok, rest) := by
  cases tok with
  | nil => exact absurd rfl hne
  | cons c tok =>
    have hc : c ≠ ' ' := htok c (by simp)
    have h1 : ((c :: tok) ++ ' ' :: rest).dropWhile (fun c => c == ' ')
        = c :: (tok ++ ' ' :: rest) := by
      rw [List.cons_append, List.dropWhile_cons]
      simp [hc]
    unfold strtok
    rw [h1]
    have h2 := takeWhile_not_space (c :: tok) htok rest
    have h3 := dropWhile_not_space (c :: tok) htok rest
    rw [List.cons_append] at h2 h3
    simp only [h2, h3, List.drop_succ_cons, List.drop_zero]

/-- A token that ends the string: `strtok` gives the token and nothing is
left. -/
theorem strtok_token_end (tok : List Char) (hne : tok ≠ []) (htok : ∀ c ∈ tok, c ≠ ' ') :
    strtok tok = some (tok, []) := by
  cases tok with
  | nil => exact absurd rfl hne
  | cons c tok =>
    have hc : c ≠ ' ' := htok c (by simp)
    have h1 : (c :: tok).dropWhile (fun c => c == ' ') = c :: tok := by
      rw [List.dropWhile_cons]
      simp [hc]
    unfold strtok
    rw [h1]
    simp only [takeWhile_not_space_all (c :: tok) htok, dropWhile_not_space_all (c :: tok) htok,
      List.drop_nil]

/-- A line of three fields separated by single spaces: `get_next_loc` hands
the second and the third to `strtoul` as they are, and reads the line with its
newline. -/
theorem get_next_loc_fields (name f1 f2 : List Char) (tail : Stream)
    (hname : name ≠ []) (hf1 : f1 ≠ []) (hf2 : f2 ≠ [])
    (hn : ∀ c ∈ name, c ≠ ' ' ∧ c ≠ '\n') (h1 : ∀ c ∈ f1, c ≠ ' ' ∧ c ≠ '\n')
    (h2 : ∀ c ∈ f2, c ≠ ' ' ∧ c ≠ '\n') :
    get_next_loc (name ++ ' ' :: f1 ++ ' ' :: f2 ++ '\n' :: tail)
      = .ok ({ name := name, name_live := false, start := strtoul f1, end_ := strtoul f2 },
          tail) := by
  have hline : ∀ c ∈ name ++ ' ' :: f1 ++ ' ' :: f2, c ≠ '\n' := by
    intro c hc
    simp only [List.mem_append, List.mem_cons, List.append_assoc, List.cons_append] at hc
    rcases hc with h | h | h | h | h
    · exact (hn c h).2
    · rw [h]; decide
    · exact (h1 c h).2
    · rw [h]; decide
    · exact (h2 c h).2
  obtain ⟨b1, hb1, hrun⟩ :=
    read_line_line tail (name ++ ' ' :: f1 ++ ' ' :: f2) [] 100 hline (by simp)
  simp only [List.nil_append] at hb1 hrun
  unfold get_next_loc
  rw [hrun]
  simp only [hb1, if_true]
  have e1 : name ++ ' ' :: f1 ++ ' ' :: f2 = name ++ ' ' :: (f1 ++ ' ' :: f2) := by simp
  rw [e1, strtok_token_space name _ hname (fun c hc => (hn c hc).1)]
  simp only
  rw [strtok_token_space f1 _ hf1 (fun c hc => (h1 c hc).1)]
  simp only
  rw [strtok_token_end f2 hf2 (fun c hc => (h2 c hc).1)]

/-! ## Lemmas on strtoul -/

theorem digitChar_isdigit (k : Nat) (hk : k < 10) :
    isdigit (Nat.digitChar k) = true ∧ (Nat.digitChar k).toNat - 48 = k := by
  interval_cases k <;> decide

theorem digits_value_stop (s : List Char) (acc : Nat)
    (hs : s = [] ∨ ∃ c r, s = c :: r ∧ isdigit c = false) : digits_value s acc = acc := by
  rcases hs with h | ⟨c, r, h, hc⟩
  · rw [h, digits_value]
  · rw [h, digits_value]
    simp [hc]

theorem digits_value_toDigitsCore :
    ∀ (fuel n : Nat) (ds : List Char), n < fuel →
      digits_value (Nat.toDigitsCore 10 fuel n ds) 0 = digits_value ds n := by
  intro fuel
  induction fuel with
  | zero => intro n ds h; omega
  | succ fuel ih =>
    intro n ds h
    have hd := digitChar_isdigit (n % 10) (Nat.mod_lt _ (by decide))
    rw [Nat.toDigitsCore]
    by_cases h0 : n / 10 = 0
    · simp only [h0, if_true]
      rw [digits_value]
      simp only [hd.1, if_true, hd.2]
      congr 1
      omega
    · simp only [h0, if_false]
      rw [ih (n / 10) _ (by omega), digits_value]
      simp only [hd.1, if_true, hd.2]
      congr 1
      omega

theorem digits_value_append_stop :
    ∀ (s junk : List Char) (acc : Nat), (∀ c ∈ s, isdigit c = true) →
      (junk = [] ∨ ∃ c r, junk = c :: r ∧ isdigit c = false) →
      digits_value (s ++ junk) acc = digits_value s acc := by
  intro s
  induction s with
  | nil =>
    intro junk acc _ hj
    rw [List.nil_append, digits_value_stop junk acc hj, digits_value]
  | cons c s ih =>
    intro junk acc hs hj
    have hc : isdigit c = true := hs c (by simp)
    rw [List.cons_append, digits_value, digits_value]
    simp only [hc, if_true]
    exact ih junk _ (fun x hx => hs x (by simp [hx])) hj

theorem toDigitsCore_digits :
    ∀ (fuel n : Nat) (ds : List Char), (∀ c ∈ ds, isdigit c = true) →
      ∀ c ∈ Nat.toDigitsCore 10 fuel n ds, isdigit c = true := by
  intro fuel
  induction fuel with
  | zero => intro n ds h; simpa [Nat.toDigitsCore] using h
  | succ fuel ih =>
    intro n ds h
    have hd := digitChar_isdigit (n % 10) (Nat.mod_lt _ (by decide))
    have hds : ∀ c ∈ Nat.digitChar (n % 10) :: ds, isdigit c = true := by
      intro c hc
      rcases List.mem_cons.1 hc with h1 | h1
      · rw [h1]; exact hd.1
      · exact h c h1
    rw [Nat.toDigitsCore]
    by_cases h0 : n / 10 = 0
    · simpa only [h0, if_true] using hds
    · simpa only [h0, if_false] using ih (n / 10) _ hds

theorem toDigitsCore_ne_nil :
    ∀ (fuel n : Nat) (ds : List Char), (0 < fuel ∨ ds ≠ []) →
      Nat.toDigitsCore 10 fuel n ds ≠ [] := by
  intro fuel
  induction fuel with
  | zero =>
    intro n ds h
    rcases h with h | h
    · omega
    · simpa [Nat.toDigitsCore] using h
  | succ fuel ih =>
    intro n ds _
    rw [Nat.toDigitsCore]
    by_cases h0 : n / 10 = 0
    · simp [h0]
    · simp only [h0, if_false]
      exact ih _ _ (Or.inr (by simp))

/-- The decimal numeral of `n` consists of digits and is not empty. -/
theorem toDigits_digits (n : Nat) :
    Nat.toDigits 10 n ≠ [] ∧ ∀ c ∈ Nat.toDigits 10 n, isdigit c = true :=
  ⟨toDigitsCore_ne_nil _ _ _ (Or.inl (Nat.succ_pos n)),
   toDigitsCore_digits _ _ _ (by simp)⟩

theorem isdigit_not_space (c : Char) (hc : isdigit c = true) :
    isspace c = false ∧ c ≠ '-' ∧ c ≠ '+' ∧ c ≠ ' ' ∧ c ≠ '\n' := by
  have h : '0' ≤ c ∧ c ≤ '9' := by simpa [isdigit] using hc
  have h1 : 48 ≤ c.val.toNat := h.1
  have h2 : c.val.toNat ≤ 57 := h.2
  have key : ∀ (x : Char), x.val.toNat < 48 → c ≠ x := by
    intro x hx hcx
    rw [hcx] at h1
    omega
  refine ⟨?_, key _ (by decide), key _ (by decide), key _ (by decide), key _ (by decide)⟩
  simp only [isspace, Bool.or_eq_false_iff, beq_eq_false_iff_ne]
  exact ⟨⟨⟨⟨⟨key _ (by decide), key _ (by decide)⟩, key _ (by decide)⟩, key _ (by decide)⟩,
    key _ (by decide)⟩, key _ (by decide)⟩

/-- A field that starts with a digit: `strtoul` gives the value of its digits,
or `ULONG_MAX` when they do not fit. -/
theorem strtoul_digit_first (c : Char) (s : List Char) (hc : isdigit c = true) :
    strtoul (c :: s) = min (digits_value (c :: s) 0) ULONG_MAX := by
  obtain ⟨hsp, hm, hp, _, _⟩ := isdigit_not_space c hc
  unfold strtoul
  rw [List.dropWhile_cons]
  simp only [hsp, Bool.false_eq_true, if_false]
  split
  · rename_i s1 heq
    exact absurd (List.cons.inj heq).1 hm
  · rename_i s1 heq
    exact absurd (List.cons.inj heq).1 hp
  · rfl

/-- The round trip of `%lu` and `strtoul`: the decimal numeral of a number that
fits an `unsigned long`, followed by text that does not start with a digit,
reads as that number. -/
theorem strtoul_toDigits (n : Nat) (hn : n < ULONG_MOD) (junk : List Char)
    (hj : junk = [] ∨ ∃ c r, junk = c :: r ∧ isdigit c = false) :
    strtoul (Nat.toDigits 10 n ++ junk) = n := by
  obtain ⟨hne, hdig⟩ := toDigits_digits n
  have hval : digits_value (Nat.toDigits 10 n ++ junk) 0 = n := by
    rw [digits_value_append_stop _ junk 0 hdig hj]
    unfold Nat.toDigits
    rw [digits_value_toDigitsCore _ _ _ (Nat.lt_succ_self n), digits_value]
  cases hds : Nat.toDigits 10 n with
  | nil => exact absurd hds hne
  | cons c s =>
    rw [hds] at hval hdig
    rw [List.cons_append] at hval ⊢
    rw [strtoul_digit_first c _ (hdig c (by simp)), hval]
    unfold ULONG_MOD at hn
    unfold ULONG_MAX
    omega

/-- A field whose first character is neither white space, nor a sign, nor a
digit: `strtoul` gives 0. -/
theorem strtoul_no_digit (c : Char) (s : List Char) (hsp : isspace c = false)
    (hm : c ≠ '-') (hp : c ≠ '+') (hd : isdigit c = false) : strtoul (c :: s) = 0 := by
  unfold strtoul
  rw [List.dropWhile_cons]
  simp only [hsp, Bool.false_eq_true, if_false]
  split
  · rename_i s1 heq
    exact absurd (List.cons.inj heq).1 hm
  · rename_i s1 heq
    exact absurd (List.cons.inj heq).1 hp
  · rw [digits_value]
    simp [hd]

/-! ## Bounds kept by the driver -/

theorem strtoul_lt (s : List Char) : strtoul s < ULONG_MOD := by
  have hM : ULONG_MAX < ULONG_MOD := by decide
  have hpos : 0 < ULONG_MOD := by decide
  unfold strtoul
  split
  · simp only
    split
    · exact hM
    · exact Nat.mod_lt _ hpos
  · exact lt_of_le_of_lt (Nat.min_le_right _ _) hM
  · exact lt_of_le_of_lt (Nat.min_le_right _ _) hM

theorem get_next_loc_bounds (mask_locs rest : Stream) (loc : location)
    (h : get_next_loc mask_locs = .ok (loc, rest)) :
    loc.start < ULONG_MOD ∧ loc.end_ < ULONG_MOD ∧ loc.name_live = false := by
  unfold get_next_loc at h
  split at h
  · cases h
  · split at h
    · split at h
      · cases h
      · split at h
        · cases h
        · split at h
          · cases h
          · injection h with h
            injection h with h1 h2
            subst h1
            exact ⟨strtoul_lt _, strtoul_lt _, rfl⟩
    · cases h

theorem seek_ok (start : Nat) :
    ∀ (ref : Stream) (d : Char) (base_index : Nat) (d1 : Char) (ref1 : Stream) (bi1 : Nat),
      seek start ref d base_index = .ok (d1, ref1, bi1) → base_index < ULONG_MOD →
      bi1 < ULONG_MOD ∧ start ≤ bi1 := by
  have hpos : 0 < ULONG_MOD := by decide
  intro ref
  induction ref with
  | nil =>
    intro d bi d1 ref1 bi1 h hbi
    rw [seek] at h
    split at h
    · cases h
    · injection h with h
      injection h with _ h
      injection h with _ h
      subst h
      exact ⟨hbi, by omega⟩
  | cons c ref ih =>
    intro d bi d1 ref1 bi1 h hbi
    rw [seek] at h
    split at h
    · split at h
      · exact ih _ _ _ _ _ h (Nat.mod_lt _ hpos)
      · split at h
        · cases h
        · exact ih _ _ _ _ _ h hbi
    · injection h with h
      injection h with _ h
      injection h with _ h
      subst h
      exact ⟨hbi, by omega⟩

theorem extract_ok (end_ cap : Nat) :
    ∀ (ref : Stream) (d : Char) (base_index : Nat) (seq : List Char) (d1 : Char) (ref1 : Stream)
      (bi1 : Nat) (seq1 : List Char),
      extract end_ cap ref d base_index seq = .ok (d1, ref1, bi1, seq1) →
      base_index < ULONG_MOD → bi1 < ULONG_MOD ∧ end_ < bi1 := by
  have hpos : 0 < ULONG_MOD := by decide
  intro ref
  induction ref with
  | nil =>
    intro d bi seq d1 ref1 bi1 seq1 h hbi
    rw [extract] at h
    split at h
    · split at h
      · split at h <;> cases h
      · split at h <;> cases h
    · injection h with h
      injection h with _ h
      injection h with _ h
      injection h with h _
      subst h
      exact ⟨hbi, by omega⟩
  | cons c ref ih =>
    intro d bi seq d1 ref1 bi1 seq1 h hbi
    have hbi1 : (if is_base c = true then (bi + 1) % ULONG_MOD else bi) < ULONG_MOD := by
      split
      · exact Nat.mod_lt _ hpos
      · exact hbi
    rw [extract] at h
    split at h
    · split at h
      · split at h
        · exact ih _ _ _ _ _ _ _ h hbi1
        · cases h
      · split at h
        · cases h
        · exact ih _ _ _ _ _ _ _ h hbi1
    · injection h with h
      injection h with _ h
      injection h with _ h
      injection h with h _
      subst h
      exact ⟨hbi, by omega⟩

theorem resolve_chromo_ok (fuel : Nat) (cur cur1 : Cursor) (name : List Char)
    (h : resolve_chromo fuel cur name = some (.ok cur1)) :
    cur1.out = cur.out ∧ (cur.base_index < ULONG_MOD → cur1.base_index < ULONG_MOD) := by
  unfold resolve_chromo at h
  split at h
  · split at h
    · cases h
    · cases h
    · split at h
      · cases h
      · injection h with h
        injection h with h
        subst h
        exact ⟨rfl, fun _ => by simp [ULONG_MOD]⟩
  · injection h with h
    injection h with h
    subst h
    exact ⟨rfl, id⟩

/-- What one successful pass through the loop body does to the output: it
appends the record of the location, under the name that the read of
`loc.name` gave, when the span is at least 100 long, and nothing otherwise. -/
theorem process_loc_ok (env : Env) (fuel : Nat) (cur cur1 : Cursor) (loc : location)
    (h : process_loc env fuel cur loc = some (.ok cur1))
    (hbi : cur.base_index < ULONG_MOD) (hs : loc.start < ULONG_MOD)
    (_he : loc.end_ < ULONG_MOD) :
    cur1.base_index < ULONG_MOD ∧ loc.start ≤ loc.end_ ∧
      ∃ name seq, read_name env loc = some name ∧ cur1.out = cur.out ++
        (if 100 ≤ loc.end_ - loc.start + 1 then [⟨name, loc.start, loc.end_, seq⟩] else []) := by
  unfold process_loc at h
  split at h
  · cases h
  · rename_i hle
    split at h
    · cases h
    · rename_i name hread
      split at h
      · cases h
      · cases h
      · rename_i cur2 hres
        obtain ⟨hout, hb2⟩ := resolve_chromo_ok fuel cur cur2 name hres
        split at h
        · cases h
        · rename_i d2 ref2 bi2 hseek
          obtain ⟨hbi2, _⟩ := seek_ok _ _ _ _ _ _ _ hseek (hb2 hbi)
          simp only at h
          split at h
          · cases h
          · rename_i hslr
            split at h
            · cases h
            · split at h
              · cases h
              · rename_i d3 ref3 bi3 seq hext
                obtain ⟨hbi3, hend⟩ := extract_ok _ _ _ _ _ _ _ _ _ _ hext hbi2
                split at h
                · injection h with h
                  injection h with h
                  subst h
                  refine ⟨hbi3, by omega, name, seq, hread, ?_⟩
                  simp only [hout]
                  unfold ULONG_MOD at hs hslr hbi3 ⊢
                  by_cases h100 : 100 ≤ loc.end_ - loc.start + 1
                  · rw [if_pos h100, if_pos (by omega)]
                  · rw [if_neg h100, if_neg (by omega)]
                    simp
                · cases h

/-! ## The records of a run -/

theorem count_newlines_eq (s : Stream) (n : Nat) : count_newlines s n = n + s.count '\n' := by
  induction s generalizing n with
  | nil => simp [count_newlines]
  | cons c s ih =>
    rw [count_newlines, ih, List.count_cons]
    by_cases h : c = '\n'
    · simp [h]; omega
    · simp [h]

theorem read_locs_length : ∀ (n : Nat) (mask_locs : Stream) (locs : List location),
    read_locs n mask_locs = some locs → locs.length = n := by
  intro n
  induction n with
  | zero =>
    intro m locs h
    simp only [read_locs, Option.some.injEq] at h
    rw [← h, List.length_nil]
  | succ n ih =>
    intro m locs h
    rw [read_locs] at h
    split at h
    · cases h
    · rename_i loc rest _
      cases hr : read_locs n rest with
      | none => rw [hr] at h; cases h
      | some l =>
        rw [hr] at h
        simp only [Option.map_some', Option.some.injEq] at h
        rw [← h, List.length_cons, ih rest l hr]

/-- The records of a loop over the locations that ends with `return 0`: one
for each location of at least 100 bases, in order, under the name that the
read of `loc.name` gave. -/
theorem loc_loop_records (env : Env) (fuel : Nat) :
    ∀ (n : Nat) (cur : Cursor) (mask_locs : Stream) (r : Run),
      cur.base_index < ULONG_MOD → loc_loop env fuel n cur mask_locs = some r → r.halt = none →
      ∃ locs, read_locs n mask_locs = some locs ∧ (∀ l ∈ locs, l.start ≤ l.end_) ∧
        r.out.map (fun x => (some x.name, x.start, x.end_))
          = cur.out.map (fun x => (some x.name, x.start, x.end_))
            ++ (locs.filter (fun l => decide (100 ≤ l.end_ - l.start + 1))).map
                (fun l => (read_name env l, l.start, l.end_)) := by
  intro n
  induction n with
  | zero =>
    intro cur m r _ h _
    simp only [loc_loop, Option.some.injEq] at h
    subst h
    exact ⟨[], rfl, by simp, by simp⟩
  | succ n ih =>
    intro cur m r hbi h hok
    rw [loc_loop] at h
    split at h
    · simp only [Option.some.injEq] at h
      subst h
      cases hok
    · rename_i loc rest hloc
      obtain ⟨hs, he, _⟩ := get_next_loc_bounds m rest loc hloc
      split at h
      · cases h
      · simp only [Option.some.injEq] at h
        subst h
        cases hok
      · rename_i cur1 hproc
        obtain ⟨hbi1, hle, name, seq, hread, hout⟩ :=
          process_loc_ok env fuel cur cur1 loc hproc hbi hs he
        obtain ⟨locs, hlocs, hall, hmap⟩ := ih cur1 rest r hbi1 h hok
        refine ⟨loc :: locs, ?_, ?_, ?_⟩
        · rw [read_locs, hloc]
          simp only [hlocs, Option.map_some']
        · intro l hl
          rcases List.mem_cons.1 hl with h1 | h1
          · rw [h1]; exact hle
          · exact hall l h1
        · rw [hmap, hout]
          rw [List.filter_cons]
          by_cases h100 : 100 ≤ loc.end_ - loc.start + 1
          · rw [if_pos h100, if_pos (decide_eq_true h100)]
            simp only [List.map_append, List.map_cons, List.map_nil, List.append_assoc,
              List.singleton_append, hread]
          · rw [if_neg h100, if_neg (by simpa using h100)]
            simp only [List.append_nil]

/-! ## The bound on the iterations of line 89 -/

theorem skip_to_marker_mono :
    ∀ (fuel fuel1 : Nat) (ref ref1 : Stream), fuel ≤ fuel1 →
      skip_to_marker fuel ref = some ref1 → skip_to_marker fuel1 ref = some ref1 := by
  intro fuel
  induction fuel with
  | zero => intro fuel1 ref ref1 _ h; simp [skip_to_marker] at h
  | succ fuel ih =>
    intro fuel1 ref ref1 hle h
    obtain ⟨k, rfl⟩ : ∃ k, fuel1 = k + 1 := ⟨fuel1 - 1, by omega⟩
    cases ref with
    | nil =>
      rw [skip_to_marker] at h ⊢
      exact ih k [] ref1 (by omega) h
    | cons d ref =>
      rw [skip_to_marker] at h ⊢
      split
      · rename_i hd
        rw [if_pos hd] at h
        exact ih k ref ref1 (by omega) h
      · rename_i hd
        rw [if_neg hd] at h
        exact h

theorem find_chromo_mono :
    ∀ (fuel fuel1 : Nat) (name loc_name : List Char) (ref : Stream)
      (r : Except (Halt × Stream) (List Char × Stream)), fuel ≤ fuel1 →
      find_chromo fuel name loc_name ref = some r →
      find_chromo fuel1 name loc_name ref = some r := by
  intro fuel
  induction fuel with
  | zero => intro fuel1 name loc_name ref r _ h; simp [find_chromo] at h
  | succ fuel ih =>
    intro fuel1 name loc_name ref r hle h
    obtain ⟨k, rfl⟩ : ∃ k, fuel1 = k + 1 := ⟨fuel1 - 1, by omega⟩
    rw [find_chromo] at h ⊢
    split
    · rename_i hne
      rw [if_pos hne] at h
      cases hs : skip_to_marker fuel ref with
      | none => rw [hs] at h; cases h
      | some ref1 =>
        rw [hs] at h
        rw [skip_to_marker_mono fuel k ref ref1 (by omega) hs]
        simp only at h ⊢
        cases hg : get_chromo_name ref1 with
        | error e => rw [hg] at h; exact h
        | ok v =>
          obtain ⟨name1, ref2⟩ := v
          rw [hg] at h
          exact ih k name1 loc_name ref2 r (by omega) h
    · rename_i hne
      rw [if_neg hne] at h
      exact h

theorem resolve_chromo_mono (fuel fuel1 : Nat) (cur : Cursor) (name : List Char)
    (r : Except (Halt × Stream) Cursor) (hle : fuel ≤ fuel1)
    (h : resolve_chromo fuel cur name = some r) : resolve_chromo fuel1 cur name = some r := by
  unfold resolve_chromo at h ⊢
  split
  · rename_i hne
    rw [if_pos hne] at h
    cases hf : find_chromo fuel cur.chromo_name name cur.ref with
    | none => rw [hf] at h; cases h
    | some v =>
      rw [hf] at h
      rw [find_chromo_mono fuel fuel1 _ _ _ v hle hf]
      exact h
  · rename_i hne
    rw [if_neg hne] at h
    exact h

theorem process_loc_mono (env : Env) (fuel fuel1 : Nat) (cur : Cursor) (loc : location)
    (r : Except (Halt × Stream) Cursor) (hle : fuel ≤ fuel1)
    (h : process_loc env fuel cur loc = some r) : process_loc env fuel1 cur loc = some r := by
  unfold process_loc at h ⊢
  split
  · rename_i hlt
    rw [if_pos hlt] at h
    exact h
  · rename_i hlt
    rw [if_neg hlt] at h
    cases hn : read_name env loc with
    | none => rw [hn] at h; exact h
    | some name =>
      rw [hn] at h
      simp only at h ⊢
      cases hr : resolve_chromo fuel cur name with
      | none => rw [hr] at h; cases h
      | some v =>
        rw [hr] at h
        rw [resolve_chromo_mono fuel fuel1 cur name v hle hr]
        exact h

theorem loc_loop_mono (env : Env) (fuel fuel1 : Nat) (hle : fuel ≤ fuel1) :
    ∀ (n : Nat) (cur : Cursor) (mask_locs : Stream) (r : Run),
      loc_loop env fuel n cur mask_locs = some r →
      loc_loop env fuel1 n cur mask_locs = some r := by
  intro n
  induction n with
  | zero => intro cur m r h; simpa [loc_loop] using h
  | succ n ih =>
    intro cur m r h
    rw [loc_loop] at h ⊢
    cases hg : get_next_loc m with
    | error e => rw [hg] at h; exact h
    | ok v =>
      obtain ⟨loc, rest⟩ := v
      rw [hg] at h
      simp only at h ⊢
      cases hp : process_loc env fuel cur loc with
      | none => rw [hp] at h; cases h
      | some w =>
        rw [hp] at h
        rw [process_loc_mono env fuel fuel1 cur loc w hle hp]
        cases w with
        | error e => exact h
        | ok cur1 => exact ih cur1 rest r h

/-- A run that ends within `fuel` iterations of line 89 ends the same way
within any larger bound. -/
theorem main_mono (env : Env) (fuel fuel1 : Nat) (hle : fuel ≤ fuel1) (ref mask_locs : Stream)
    (r : Run) (h : main env fuel ref mask_locs = some r) :
    main env fuel1 ref mask_locs = some r := by
  unfold main at h ⊢
  simp only at h ⊢
  split
  · rename_i e ref1 hg
    rw [hg] at h
    exact h
  · rename_i name ref1 hg
    rw [hg] at h
    simp only at h
    split
    · rename_i ref2 hc
      rw [hc] at h
      exact h
    · rename_i d ref2 hc
      rw [hc] at h
      exact loc_loop_mono env fuel fuel1 hle _ _ _ r h

/-- At the end of the stream the loop of line 89 never ends: whatever the
bound, it is used up. -/
theorem skip_to_marker_no_marker :
    ∀ (fuel : Nat) (ref : Stream), (∀ c ∈ ref, c ≠ '>') → skip_to_marker fuel ref = none := by
  intro fuel
  induction fuel with
  | zero => intro ref _; rfl
  | succ fuel ih =>
    intro ref h
    cases ref with
    | nil =>
      rw [skip_to_marker]
      exact ih [] h
    | cons d ref =>
      rw [skip_to_marker, if_pos (h d (by simp))]
      exact ih ref (fun c hc => h c (by simp [hc]))

/-- The search for another chromosome in a stream that holds no `>` never
ends. -/
theorem find_chromo_no_marker (fuel : Nat) (name loc_name : List Char) (ref : Stream)
    (hne : name ≠ loc_name) (href : ∀ c ∈ ref, c ≠ '>') :
    find_chromo fuel name loc_name ref = none := by
  cases fuel with
  | zero => rfl
  | succ fuel =>
    rw [find_chromo, if_pos hne, skip_to_marker_no_marker fuel ref href]

/-! ## What the seek loop and the extract loop read -/

theorem seek_done (start : Nat) (ref : Stream) (d : Char) (base_index : Nat)
    (h : ¬ base_index < start) : seek start ref d base_index = .ok (d, ref, base_index) := by
  rw [seek.eq_def]
  simp only [if_neg h]

theorem extract_done (end_ cap : Nat) (ref : Stream) (d : Char) (base_index : Nat)
    (seq : List Char) (h : ¬ base_index ≤ end_) :
    extract end_ cap ref d base_index seq = .ok (d, ref, base_index, seq) := by
  rw [extract.eq_def]
  simp only [if_neg h]

/-- The seek loop stops on the base that makes `base_index` equal to `start`:
here `pre` holds the bases before it. -/
theorem seek_bases (start : Nat) (b : Char) (post : Stream) (hb : is_base b = true)
    (hmax : start < ULONG_MOD) :
    ∀ (pre : List Char) (d : Char) (base_index : Nat), (∀ c ∈ pre, c ≠ '>') →
      base_index + (pre.filter is_base).length + 1 = start →
      seek start (pre ++ b :: post) d base_index = .ok (b, post, start) := by
  intro pre
  induction pre with
  | nil =>
    intro d bi _ hcount
    simp only [List.filter_nil, List.length_nil, Nat.add_zero] at hcount
    rw [List.nil_append, seek, if_pos (by omega)]
    simp only [hb, if_true]
    rw [Nat.mod_eq_of_lt (by omega), hcount]
    exact seek_done _ _ _ _ (by omega)
  | cons c pre ih =>
    intro d bi hpre hcount
    have hc : c ≠ '>' := hpre c (by simp)
    have hpre1 : ∀ x ∈ pre, x ≠ '>' := fun x hx => hpre x (by simp [hx])
    rw [List.cons_append, seek, if_pos (by omega)]
    by_cases hcb : is_base c = true
    · simp only [hcb, if_true]
      rw [List.filter_cons, if_pos hcb, List.length_cons] at hcount
      rw [Nat.mod_eq_of_lt (by omega)]
      exact ih c (bi + 1) hpre1 (by omega)
    · simp only [hcb, Bool.false_eq_true, if_false, hc]
      rw [List.filter_cons, if_neg hcb] at hcount
      exact ih c bi hpre1 hcount

/-- The extract loop stores the bases among the held character and `pre`, and
stops on the base after them, which makes `base_index` equal to `end + 1`. -/
theorem extract_bases (end_ cap : Nat) (b : Char) (post : Stream) (hb : is_base b = true)
    (hmax : end_ + 1 < ULONG_MOD) :
    ∀ (pre : List Char) (d : Char) (base_index : Nat) (seq : List Char),
      (∀ c ∈ pre, c ≠ '>') → d ≠ '>' →
      base_index + (pre.filter is_base).length = end_ →
      (seq ++ (d :: pre).filter is_base).length ≤ cap →
      extract end_ cap (pre ++ b :: post) d base_index seq
        = .ok (b, post, end_ + 1, seq ++ (d :: pre).filter is_base) := by
  intro pre
  induction pre with
  | nil =>
    intro d bi seq _ hd hcount hcap
    simp only [List.filter_nil, List.length_nil, Nat.add_zero] at hcount
    subst hcount
    rw [List.nil_append, extract, if_pos (Nat.le_refl _)]
    by_cases hdb : is_base d = true
    · rw [List.filter_cons, if_pos hdb] at hcap ⊢
      simp only [List.filter_nil, List.length_append, List.length_singleton] at hcap
      simp only [hdb, if_true, hb]
      rw [if_pos (by omega), Nat.mod_eq_of_lt hmax]
      exact extract_done _ _ _ _ _ _ (by omega)
    · rw [List.filter_cons, if_neg hdb]
      simp only [hdb, Bool.false_eq_true, if_false, hd, hb, if_true, List.filter_nil,
        List.append_nil]
      rw [Nat.mod_eq_of_lt hmax]
      exact extract_done _ _ _ _ _ _ (by omega)
  | cons c pre ih =>
    intro d bi seq hpre hd hcount hcap
    have hc : c ≠ '>' := hpre c (by simp)
    have hpre1 : ∀ x ∈ pre, x ≠ '>' := fun x hx => hpre x (by simp [hx])
    have hbi : bi ≤ end_ := by omega
    have hstep : bi + ((c :: pre).filter is_base).length = end_ →
        (if is_base c = true then (bi + 1) % ULONG_MOD else bi)
          + (pre.filter is_base).length = end_ := by
      intro h
      by_cases hcb : is_base c = true
      · rw [List.filter_cons, if_pos hcb, List.length_cons] at h
        rw [if_pos hcb, Nat.mod_eq_of_lt (by omega)]
        omega
      · rw [List.filter_cons, if_neg hcb] at h
        rw [if_neg hcb]
        exact h
    rw [List.cons_append, extract, if_pos hbi]
    by_cases hdb : is_base d = true
    · have e1 : seq ++ (d :: c :: pre).filter is_base
          = (seq ++ [d]) ++ (c :: pre).filter is_base := by
        rw [List.filter_cons, if_pos hdb]
        simp
      rw [e1] at hcap ⊢
      have hlen : seq.length < cap := by
        simp only [List.length_append, List.length_singleton] at hcap
        omega
      simp only [hdb, if_true, hlen]
      exact ih c _ (seq ++ [d]) hpre1 hc (hstep hcount) hcap
    · have e1 : seq ++ (d :: c :: pre).filter is_base = seq ++ (c :: pre).filter is_base := by
        rw [List.filter_cons, if_neg hdb]
      rw [e1] at hcap ⊢
      simp only [hdb, Bool.false_eq_true, if_false, hd]
      exact ih c _ seq hpre1 hc (hstep hcount) hcap

/-! ## One pass through the loop body -/

/-- In the environment `Env.intact` a read of `loc.name` gives the characters
the buffer held last. -/
theorem read_name_intact (loc : location) : read_name Env.intact loc = some loc.name := by
  unfold read_name Env.intact
  split <;> rfl

/-- In the environment `Env.intact` the stack holds any array whose size is
an `unsigned long`. -/
theorem stack_intact (n : Nat) (h : n < ULONG_MOD) : n ≤ Env.intact.stack := by
  unfold ULONG_MOD at h
  unfold Env.intact
  simp only
  omega

theorem resolve_chromo_same (fuel : Nat) (cur : Cursor) (name : List Char)
    (hname : cur.chromo_name = name) : resolve_chromo fuel cur name = some (.ok cur) := by
  unfold resolve_chromo
  rw [if_neg (by simpa using hname)]

/-- The size of the buffer `sequence` and the test of line 139 without the
reduction modulo `ULONG_MOD`, for a span that fits. -/
theorem str_len_required_eq (s e : Nat) (hle : s ≤ e) (hs : 1 ≤ s) (hmax : e + 1 < ULONG_MOD) :
    ((e + ULONG_MOD - s) % ULONG_MOD + 2) % ULONG_MOD = e - s + 2 ∧
      ((e - s + 2 + ULONG_MOD - 1) % ULONG_MOD ≥ 100 ↔ 100 ≤ e - s + 1) := by
  unfold ULONG_MOD at *
  omega

/-- The loop body from its three steps: when the read of `loc.name` gives
`name`, the chromosome is found, the seek loop and the extract loop end, and
the span fits the buffer and the buffer the stack, the record is written if
the span is at least 100 long. -/
theorem process_loc_steps (env : Env) (fuel : Nat) (cur cur1 : Cursor) (loc : location)
    (name : List Char) (d2 d3 : Char) (ref2 ref3 : Stream) (bi2 bi3 : Nat) (seq : List Char)
    (hle : loc.start ≤ loc.end_) (hs : 1 ≤ loc.start) (hmax : loc.end_ + 1 < ULONG_MOD)
    (hread : read_name env loc = some name)
    (hstack : loc.end_ - loc.start + 2 ≤ env.stack)
    (hres : resolve_chromo fuel cur name = some (.ok cur1))
    (hseek : seek loc.start cur1.ref cur1.d cur1.base_index = .ok (d2, ref2, bi2))
    (hext : extract loc.end_ (loc.end_ - loc.start + 2) ref2 d2 bi2 [] = .ok (d3, ref3, bi3, seq))
    (hlen : seq.length < loc.end_ - loc.start + 2) :
    process_loc env fuel cur loc
      = some (.ok ⟨cur1.chromo_name, d3, ref3, bi3,
          cur1.out ++ (if 100 ≤ loc.end_ - loc.start + 1
            then [⟨name, loc.start, loc.end_, seq⟩] else [])⟩) := by
  obtain ⟨h1, h2⟩ := str_len_required_eq loc.start loc.end_ hle hs hmax
  unfold process_loc
  rw [if_neg (by omega), hread]
  simp only [hres, hseek, h1]
  rw [if_neg (by omega), if_neg (by omega)]
  simp only [hext, hlen, if_true]
  by_cases h100 : 100 ≤ loc.end_ - loc.start + 1
  · rw [if_pos (h2.2 h100), if_pos h100]
  · rw [if_neg (fun h => h100 (h2.1 h)), if_neg h100, List.append_nil]

/-! ## A span that the chromosome does not cover -/

/-- The extract loop runs into the end of the stream when the chromosome has
no base at position `end + 1`. -/
theorem extract_too_short (end_ cap : Nat) (hmax : end_ + 1 < ULONG_MOD) :
    ∀ (ref : Stream) (d : Char) (base_index : Nat) (seq : List Char),
      (∀ c ∈ ref, c ≠ '>') → d ≠ '>' →
      base_index + (ref.filter is_base).length ≤ end_ →
      (seq ++ (d :: ref).filter is_base).length ≤ cap →
      extract end_ cap ref d base_index seq
        = .error (.fatal "ERROR: Reference file too short [3]\n", []) := by
  intro ref
  induction ref with
  | nil =>
    intro d bi seq _ hd hcount hcap
    simp only [List.filter_nil, List.length_nil, Nat.add_zero] at hcount
    rw [extract, if_pos hcount]
    by_cases hdb : is_base d = true
    · rw [List.filter_cons, if_pos hdb] at hcap
      simp only [List.filter_nil, List.length_append, List.length_singleton] at hcap
      simp only [hdb, if_true]
      rw [if_pos (by omega)]
    · simp only [hdb, Bool.false_eq_true, if_false, hd]
  | cons c ref ih =>
    intro d bi seq href hd hcount hcap
    have hc : c ≠ '>' := href c (by simp)
    have href1 : ∀ x ∈ ref, x ≠ '>' := fun x hx => href x (by simp [hx])
    have hstep : (if is_base c = true then (bi + 1) % ULONG_MOD else bi)
        + (ref.filter is_base).length ≤ end_ := by
      by_cases hcb : is_base c = true
      · rw [List.filter_cons, if_pos hcb, List.length_cons] at hcount
        rw [if_pos hcb, Nat.mod_eq_of_lt (by omega)]
        omega
      · rw [List.filter_cons, if_neg hcb] at hcount
        rw [if_neg hcb]
        exact hcount
    rw [extract, if_pos (by omega)]
    by_cases hdb : is_base d = true
    · have e1 : seq ++ (d :: c :: ref).filter is_base
          = (seq ++ [d]) ++ (c :: ref).filter is_base := by
        rw [List.filter_cons, if_pos hdb]
        simp
      rw [e1] at hcap
      have hlen : seq.length < cap := by
        simp only [List.length_append, List.length_singleton] at hcap
        omega
      simp only [hdb, if_true, hlen]
      exact ih c _ (seq ++ [d]) href1 hc hstep hcap
    · have e1 : seq ++ (d :: c :: ref).filter is_base = seq ++ (c :: ref).filter is_base := by
        rw [List.filter_cons, if_neg hdb]
      rw [e1] at hcap
      simp only [hdb, Bool.false_eq_true, if_false, hd]
      exact ih c _ seq href1 hc hstep hcap

/-- The extract loop runs into the `>` of the next record when the chromosome
has no base at position `end + 1`. -/
theorem extract_next_record (end_ cap : Nat) (post : Stream) (hmax : end_ + 1 < ULONG_MOD) :
    ∀ (pre : List Char) (d : Char) (base_index : Nat) (seq : List Char),
      (∀ c ∈ pre, c ≠ '>') → d ≠ '>' →
      base_index + (pre.filter is_base).length ≤ end_ →
      (seq ++ (d :: pre).filter is_base).length ≤ cap →
      extract end_ cap (pre ++ '>' :: post) d base_index seq
        = .error (.fatal "ERROR: Reached end of chromosome without finding location\n",
            post) := by
  have hgt : is_base '>' = false := by decide
  intro pre
  induction pre with
  | nil =>
    intro d bi seq _ hd hcount hcap
    simp only [List.filter_nil, List.length_nil, Nat.add_zero] at hcount
    have hlast : ∀ s : List Char,
        extract end_ cap post '>' bi s
          = .error (.fatal "ERROR: Reached end of chromosome without finding location\n",
              post) := by
      intro s
      rw [extract.eq_def]
      simp only [if_pos hcount, hgt, Bool.false_eq_true, if_false, if_true]
    rw [List.nil_append, extract, if_pos hcount]
    by_cases hdb : is_base d = true
    · rw [List.filter_cons, if_pos hdb] at hcap
      simp only [List.filter_nil, List.length_append, List.length_singleton] at hcap
      simp only [hdb, if_true, hgt, Bool.false_eq_true, if_false]
      rw [if_pos (by omega)]
      exact hlast _
    · simp only [hdb, Bool.false_eq_true, if_false, hd, hgt]
      exact hlast _
  | cons c pre ih =>
    intro d bi seq hpre hd hcount hcap
    have hc : c ≠ '>' := hpre c (by simp)
    have hpre1 : ∀ x ∈ pre, x ≠ '>' := fun x hx => hpre x (by simp [hx])
    have hstep : (if is_base c = true then (bi + 1) % ULONG_MOD else bi)
        + (pre.filter is_base).length ≤ end_ := by
      by_cases hcb : is_base c = true
      · rw [List.filter_cons, if_pos hcb, List.length_cons] at hcount
        rw [if_pos hcb, Nat.mod_eq_of_lt (by omega)]
        omega
      · rw [List.filter_cons, if_neg hcb] at hcount
        rw [if_neg hcb]
        exact hcount
    rw [List.cons_append, extract, if_pos (by omega)]
    by_cases hdb : is_base d = true
    · have e1 : seq ++ (d :: c :: pre).filter is_base
          = (seq ++ [d]) ++ (c :: pre).filter is_base := by
        rw [List.filter_cons, if_pos hdb]
        simp
      rw [e1] at hcap
      have hlen : seq.length < cap := by
        simp only [List.length_append, List.length_singleton] at hcap
        omega
      simp only [hdb, if_true, hlen]
      exact ih c _ (seq ++ [d]) hpre1 hc hstep hcap
    · have e1 : seq ++ (d :: c :: pre).filter is_base = seq ++ (c :: pre).filter is_base := by
        rw [List.filter_cons, if_neg hdb]
      rw [e1] at hcap
      simp only [hdb, Bool.false_eq_true, if_false, hd]
      exact ih c _ seq hpre1 hc hstep hcap

/-- The base at a given position: a stream with more than `k` bases splits
before the base that has `k` bases in front of it. -/
theorem split_at_base :
    ∀ (ref : Stream) (k : Nat), k < (ref.filter is_base).length →
      ∃ pre b post, ref = pre ++ b :: post ∧ is_base b = true ∧
        (pre.filter is_base).length = k := by
  intro ref
  induction ref with
  | nil => intro k h; simp at h
  | cons c ref ih =>
    intro k h
    by_cases hcb : is_base c = true
    · rw [List.filter_cons, if_pos hcb, List.length_cons] at h
      cases k with
      | zero => exact ⟨[], c, ref, rfl, hcb, rfl⟩
      | succ k =>
        obtain ⟨pre, b, post, hsplit, hb, hlen⟩ := ih k (by omega)
        refine ⟨c :: pre, b, post, by rw [hsplit, List.cons_append], hb, ?_⟩
        rw [List.filter_cons, if_pos hcb, List.length_cons, hlen]
    · rw [List.filter_cons, if_neg hcb] at h
      obtain ⟨pre, b, post, hsplit, hb, hlen⟩ := ih k h
      refine ⟨c :: pre, b, post, by rw [hsplit, List.cons_append], hb, ?_⟩
      rw [List.filter_cons, if_neg hcb, hlen]

/-- The loop body when the extract loop stops the run. -/
theorem process_loc_extract_error (env : Env) (fuel : Nat) (cur cur1 : Cursor) (loc : location)
    (name : List Char) (d2 : Char) (ref2 : Stream) (bi2 : Nat) (e : Halt × Stream)
    (hle : loc.start ≤ loc.end_) (hs : 1 ≤ loc.start) (hmax : loc.end_ + 1 < ULONG_MOD)
    (hread : read_name env loc = some name)
    (hstack : loc.end_ - loc.start + 2 ≤ env.stack)
    (hres : resolve_chromo fuel cur name = some (.ok cur1))
    (hseek : seek loc.start cur1.ref cur1.d cur1.base_index = .ok (d2, ref2, bi2))
    (hext : extract loc.end_ (loc.end_ - loc.start + 2) ref2 d2 bi2 [] = .error e) :
    process_loc env fuel cur loc = some (.error e) := by
  obtain ⟨h1, _⟩ := str_len_required_eq loc.start loc.end_ hle hs hmax
  unfold process_loc
  rw [if_neg (by omega), hread]
  simp only [hres, hseek, h1]
  rw [if_neg (by omega), if_neg (by omega)]
  simp only [hext]

/-- The state after the seek loop on a chromosome read from its first base:
the held character is the base at position `start`. -/
theorem seek_from_first_base (start : Nat) (d : Char) (ref : Stream) (hd : is_base d = true)
    (hs : 1 ≤ start) (hlen : start ≤ (ref.filter is_base).length + 1)
    (href : ∀ c ∈ ref, c ≠ '>') (hmax : start < ULONG_MOD) :
    ∃ b pre post, d :: ref = pre ++ b :: post ∧ is_base b = true ∧ (∀ c ∈ pre, c ≠ '>') ∧
      (∀ c ∈ post, c ≠ '>') ∧ (pre.filter is_base).length + 1 = start ∧
      seek start ref d 1 = .ok (b, post, start) := by
  by_cases h1 : start = 1
  · subst h1
    exact ⟨d, [], ref, rfl, hd, by simp, href, rfl, seek_done _ _ _ _ (by omega)⟩
  · obtain ⟨pre, b, post, hsplit, hb, hpre⟩ := split_at_base ref (start - 2) (by omega)
    have hpre1 : ∀ c ∈ pre, c ≠ '>' := fun c hc => href c (by rw [hsplit]; simp [hc])
    have hpost : ∀ c ∈ post, c ≠ '>' := fun c hc => href c (by rw [hsplit]; simp [hc])
    refine ⟨b, d :: pre, post, by rw [hsplit, List.cons_append], hb, ?_, hpost, ?_, ?_⟩
    · intro c hc
      rcases List.mem_cons.1 hc with h | h
      · rw [h]; intro hgt; rw [hgt] at hd; exact absurd hd (by decide)
      · exact hpre1 c h
    · rw [List.filter_cons, if_pos hd, List.length_cons, hpre]; omega
    · rw [hsplit]
      exact seek_bases start b post hb hmax pre d 1 hpre1 (by omega)

/-! ## A run with one location -/

theorem is_base_ne_marker (b : Char) (hb : is_base b = true) : b ≠ '>' := by
  intro h
  rw [h] at hb
  exact absurd hb (by decide)

theorem count_newline_digits (n : Nat) : (Nat.toDigits 10 n).count '\n' = 0 := by
  rw [List.count_eq_zero]
  intro h
  exact (isdigit_not_space _ ((toDigits_digits n).2 _ h)).2.2.2.2 rfl

theorem toDigits_clean (n : Nat) : ∀ c ∈ Nat.toDigits 10 n, c ≠ ' ' ∧ c ≠ '\n' := by
  intro c hc
  have h := isdigit_not_space c ((toDigits_digits n).2 c hc)
  exact ⟨h.2.2.2.1, h.2.2.2.2⟩

/-- The location line that writes `name`, `start` and `end` with single spaces
reads back as that location. -/
theorem get_next_loc_line (name : List Char) (s e : Nat) (tail : Stream) (hname : name ≠ [])
    (hn : ∀ c ∈ name, c ≠ ' ' ∧ c ≠ '\n') (hs : s < ULONG_MOD) (he : e < ULONG_MOD) :
    get_next_loc (name ++ ' ' :: Nat.toDigits 10 s ++ ' ' :: Nat.toDigits 10 e ++ '\n' :: tail)
      = .ok (⟨name, false, s, e⟩, tail) := by
  have h := get_next_loc_fields name (Nat.toDigits 10 s) (Nat.toDigits 10 e) tail hname
    (toDigits_digits s).1 (toDigits_digits e).1 hn (toDigits_clean s) (toDigits_clean e)
  have hs1 := strtoul_toDigits s hs [] (Or.inl rfl)
  have he1 := strtoul_toDigits e he [] (Or.inl rfl)
  rw [List.append_nil] at hs1 he1
  rw [h, hs1, he1]

/-- A run on a reference that starts with the header line `>name` and a
location file of one line is one pass through the loop body from the first
character after the header line. -/
theorem main_one_location (env : Env) (fuel : Nat) (name loc_name : List Char) (d : Char)
    (ref : Stream) (s e : Nat) (hn : ∀ c ∈ name, c ≠ ' ' ∧ c ≠ '\n') (hloc : loc_name ≠ [])
    (hln : ∀ c ∈ loc_name, c ≠ ' ' ∧ c ≠ '\n') (hs : s < ULONG_MOD) (he : e < ULONG_MOD) :
    main env fuel ('>' :: name ++ '\n' :: d :: ref)
        (loc_name ++ ' ' :: Nat.toDigits 10 s ++ ' ' :: Nat.toDigits 10 e ++ ['\n'])
      = match process_loc env fuel ⟨name, d, ref, 1, []⟩ ⟨loc_name, false, s, e⟩ with
        | none => none
        | some (.error (h, ref1)) => some ⟨[], ref1, some h⟩
        | some (.ok cur1) => some ⟨cur1.out, cur1.ref, none⟩ := by
  have hcount : count_newlines
      (loc_name ++ ' ' :: Nat.toDigits 10 s ++ ' ' :: Nat.toDigits 10 e ++ ['\n']) 0 = 1 := by
    have h0 : loc_name.count '\n' = 0 := by
      rw [List.count_eq_zero]
      exact fun h => (hln _ h).2 rfl
    rw [count_newlines_eq]
    simp [List.count_append, List.count_cons, h0, count_newline_digits]
  have hget : (getc ('>' :: name ++ '\n' :: d :: ref)).2 = name ++ '\n' :: d :: ref := rfl
  have hchromo : get_chromo_name (name ++ '\n' :: d :: ref) = .ok (name, d :: ref) :=
    get_chromo_name_plain name (d :: ref) (fun c hc => ⟨(hn c hc).2, (hn c hc).1⟩)
  have hget1 : getc (d :: ref) = (some d, ref) := rfl
  unfold main
  simp only [hcount, hget, hchromo, hget1]
  rw [loc_loop.eq_def]
  simp only [get_next_loc_line loc_name s e [] hloc hln hs he]
  cases process_loc env fuel ⟨name, d, ref, 1, []⟩ ⟨loc_name, false, s, e⟩ with
  | none => rfl
  | some r =>
    cases r with
    | error x => rfl
    | ok cur1 => simp only [loc_loop]

/-- A line of two fields: the third `strtok` gives the null pointer. -/
theorem get_next_loc_two_fields (name f1 : List Char) (tail : Stream)
    (hname : name ≠ []) (hf1 : f1 ≠ [])
    (hn : ∀ c ∈ name, c ≠ ' ' ∧ c ≠ '\n') (h1 : ∀ c ∈ f1, c ≠ ' ' ∧ c ≠ '\n') :
    get_next_loc (name ++ ' ' :: f1 ++ '\n' :: tail)
      = .error (.undefined "strtoul(NULL, NULL, 10)") := by
  have hline : ∀ c ∈ name ++ ' ' :: f1, c ≠ '\n' := by
    intro c hc
    simp only [List.mem_append, List.mem_cons] at hc
    rcases hc with h | h | h
    · exact (hn c h).2
    · rw [h]; decide
    · exact (h1 c h).2
  obtain ⟨b1, hb1, hrun⟩ := read_line_line tail (name ++ ' ' :: f1) [] 100 hline (by simp)
  simp only [List.nil_append] at hb1 hrun
  unfold get_next_loc
  rw [hrun]
  simp only [hb1, if_true]
  rw [strtok_token_space name _ hname (fun c hc => (hn c hc).1)]
  simp only
  rw [strtok_token_end f1 hf1 (fun c hc => (h1 c hc).1)]
  simp [strtok]

/-- The loop body when the read of `loc.name` gives no string. -/
theorem process_loc_name_undefined (env : Env) (fuel : Nat) (cur : Cursor) (loc : location)
    (hle : loc.start ≤ loc.end_) (hread : read_name env loc = none) :
    process_loc env fuel cur loc
      = some (.error (.undefined "loc.name is read after free(str)", cur.ref)) := by
  unfold process_loc
  rw [if_neg (by omega), hread]

/-- The loop body when the read of `loc.name` gives another name than the one
of the current chromosome and no record follows in the reference: the search
of line 89 uses up any bound. -/
theorem process_loc_other_name (env : Env) (fuel : Nat) (cur : Cursor) (loc : location)
    (name : List Char) (hle : loc.start ≤ loc.end_) (hread : read_name env loc = some name)
    (hne : cur.chromo_name ≠ name) (href : ∀ c ∈ cur.ref, c ≠ '>') :
    process_loc env fuel cur loc = none := by
  have hfind : find_chromo fuel cur.chromo_name name cur.ref = none :=
    find_chromo_no_marker fuel _ _ _ hne href
  have hres : resolve_chromo fuel cur name = none := by
    unfold resolve_chromo
    rw [if_pos hne]
    simp only [hfind]
  unfold process_loc
  rw [if_neg (by omega), hread]
  simp only [hres]

/-- A run on a reference of one record and a location whose name reads as
another name does not end, whatever the bound on the iterations of line 89. -/
theorem main_other_chromosome (env : Env) (fuel : Nat) (name loc_name read : List Char)
    (d : Char) (ref : Stream) (s e : Nat) (hn : ∀ c ∈ name, c ≠ ' ' ∧ c ≠ '\n')
    (hloc : loc_name ≠ []) (hln : ∀ c ∈ loc_name, c ≠ ' ' ∧ c ≠ '\n')
    (hread : env.freed loc_name = some read) (hne : name ≠ read)
    (href : ∀ c ∈ ref, c ≠ '>') (hse : s ≤ e) (he : e < ULONG_MOD) :
    main env fuel ('>' :: name ++ '\n' :: d :: ref)
        (loc_name ++ ' ' :: Nat.toDigits 10 s ++ ' ' :: Nat.toDigits 10 e ++ ['\n'])
      = none := by
  have hproc : process_loc env fuel ⟨name, d, ref, 1, []⟩ ⟨loc_name, false, s, e⟩ = none :=
    process_loc_other_name env fuel _ _ read hse (by simpa [read_name] using hread) hne href
  rw [main_one_location env fuel name loc_name d ref s e hn hloc hln (by omega) he, hproc]

/-! ## A start that the chromosome does not reach -/

/-- The seek loop runs into the end of the stream when the chromosome ends
before `base_index` reaches `start`. -/
theorem seek_too_short (start : Nat) (hmax : start < ULONG_MOD) :
    ∀ (ref : Stream) (d : Char) (base_index : Nat), (∀ c ∈ ref, c ≠ '>') →
      base_index + (ref.filter is_base).length < start →
      seek start ref d base_index
        = .error (.fatal "ERROR: Reference file too short [2]\n", []) := by
  intro ref
  induction ref with
  | nil =>
    intro d bi _ hcount
    simp only [List.filter_nil, List.length_nil, Nat.add_zero] at hcount
    rw [seek, if_pos hcount]
  | cons c ref ih =>
    intro d bi href hcount
    have hc : c ≠ '>' := href c (by simp)
    have href1 : ∀ x ∈ ref, x ≠ '>' := fun x hx => href x (by simp [hx])
    rw [seek, if_pos (by omega)]
    by_cases hcb : is_base c = true
    · simp only [hcb, if_true]
      rw [List.filter_cons, if_pos hcb, List.length_cons] at hcount
      rw [Nat.mod_eq_of_lt (by omega)]
      exact ih c (bi + 1) href1 (by omega)
    · simp only [hcb, Bool.false_eq_true, if_false, hc]
      rw [List.filter_cons, if_neg hcb] at hcount
      exact ih c bi href1 hcount

/-- The seek loop stops at the `>` of the next record when the chromosome ends
before `base_index` reaches `start`: the stream is left just after the `>`. -/
theorem seek_next_record (start : Nat) (post : Stream) (hmax : start < ULONG_MOD) :
    ∀ (pre : List Char) (d : Char) (base_index : Nat), (∀ c ∈ pre, c ≠ '>') →
      base_index + (pre.filter is_base).length < start →
      seek start (pre ++ '>' :: post) d base_index
        = .error (.fatal "ERROR: Reached end of chromosome without finding location\n",
            post) := by
  have hgt : is_base '>' = false := by decide
  intro pre
  induction pre with
  | nil =>
    intro d bi _ hcount
    simp only [List.filter_nil, List.length_nil, Nat.add_zero] at hcount
    rw [List.nil_append, seek, if_pos hcount]
    simp only [hgt, Bool.false_eq_true, if_false, if_true]
  | cons c pre ih =>
    intro d bi hpre hcount
    have hc : c ≠ '>' := hpre c (by simp)
    have hpre1 : ∀ x ∈ pre, x ≠ '>' := fun x hx => hpre x (by simp [hx])
    rw [List.cons_append, seek, if_pos (by omega)]
    by_cases hcb : is_base c = true
    · simp only [hcb, if_true]
      rw [List.filter_cons, if_pos hcb, List.length_cons] at hcount
      rw [Nat.mod_eq_of_lt (by omega)]
      exact ih c (bi + 1) hpre1 (by omega)
    · simp only [hcb, Bool.false_eq_true, if_false, hc]
      rw [List.filter_cons, if_neg hcb] at hcount
      exact ih c bi hpre1 hcount

/-- The loop body when the seek loop stops the run. -/
theorem process_loc_seek_error (env : Env) (fuel : Nat) (cur cur1 : Cursor) (loc : location)
    (name : List Char) (e : Halt × Stream) (hle : loc.start ≤ loc.end_)
    (hread : read_name env loc = some name)
    (hres : resolve_chromo fuel cur name = some (.ok cur1))
    (hseek : seek loc.start cur1.ref cur1.d cur1.base_index = .error e) :
    process_loc env fuel cur loc = some (.error e) := by
  unfold process_loc
  rw [if_neg (by omega), hread]
  simp only [hres, hseek]

/-! ## Text after the last newline of the location file -/

theorem read_line_append (trail : Stream) :
    ∀ (m : Stream) (str : List Char) (buffsize : Nat), '\n' ∈ m →
      read_line (m ++ trail) str buffsize
        = match read_line m str buffsize with
          | .error e => .error e
          | .ok (s, b, rest) => .ok (s, b, rest ++ trail) := by
  intro m
  induction m with
  | nil => intro str bs h; simp at h
  | cons c m ih =>
    intro str bs h
    rw [List.cons_append, read_line, read_line]
    by_cases hc : c = '\n'
    · simp only [hc, if_true]
    · have hm : '\n' ∈ m := by
        rcases List.mem_cons.1 h with h1 | h1
        · exact absurd h1.symm hc
        · exact h1
      simp only [hc, if_false]
      generalize (if str.length = bs - 1 then bs * 2 else bs) = b1
      by_cases hb : str.length < b1
      · simp only [hb, if_true]
        exact ih _ _ hm
      · simp only [hb, if_false]

theorem read_line_count :
    ∀ (m : Stream) (str : List Char) (buffsize : Nat) (s : List Char) (b : Nat) (rest : Stream),
      read_line m str buffsize = .ok (s, b, rest) → m.count '\n' = rest.count '\n' + 1 := by
  intro m
  induction m with
  | nil => intro str bs s b rest h; simp [read_line] at h
  | cons c m ih =>
    intro str bs s b rest h
    rw [read_line] at h
    by_cases hc : c = '\n'
    · simp only [hc, if_true, Except.ok.injEq, Prod.mk.injEq] at h
      rw [hc, h.2.2, List.count_cons_self]
    · simp only [hc, if_false] at h
      generalize (if str.length = bs - 1 then bs * 2 else bs) = b1 at h
      by_cases hb : str.length < b1
      · simp only [hb, if_true] at h
        rw [List.count_cons_of_ne (fun h1 => hc h1.symm)]
        exact ih _ _ _ _ _ h
      · simp only [hb, if_false] at h
        cases h

/-- The location that `get_next_loc` reads does not depend on the text after
the newline of its line. -/
theorem get_next_loc_append (m trail : Stream) (hm : '\n' ∈ m) :
    get_next_loc (m ++ trail)
      = match get_next_loc m with
        | .error e => .error e
        | .ok (loc, rest) => .ok (loc, rest ++ trail) := by
  unfold get_next_loc
  rw [read_line_append trail m [] 100 hm]
  cases hr : read_line m [] 100 with
  | error e => rfl
  | ok v =>
    obtain ⟨s, b, rest⟩ := v
    simp only
    split
    · cases hs : strtok s with
      | none => rfl
      | some t =>
        obtain ⟨name, s1⟩ := t
        simp only
        cases hs1 : strtok s1 with
        | none => rfl
        | some t1 =>
          obtain ⟨f1, s2⟩ := t1
          simp only
          cases hs2 : strtok s2 with
          | none => rfl
          | some t2 => rfl
    · rfl

theorem get_next_loc_count (m rest : Stream) (loc : location)
    (h : get_next_loc m = .ok (loc, rest)) : m.count '\n' = rest.count '\n' + 1 := by
  unfold get_next_loc at h
  cases hr : read_line m [] 100 with
  | error e => rw [hr] at h; cases h
  | ok v =>
    obtain ⟨s, b, r⟩ := v
    have hc := read_line_count m [] 100 s b r hr
    rw [hr] at h
    simp only at h
    split at h
    · split at h
      · cases h
      · split at h
        · cases h
        · split at h
          · cases h
          · simp only [Except.ok.injEq, Prod.mk.injEq] at h
            rw [← h.2]
            exact hc
    · cases h

/-- The loop over the locations does not read past the newlines it was
counted for. -/
theorem loc_loop_append (env : Env) (fuel : Nat) (trail : Stream) :
    ∀ (n : Nat) (cur : Cursor) (m : Stream), n ≤ m.count '\n' →
      loc_loop env fuel n cur (m ++ trail) = loc_loop env fuel n cur m := by
  intro n
  induction n with
  | zero => intro cur m _; simp only [loc_loop]
  | succ n ih =>
    intro cur m hn
    have hm : '\n' ∈ m := List.count_pos_iff.1 (by omega)
    rw [loc_loop, loc_loop, get_next_loc_append m trail hm]
    cases hg : get_next_loc m with
    | error e => rfl
    | ok v =>
      obtain ⟨loc, rest⟩ := v
      have hc := get_next_loc_count m rest loc hg
      simp only
      cases process_loc env fuel cur loc with
      | none => rfl
      | some r =>
        cases r with
        | error x => rfl
        | ok cur1 => exact ih cur1 rest (by omega)

/-- A run does not depend on the text after the last newline of the location
file. -/
theorem main_append (env : Env) (fuel : Nat) (ref m trail : Stream) (htrail : ∀ c ∈ trail, c ≠ '\n') :
    main env fuel ref (m ++ trail) = main env fuel ref m := by
  have h0 : trail.count '\n' = 0 := by
    rw [List.count_eq_zero]
    exact fun h => htrail _ h rfl
  unfold main
  simp only [count_newlines_eq, Nat.zero_add, List.count_append, h0, Nat.add_zero]
  cases get_chromo_name (getc ref).2 with
  | error e => rfl
  | ok v =>
    obtain ⟨name, ref1⟩ := v
    simp only
    cases getc ref1 with
    | mk o ref2 =>
      cases o with
      | none => rfl
      | some d => exact loc_loop_append env fuel trail _ _ m (Nat.le_refl _)

/-- A run that ends with `return 0` has read one location for each newline of
the location file. -/
theorem main_read_locs (env : Env) (fuel : Nat) (ref mask_locs : Stream) (r : Run)
    (hrun : main env fuel ref mask_locs = some r) (hok : r.halt = none) :
    ∃ locs, read_locs (mask_locs.count '\n') mask_locs = some locs ∧
      locs.length = mask_locs.count '\n' := by
  unfold main at hrun
  simp only at hrun
  split at hrun
  · simp only [Option.some.injEq] at hrun
    subst hrun
    cases hok
  · split at hrun
    · simp only [Option.some.injEq] at hrun
      subst hrun
      cases hok
    · rw [count_newlines_eq, Nat.zero_add] at hrun
      obtain ⟨locs, hlocs, _, _⟩ :=
        loc_loop_records env fuel _ _ _ r (by simp [ULONG_MOD]) hrun hok
      exact ⟨locs, hlocs, read_locs_length _ _ _ hlocs⟩

/-- The loop over the locations runs once for each newline of the location
file. -/
theorem main_loop_bound (env : Env) (fuel : Nat) (ref mask_locs : Stream) (name : List Char)
    (ref1 ref2 : Stream) (d : Char) (hname : get_chromo_name (getc ref).2 = .ok (name, ref1))
    (hd : getc ref1 = (some d, ref2)) :
    main env fuel ref mask_locs
      = loc_loop env fuel (mask_locs.count '\n') ⟨name, d, ref2, 1, []⟩ mask_locs := by
  unfold main
  simp only [hname, hd, count_newlines_eq, Nat.zero_add]

/-! ## What the loops count and copy -/

/-- The seek loop counts the bases among the characters it reads, and nothing
else. -/
theorem seek_reads (start : Nat) (hmax : start < ULONG_MOD) :
    ∀ (ref : Stream) (d : Char) (base_index : Nat) (d1 : Char) (ref1 : Stream) (bi1 : Nat),
      seek start ref d base_index = .ok (d1, ref1, bi1) →
      ∃ consumed, ref = consumed ++ ref1 ∧
        bi1 = base_index + (consumed.filter is_base).length ∧
        (d :: consumed).getLast? = some d1 := by
  intro ref
  induction ref with
  | nil =>
    intro d bi d1 ref1 bi1 h
    rw [seek] at h
    split at h
    · cases h
    · simp only [Except.ok.injEq, Prod.mk.injEq] at h
      obtain ⟨h1, h2, h3⟩ := h
      exact ⟨[], by simp [h2], by simp [h3], by simp [h1]⟩
  | cons c ref ih =>
    intro d bi d1 ref1 bi1 h
    rw [seek] at h
    split at h
    · rename_i hlt
      by_cases hcb : is_base c = true
      · simp only [hcb, if_true] at h
        rw [Nat.mod_eq_of_lt (by omega)] at h
        obtain ⟨consumed, h1, h2, h3⟩ := ih _ _ _ _ _ h
        refine ⟨c :: consumed, by rw [h1, List.cons_append], ?_, ?_⟩
        · rw [List.filter_cons, if_pos hcb, List.length_cons, h2]; omega
        · rw [List.getLast?_cons_cons]; exact h3
      · simp only [hcb, Bool.false_eq_true, if_false] at h
        split at h
        · cases h
        · obtain ⟨consumed, h1, h2, h3⟩ := ih _ _ _ _ _ h
          refine ⟨c :: consumed, by rw [h1, List.cons_append], ?_, ?_⟩
          · rw [List.filter_cons, if_neg hcb, h2]
          · rw [List.getLast?_cons_cons]; exact h3
    · simp only [Except.ok.injEq, Prod.mk.injEq] at h
      obtain ⟨h1, h2, h3⟩ := h
      exact ⟨[], by simp [h2], by simp [h3], by simp [h1]⟩

/-- The extract loop counts the bases among the characters it reads, and
copies the bases among the characters it has held, the last one left out: no
other character is counted or copied. -/
theorem extract_reads (end_ cap : Nat) :
    ∀ (ref : Stream) (d : Char) (base_index : Nat) (seq : List Char) (d1 : Char) (ref1 : Stream)
      (bi1 : Nat) (seq1 : List Char),
      extract end_ cap ref d base_index seq = .ok (d1, ref1, bi1, seq1) →
      base_index < ULONG_MOD →
      ∃ consumed, ref = consumed ++ ref1 ∧
        bi1 = base_index + (consumed.filter is_base).length ∧
        seq1 = seq ++ ((d :: consumed).dropLast).filter is_base ∧
        (d :: consumed).getLast? = some d1 := by
  have hpos : 0 < ULONG_MOD := by decide
  intro ref
  induction ref with
  | nil =>
    intro d bi seq d1 ref1 bi1 seq1 h _
    rw [extract] at h
    split at h
    · split at h
      · split at h <;> cases h
      · split at h <;> cases h
    · simp only [Except.ok.injEq, Prod.mk.injEq] at h
      obtain ⟨h1, h2, h3, h4⟩ := h
      exact ⟨[], by simp [h2], by simp [h3], by simp [h4], by simp [h1]⟩
  | cons c ref ih =>
    intro d bi seq d1 ref1 bi1 seq1 h hbi
    obtain ⟨hb1, hend⟩ := extract_ok end_ cap _ _ _ _ _ _ _ _ h hbi
    rw [extract] at h
    split at h
    · rename_i hle
      have hstep : (if is_base c = true then (bi + 1) % ULONG_MOD else bi)
          = bi + ((if is_base c = true then [c] else []) : List Char).length := by
        split
        · rw [Nat.mod_eq_of_lt (by omega)]; rfl
        · rfl
      have hbi1 : (if is_base c = true then (bi + 1) % ULONG_MOD else bi) < ULONG_MOD := by
        split
        · exact Nat.mod_lt _ hpos
        · exact hbi
      have hcount : ∀ consumed : List Char,
          (if is_base c = true then (bi + 1) % ULONG_MOD else bi)
              + (consumed.filter is_base).length
            = bi + ((c :: consumed).filter is_base).length := by
        intro consumed
        rw [hstep, List.filter_cons]
        split
        · simp only [List.length_cons, List.length_nil]; omega
        · simp only [List.length_nil]; omega
      by_cases hdb : is_base d = true
      · simp only [hdb, if_true] at h
        split at h
        · obtain ⟨consumed, h1, h2, h3, h4⟩ := ih _ _ _ _ _ _ _ h hbi1
          refine ⟨c :: consumed, by rw [h1, List.cons_append], ?_, ?_, ?_⟩
          · rw [h2, hcount]
          · rw [h3, List.dropLast_cons₂, List.filter_cons, if_pos hdb]
            simp
          · rw [List.getLast?_cons_cons]; exact h4
        · cases h
      · simp only [hdb, Bool.false_eq_true, if_false] at h
        split at h
        · cases h
        · obtain ⟨consumed, h1, h2, h3, h4⟩ := ih _ _ _ _ _ _ _ h hbi1
          refine ⟨c :: consumed, by rw [h1, List.cons_append], ?_, ?_, ?_⟩
          · rw [h2, hcount]
          · rw [h3, List.dropLast_cons₂, List.filter_cons, if_neg hdb]
          · rw [List.getLast?_cons_cons]; exact h4
    · simp only [Except.ok.injEq, Prod.mk.injEq] at h
      obtain ⟨h1, h2, h3, h4⟩ := h
      exact ⟨[], by simp [h2], by simp [h3], by simp [h4], by simp [h1]⟩

theorem is_base_iff (c : Char) :
    is_base c = true ↔ c = 'A' ∨ c = 'C' ∨ c = 'G' ∨ c = 'T' ∨ c = 'N' := by
  simp [is_base, or_assoc]

/-- The records that one pass through the loop body leaves have bodies of
bases when the records before it have. -/
theorem process_loc_bodies (env : Env) (fuel : Nat) (cur cur1 : Cursor) (loc : location)
    (h : process_loc env fuel cur loc = some (.ok cur1))
    (hbi : cur.base_index < ULONG_MOD)
    (hout : ∀ r ∈ cur.out, ∀ c ∈ r.sequence, is_base c = true) :
    ∀ r ∈ cur1.out, ∀ c ∈ r.sequence, is_base c = true := by
  unfold process_loc at h
  split at h
  · cases h
  · split at h
    · cases h
    · rename_i name hread
      split at h
      · cases h
      · cases h
      · rename_i cur2 hres
        obtain ⟨hout2, hb2⟩ := resolve_chromo_ok fuel cur cur2 name hres
        split at h
        · cases h
        · rename_i d2 ref2 bi2 hseek
          obtain ⟨hbi2, _⟩ := seek_ok _ _ _ _ _ _ _ hseek (hb2 hbi)
          simp only at h
          split at h
          · cases h
          · split at h
            · cases h
            · split at h
              · cases h
              · rename_i d3 ref3 bi3 seq hext
                obtain ⟨consumed, _, _, hseq, _⟩ :=
                  extract_reads _ _ _ _ _ _ _ _ _ _ hext hbi2
                have hseqb : ∀ c ∈ seq, is_base c = true := by
                  intro c hc
                  rw [hseq, List.nil_append] at hc
                  exact (List.mem_filter.1 hc).2
                split at h
                · simp only [Option.some.injEq, Except.ok.injEq] at h
                  subst h
                  intro r hr
                  simp only at hr
                  split at hr
                  · rcases List.mem_append.1 hr with h1 | h1
                    · exact hout r (hout2 ▸ h1)
                    · rw [List.mem_singleton] at h1
                      rw [h1]
                      exact hseqb
                  · exact hout r (hout2 ▸ hr)
                · cases h

theorem loc_loop_bodies (env : Env) (fuel : Nat) :
    ∀ (n : Nat) (cur : Cursor) (mask_locs : Stream) (r : Run),
      cur.base_index < ULONG_MOD → loc_loop env fuel n cur mask_locs = some r →
      (∀ x ∈ cur.out, ∀ c ∈ x.sequence, is_base c = true) →
      ∀ x ∈ r.out, ∀ c ∈ x.sequence, is_base c = true := by
  intro n
  induction n with
  | zero =>
    intro cur m r _ h hout
    simp only [loc_loop, Option.some.injEq] at h
    subst h
    exact hout
  | succ n ih =>
    intro cur m r hbi h hout
    rw [loc_loop] at h
    split at h
    · simp only [Option.some.injEq] at h
      subst h
      exact hout
    · rename_i loc rest hloc
      obtain ⟨hs, he, _⟩ := get_next_loc_bounds m rest loc hloc
      split at h
      · cases h
      · simp only [Option.some.injEq] at h
        subst h
        exact hout
      · rename_i cur1 hproc
        obtain ⟨hbi1, _, _⟩ := process_loc_ok env fuel cur cur1 loc hproc hbi hs he
        exact ih cur1 rest r hbi1 h (process_loc_bodies env fuel cur cur1 loc hproc hbi hout)

/-- Every record of a run has a body of bases. -/
theorem main_bodies (env : Env) (fuel : Nat) (ref mask_locs : Stream) (r : Run)
    (h : main env fuel ref mask_locs = some r) :
    ∀ x ∈ r.out, ∀ c ∈ x.sequence, is_base c = true := by
  unfold main at h
  simp only at h
  split at h
  · simp only [Option.some.injEq] at h
    subst h
    simp
  · split at h
    · simp only [Option.some.injEq] at h
      subst h
      simp
    · exact loc_loop_bodies env fuel _ _ _ r (by simp [ULONG_MOD]) h (by simp)

/-! ## A span that starts within the chromosome and ends after it -/

/-- The seek loop reaches a start that lies within the rest of the chromosome:
it stops with `base_index` not smaller than `start`, on a character that is no
`>`, and the bases left are those that it has not counted. -/
theorem seek_within (start : Nat) (tail : Stream) (hmax : start < ULONG_MOD)
    (pre : List Char) (d : Char) (base_index : Nat) (hd : d ≠ '>')
    (hpre : ∀ c ∈ pre, c ≠ '>')
    (hin : start ≤ base_index + (pre.filter is_base).length) :
    ∃ d2 pre2 bi2, seek start (pre ++ tail) d base_index = .ok (d2, pre2 ++ tail, bi2) ∧
      d2 ≠ '>' ∧ (∀ c ∈ pre2, c ≠ '>') ∧ start ≤ bi2 ∧
      bi2 + (pre2.filter is_base).length = base_index + (pre.filter is_base).length := by
  by_cases hlt : base_index < start
  · obtain ⟨p1, b, p2, hsplit, hb, hp1⟩ := split_at_base pre (start - base_index - 1) (by omega)
    have hp1c : ∀ c ∈ p1, c ≠ '>' := fun c hc => hpre c (by rw [hsplit]; simp [hc])
    have hp2c : ∀ c ∈ p2, c ≠ '>' := fun c hc => hpre c (by rw [hsplit]; simp [hc])
    refine ⟨b, p2, start, ?_, is_base_ne_marker b hb, hp2c, Nat.le_refl _, ?_⟩
    · have hseek := seek_bases start b (p2 ++ tail) hb hmax p1 d base_index hp1c (by omega)
      rw [hsplit]
      simpa [List.append_assoc] using hseek
    · rw [hsplit, List.filter_append, List.length_append, List.filter_cons, if_pos hb,
        List.length_cons]
      omega
  · exact ⟨d, pre, base_index, seek_done _ _ _ _ hlt, hd, hpre, by omega, rfl⟩

/-- The loop body for a span that starts within the rest of the current
chromosome and ends on its last base or after it: the extract loop ends the
run, at the end of the stream or at the `>` of the next record. -/
theorem process_loc_span_beyond (env : Env) (fuel : Nat) (cur cur1 : Cursor) (loc : location)
    (name : List Char) (pre : List Char) (hread : read_name env loc = some name)
    (hstack : loc.end_ - loc.start + 2 ≤ env.stack)
    (hres : resolve_chromo fuel cur name = some (.ok cur1))
    (hd : cur1.d ≠ '>') (hpre : ∀ c ∈ pre, c ≠ '>') (hs : 1 ≤ loc.start)
    (hle : loc.start ≤ loc.end_) (hmax : loc.end_ + 1 < ULONG_MOD)
    (hin : loc.start ≤ cur1.base_index + (pre.filter is_base).length)
    (hbeyond : cur1.base_index + (pre.filter is_base).length ≤ loc.end_) :
    (cur1.ref = pre →
      process_loc env fuel cur loc
        = some (.error (.fatal "ERROR: Reference file too short [3]\n", []))) ∧
    (∀ post, cur1.ref = pre ++ '>' :: post →
      process_loc env fuel cur loc
        = some (.error
            (.fatal "ERROR: Reached end of chromosome without finding location\n", post))) := by
  have hcap : ∀ (d2 : Char) (pre2 : List Char) (bi2 : Nat), loc.start ≤ bi2 →
      bi2 + (pre2.filter is_base).length ≤ loc.end_ →
      (([] : List Char) ++ (d2 :: pre2).filter is_base).length ≤ loc.end_ - loc.start + 2 := by
    intro d2 pre2 bi2 h1 h2
    rw [List.nil_append, List.filter_cons]
    split
    · rw [List.length_cons]; omega
    · omega
  constructor
  · intro href
    obtain ⟨d2, pre2, bi2, hseek, hd2, hpre2, hge, hcount⟩ :=
      seek_within loc.start [] (by omega) pre cur1.d cur1.base_index hd hpre hin
    rw [List.append_nil, List.append_nil, ← href] at hseek
    have hext := extract_too_short loc.end_ (loc.end_ - loc.start + 2) hmax pre2 d2 bi2 []
      hpre2 hd2 (by omega) (hcap d2 pre2 bi2 hge (by omega))
    exact process_loc_extract_error env fuel cur cur1 loc name d2 pre2 bi2 _ hle hs hmax hread
      hstack hres hseek hext
  · intro post href
    obtain ⟨d2, pre2, bi2, hseek, hd2, hpre2, hge, hcount⟩ :=
      seek_within loc.start ('>' :: post) (by omega) pre cur1.d cur1.base_index hd hpre hin
    rw [← href] at hseek
    have hext := extract_next_record loc.end_ (loc.end_ - loc.start + 2) post hmax pre2 d2 bi2
      [] hpre2 hd2 (by omega) (hcap d2 pre2 bi2 hge (by omega))
    exact process_loc_extract_error env fuel cur cur1 loc name d2 (pre2 ++ '>' :: post) bi2 _
      hle hs hmax hread hstack hres hseek hext

/-! ## The writes into `sequence` -/

/-- The extract loop keeps its writes within a buffer of `limit + 1`
characters when the characters stored, the bases still to store up to `end`
and the held base that waits to be stored are at most `limit` together. -/
theorem extract_in_bounds (end_ limit : Nat) (hmax : end_ + 1 < ULONG_MOD) :
    ∀ (ref : Stream) (d : Char) (base_index : Nat) (seq : List Char),
      seq.length ≤ limit →
      (base_index ≤ end_ →
        seq.length + (end_ + 1 - base_index) ≤ limit + (if is_base d = true then 0 else 1)) →
      match extract end_ (limit + 1) ref d base_index seq with
      | .ok (_, _, _, seq1) => seq1.length ≤ limit
      | .error (h, _) => ∃ msg, h = .fatal msg := by
  intro ref
  induction ref with
  | nil =>
    intro d bi seq hlen hinv
    rw [extract]
    by_cases hle : bi ≤ end_
    · have hi := hinv hle
      simp only [hle, if_true]
      by_cases hdb : is_base d = true
      · simp only [hdb, if_true] at hi ⊢
        rw [if_pos (by omega)]
        exact ⟨_, rfl⟩
      · simp only [hdb, Bool.false_eq_true, if_false]
        by_cases hgt : d = '>'
        · simp only [hgt, if_true]
          exact ⟨_, rfl⟩
        · simp only [hgt, if_false]
          exact ⟨_, rfl⟩
    · simp only [hle, if_false]
      exact hlen
  | cons c ref ih =>
    intro d bi seq hlen hinv
    rw [extract]
    by_cases hle : bi ≤ end_
    · have hi := hinv hle
      simp only [hle, if_true]
      by_cases hdb : is_base d = true
      · simp only [hdb, if_true, Nat.add_zero] at hi ⊢
        rw [if_pos (by omega)]
        refine ih c _ (seq ++ [d]) ?_ ?_
        · rw [List.length_append, List.length_singleton]; omega
        · intro hle1
          rw [List.length_append, List.length_singleton]
          by_cases hcb : is_base c = true
          · simp only [hcb, if_true] at hle1 ⊢
            rw [Nat.mod_eq_of_lt (by omega)] at hle1 ⊢
            omega
          · simp only [hcb, Bool.false_eq_true, if_false] at hle1 ⊢
            omega
      · simp only [hdb, Bool.false_eq_true, if_false] at hi ⊢
        by_cases hgt : d = '>'
        · simp only [hgt, if_true]
          exact ⟨_, rfl⟩
        · simp only [hgt, if_false]
          refine ih c _ seq hlen ?_
          intro hle1
          by_cases hcb : is_base c = true
          · simp only [hcb, if_true] at hle1 ⊢
            rw [Nat.mod_eq_of_lt (by omega)] at hle1 ⊢
            omega
          · simp only [hcb, Bool.false_eq_true, if_false] at hle1 ⊢
            omega
    · simp only [hle, if_false]
      exact hlen

theorem chromo_name_chars_safe :
    ∀ (ref : Stream) (d : Char) (name : List Char) (buffsize : Nat), name.length < buffsize →
      match chromo_name_chars ref d name buffsize with
      | .ok (name1, buffsize1, _, _) => name1.length < buffsize1
      | .error (h, _) => ∃ msg, h = .fatal msg := by
  intro ref
  induction ref with
  | nil =>
    intro d name bs hlen
    have hlt : name.length < (if name.length = bs - 1 then bs * 2 else bs) := by
      split <;> omega
    rw [chromo_name_chars]
    by_cases hd : d ≠ '\n' ∧ d ≠ ' '
    · rw [if_pos hd]
      simp only
      rw [if_pos hlt]
      exact ⟨_, rfl⟩
    · rw [if_neg hd]
      exact hlen
  | cons c ref ih =>
    intro d name bs hlen
    have hlt : name.length < (if name.length = bs - 1 then bs * 2 else bs) := by
      split <;> omega
    have hlt1 : (name ++ [d]).length < (if name.length = bs - 1 then bs * 2 else bs) := by
      rw [List.length_append, List.length_singleton]
      split <;> omega
    rw [chromo_name_chars]
    by_cases hd : d ≠ '\n' ∧ d ≠ ' '
    · rw [if_pos hd]
      simp only
      rw [if_pos hlt]
      exact ih c (name ++ [d]) _ hlt1
    · rw [if_neg hd]
      exact hlen

theorem skip_header_rest_safe :
    ∀ (ref : Stream) (d : Char) (h : Halt) (r : Stream),
      skip_header_rest ref d = .error (h, r) → ∃ msg, h = .fatal msg := by
  intro ref
  induction ref with
  | nil =>
    intro d h r heq
    rw [skip_header_rest] at heq
    split at heq
    · simp only [Except.error.injEq, Prod.mk.injEq] at heq
      exact ⟨_, heq.1.symm⟩
    · cases heq
  | cons c ref ih =>
    intro d h r heq
    rw [skip_header_rest] at heq
    split at heq
    · exact ih c h r heq
    · cases heq

/-- The function `get_chromo_name` keeps its writes within its buffer: it ends
with a name or with a fatal error. -/
theorem get_chromo_name_safe (ref : Stream) (h : Halt) (r : Stream)
    (heq : get_chromo_name ref = .error (h, r)) : ∃ msg, h = .fatal msg := by
  unfold get_chromo_name at heq
  split at heq
  · simp only [Except.error.injEq, Prod.mk.injEq] at heq
    exact ⟨_, heq.1.symm⟩
  · rename_i d ref1
    have hsafe := chromo_name_chars_safe ref1 d [] 60 (by simp)
    split at heq
    · rename_i e he
      rw [he] at hsafe
      simp only [Except.error.injEq] at heq
      subst heq
      exact hsafe
    · rename_i name bs d1 ref2 he
      rw [he] at hsafe
      simp only at hsafe
      split at heq
      · rename_i e hs
        simp only [Except.error.injEq] at heq
        subst heq
        exact skip_header_rest_safe _ _ _ _ hs
      · rw [if_pos hsafe] at heq
        cases heq

theorem find_chromo_safe :
    ∀ (fuel : Nat) (name loc_name : List Char) (ref : Stream) (h : Halt) (r : Stream),
      find_chromo fuel name loc_name ref = some (.error (h, r)) → ∃ msg, h = .fatal msg := by
  intro fuel
  induction fuel with
  | zero => intro name loc_name ref h r heq; simp [find_chromo] at heq
  | succ fuel ih =>
    intro name loc_name ref h r heq
    rw [find_chromo] at heq
    split at heq
    · split at heq
      · cases heq
      · split at heq
        · rename_i e hg
          simp only [Option.some.injEq, Except.error.injEq] at heq
          subst heq
          exact get_chromo_name_safe _ _ _ hg
        · exact ih _ _ _ _ _ heq
    · cases heq

theorem resolve_chromo_safe (fuel : Nat) (cur : Cursor) (name : List Char) (h : Halt)
    (r : Stream) (heq : resolve_chromo fuel cur name = some (.error (h, r))) :
    ∃ msg, h = .fatal msg := by
  unfold resolve_chromo at heq
  split at heq
  · split at heq
    · cases heq
    · rename_i e hf
      simp only [Option.some.injEq, Except.error.injEq] at heq
      subst heq
      exact find_chromo_safe _ _ _ _ _ _ hf
    · split at heq
      · simp only [Option.some.injEq, Except.error.injEq, Prod.mk.injEq] at heq
        exact ⟨_, heq.1.symm⟩
      · cases heq
  · cases heq

theorem seek_safe (start : Nat) :
    ∀ (ref : Stream) (d : Char) (base_index : Nat) (h : Halt) (r : Stream),
      seek start ref d base_index = .error (h, r) → ∃ msg, h = .fatal msg := by
  intro ref
  induction ref with
  | nil =>
    intro d bi h r heq
    rw [seek] at heq
    split at heq
    · simp only [Except.error.injEq, Prod.mk.injEq] at heq
      exact ⟨_, heq.1.symm⟩
    · cases heq
  | cons c ref ih =>
    intro d bi h r heq
    rw [seek] at heq
    split at heq
    · split at heq
      · exact ih _ _ _ _ heq
      · split at heq
        · simp only [Except.error.injEq, Prod.mk.injEq] at heq
          exact ⟨_, heq.1.symm⟩
        · exact ih _ _ _ _ heq
    · cases heq

/-! ## Locations in order inside one chromosome -/

/-- The bases before and after a split of a stream at a base. -/
theorem filter_split (ref pre post : Stream) (b : Char) (all : List Char) (k : Nat)
    (hsplit : ref = pre ++ b :: post) (hall : ref.filter is_base = all)
    (hk : (pre.filter is_base).length = k) :
    (b :: post).filter is_base = all.drop k ∧ pre.filter is_base = all.take k := by
  rw [hsplit, List.filter_append] at hall
  rw [← hall, ← hk]
  exact ⟨(List.drop_left _ _).symm, (List.take_left _ _).symm⟩

/-- The bases still unread when the held character is the base at position
`p`. -/
theorem bases_tail (all : List Char) (d : Char) (ref : Stream) (p : Nat) (hd : is_base d = true)
    (hp : 1 ≤ p) (hall : (d :: ref).filter is_base = all.drop (p - 1)) :
    ref.filter is_base = all.drop p ∧ p ≤ all.length ∧ all[p - 1]? = some d := by
  rw [List.filter_cons, if_pos hd] at hall
  have h1 : all.drop p = (all.drop (p - 1)).drop 1 := by
    rw [List.drop_drop]
    congr 1
    omega
  have hlen : (all.drop (p - 1)).length = (ref.filter is_base).length + 1 := by
    rw [← hall, List.length_cons]
  rw [List.length_drop] at hlen
  refine ⟨?_, by omega, ?_⟩
  · rw [h1, ← hall, List.drop_one, List.tail_cons]
  · have h2 : (all.drop (p - 1))[0]? = some d := by rw [← hall]; simp
    rw [List.getElem?_drop] at h2
    simpa using h2

/-- The seek loop from the base at position `p` to a later position `t` of
the chromosome. -/
theorem seek_inside (all : List Char) (d : Char) (ref : Stream) (p t : Nat)
    (hd : is_base d = true) (href : ∀ c ∈ ref, c ≠ '>') (hp : 1 ≤ p) (hpt : p ≤ t)
    (hall : (d :: ref).filter is_base = all.drop (p - 1)) (ht : t ≤ all.length)
    (hmax : t < ULONG_MOD) :
    ∃ d2 ref2, seek t ref d p = .ok (d2, ref2, t) ∧ is_base d2 = true ∧
      (∀ c ∈ ref2, c ≠ '>') ∧ (d2 :: ref2).filter is_base = all.drop (t - 1) := by
  by_cases heq : p = t
  · subst heq
    exact ⟨d, ref, seek_done _ _ _ _ (by omega), hd, href, hall⟩
  · obtain ⟨htail, _, _⟩ := bases_tail all d ref p hd hp hall
    have hlen : (ref.filter is_base).length = all.length - p := by
      rw [htail, List.length_drop]
    obtain ⟨pre, b, post, hsplit, hb, hpre⟩ := split_at_base ref (t - p - 1) (by omega)
    have hpre1 : ∀ c ∈ pre, c ≠ '>' := fun c hc => href c (by rw [hsplit]; simp [hc])
    have hpost : ∀ c ∈ post, c ≠ '>' := fun c hc => href c (by rw [hsplit]; simp [hc])
    have hseek := seek_bases t b post hb hmax pre d p hpre1 (by omega)
    obtain ⟨hrest, _⟩ := filter_split ref pre post b (all.drop p) (t - p - 1) hsplit htail hpre
    refine ⟨b, post, by rw [hsplit]; exact hseek, hb, hpost, ?_⟩
    rw [hrest, List.drop_drop]
    congr 1
    omega

/-- The extract loop from the base at position `s` for a span that ends
before the last base of the chromosome. -/
theorem extract_inside (all : List Char) (d : Char) (ref : Stream) (s e cap : Nat)
    (hd : is_base d = true) (href : ∀ c ∈ ref, c ≠ '>') (hs : 1 ≤ s) (hse : s ≤ e)
    (hall : (d :: ref).filter is_base = all.drop (s - 1)) (he : e < all.length)
    (hmax : e + 1 < ULONG_MOD) (hcap : e - s + 1 ≤ cap) :
    ∃ d3 ref3, extract e cap ref d s []
        = .ok (d3, ref3, e + 1, (all.drop (s - 1)).take (e + 1 - s)) ∧
      is_base d3 = true ∧ (∀ c ∈ ref3, c ≠ '>') ∧ (d3 :: ref3).filter is_base = all.drop e ∧
      ((all.drop (s - 1)).take (e + 1 - s)).length = e - s + 1 := by
  obtain ⟨htail, _, _⟩ := bases_tail all d ref s hd hs hall
  have hlen : (ref.filter is_base).length = all.length - s := by
    rw [htail, List.length_drop]
  obtain ⟨pre, b, post, hsplit, hb, hpre⟩ := split_at_base ref (e - s) (by omega)
  have hpre1 : ∀ c ∈ pre, c ≠ '>' := fun c hc => href c (by rw [hsplit]; simp [hc])
  have hpost : ∀ c ∈ post, c ≠ '>' := fun c hc => href c (by rw [hsplit]; simp [hc])
  obtain ⟨hrest, htake⟩ := filter_split ref pre post b (all.drop s) (e - s) hsplit htail hpre
  have hbody : (d :: pre).filter is_base = (all.drop (s - 1)).take (e + 1 - s) := by
    rw [← hall, List.filter_cons, if_pos hd, List.filter_cons, if_pos hd, htake, htail]
    have h1 : e + 1 - s = (e - s) + 1 := by omega
    rw [h1, List.take_succ_cons]
  have hblen : ((d :: pre).filter is_base).length = e - s + 1 := by
    rw [List.filter_cons, if_pos hd, List.length_cons, hpre]
  have hext := extract_bases e cap b post hb hmax pre d s [] hpre1 (is_base_ne_marker d hd)
    (by omega) (by rw [List.nil_append, hblen]; exact hcap)
  rw [List.nil_append, hbody] at hext
  refine ⟨b, post, by rw [hsplit]; exact hext, hb, hpost, ?_, by rw [← hbody]; exact hblen⟩
  rw [hrest, List.drop_drop]
  congr 1
  omega

/-- One pass through the loop body from the base at position `p`, for a
location of the same chromosome that starts at `p` or later and ends before
the last base, when the read of `loc.name` gives the name of the chromosome
and the stack holds the array. -/
theorem process_loc_inside (env : Env) (fuel : Nat) (name all : List Char) (p : Nat)
    (cur : Cursor) (loc : location) (hcur : cursor_at name all p cur)
    (hread : read_name env loc = some name)
    (hstack : loc.end_ - loc.start + 2 ≤ env.stack)
    (hps : p ≤ loc.start) (hse : loc.start ≤ loc.end_) (he : loc.end_ < all.length)
    (hsize : all.length < ULONG_MOD) :
    ∃ d2 ref2 cur1,
      seek loc.start cur.ref cur.d cur.base_index = .ok (d2, ref2, loc.start) ∧
      extract loc.end_ (((loc.end_ + ULONG_MOD - loc.start) % ULONG_MOD + 2) % ULONG_MOD)
          ref2 d2 loc.start []
        = .ok (cur1.d, cur1.ref, loc.end_ + 1,
            (all.drop (loc.start - 1)).take (loc.end_ + 1 - loc.start)) ∧
      process_loc env fuel cur loc = some (.ok cur1) ∧
      cur1.out = cur.out ++
        (if 100 ≤ loc.end_ - loc.start + 1 then
          [⟨name, loc.start, loc.end_,
            (all.drop (loc.start - 1)).take (loc.end_ + 1 - loc.start)⟩]
        else []) ∧
      ((all.drop (loc.start - 1)).take (loc.end_ + 1 - loc.start)).length
        = loc.end_ - loc.start + 1 ∧
      cursor_at name all (loc.end_ + 1) cur1 := by
  obtain ⟨hcn, hd, href, hbi, hp, hall⟩ := hcur
  have hs : 1 ≤ loc.start := by omega
  have hmax : loc.end_ + 1 < ULONG_MOD := by omega
  obtain ⟨d2, ref2, hseek, hd2, href2, hall2⟩ :=
    seek_inside all cur.d cur.ref p loc.start hd href hp hps hall (by omega) (by omega)
  obtain ⟨d3, ref3, hext, hd3, href3, hall3, hlen⟩ :=
    extract_inside all d2 ref2 loc.start loc.end_ (loc.end_ - loc.start + 2) hd2 href2 hs hse
      hall2 he hmax (by omega)
  have hres : resolve_chromo fuel cur name = some (.ok cur) :=
    resolve_chromo_same fuel cur name hcn
  rw [← hbi] at hseek
  have hstep := process_loc_steps env fuel cur cur loc name d2 d3 ref2 ref3 loc.start
    (loc.end_ + 1) _ hse hs hmax hread hstack hres hseek hext (by rw [hlen]; omega)
  refine ⟨d2, ref2, _, hseek, ?_, hstep, rfl, hlen, ?_⟩
  · rw [(str_len_required_eq loc.start loc.end_ hse hs hmax).1]
    exact hext
  · exact ⟨hcn, hd3, href3, rfl, by omega, hall3⟩

/-- The loop over the locations is the loop body run for the locations that
the calls of `get_next_loc` return. -/
theorem loc_loop_process_locs (env : Env) (fuel : Nat) :
    ∀ (n : Nat) (cur : Cursor) (mask_locs : Stream) (locs : List location) (final : Cursor),
      read_locs n mask_locs = some locs → process_locs env fuel cur locs = some (.ok final) →
      loc_loop env fuel n cur mask_locs = some ⟨final.out, final.ref, none⟩ := by
  intro n
  induction n with
  | zero =>
    intro cur m locs final hlocs hrun
    simp only [read_locs, Option.some.injEq] at hlocs
    subst hlocs
    simp only [process_locs, Option.some.injEq, Except.ok.injEq] at hrun
    subst hrun
    rfl
  | succ n ih =>
    intro cur m locs final hlocs hrun
    rw [read_locs] at hlocs
    split at hlocs
    · cases hlocs
    · rename_i loc rest hloc
      cases hr : read_locs n rest with
      | none => rw [hr] at hlocs; cases hlocs
      | some l =>
        rw [hr] at hlocs
        simp only [Option.map_some', Option.some.injEq] at hlocs
        subst hlocs
        rw [process_locs] at hrun
        rw [loc_loop, hloc]
        cases hp : process_loc env fuel cur loc with
        | none => rw [hp] at hrun; cases hrun
        | some x =>
          cases x with
          | error e => rw [hp] at hrun; cases hrun
          | ok cur1 =>
            rw [hp] at hrun
            simp only [hp]
            exact ih cur1 rest l final hr hrun

/-- The loop body run for locations in increasing order that end before the
last base of the chromosome, from the base at position `p`, when every read
of a name gives the name of the chromosome and the stack holds every array:
every location is extracted, and the records of the locations of at least 100
bases are written. -/
theorem process_locs_inside (env : Env) (fuel : Nat) (name all : List Char)
    (hsize : all.length < ULONG_MOD) :
    ∀ (locs : List location) (cur : Cursor) (p : Nat), cursor_at name all p cur →
      increasing_from (p - 1) locs → (∀ q ∈ locs, read_name env q = some name) →
      (∀ q ∈ locs, q.end_ - q.start + 2 ≤ env.stack) →
      (∀ q ∈ locs, q.end_ < all.length) →
      ∃ final, process_locs env fuel cur locs = some (.ok final) ∧
        final.out = cur.out ++
          (locs.filter (fun q => decide (100 ≤ q.end_ - q.start + 1))).map
            (fun q => ⟨name, q.start, q.end_,
              (all.drop (q.start - 1)).take (q.end_ + 1 - q.start)⟩) ∧
        ∀ init q tail, locs = init ++ q :: tail →
          ∃ c0 c1 d2 ref2, process_locs env fuel cur init = some (.ok c0) ∧
            seek q.start c0.ref c0.d c0.base_index = .ok (d2, ref2, q.start) ∧
            extract q.end_ (((q.end_ + ULONG_MOD - q.start) % ULONG_MOD + 2) % ULONG_MOD)
                ref2 d2 q.start []
              = .ok (c1.d, c1.ref, q.end_ + 1,
                  (all.drop (q.start - 1)).take (q.end_ + 1 - q.start)) ∧
            process_loc env fuel c0 q = some (.ok c1) ∧
            ((all.drop (q.start - 1)).take (q.end_ + 1 - q.start)).length
              = q.end_ - q.start + 1 ∧
            c1.base_index = q.end_ + 1 ∧ all[q.end_]? = some c1.d := by
  intro locs
  induction locs with
  | nil =>
    intro cur p _ _ _ _ _
    refine ⟨cur, rfl, by simp, ?_⟩
    intro init q tail h
    cases init <;> cases h
  | cons loc locs ih =>
    intro cur p hcur hinc hname hstack hend
    obtain ⟨h1, h2, h3⟩ := hinc
    have hp : 1 ≤ p := hcur.2.2.2.2.1
    obtain ⟨d2, ref2, cur1, hseek, hext, hstep, hout, hlen, hcur1⟩ :=
      process_loc_inside env fuel name all p cur loc hcur (hname loc (by simp))
        (hstack loc (by simp)) (by omega) h2 (hend loc (by simp)) hsize
    obtain ⟨final, hrun, hfout, hall⟩ := ih cur1 (loc.end_ + 1) hcur1 h3
      (fun q hq => hname q (by simp [hq])) (fun q hq => hstack q (by simp [hq]))
      (fun q hq => hend q (by simp [hq]))
    have hheld : all[loc.end_]? = some cur1.d := by
      have := (bases_tail all cur1.d cur1.ref (loc.end_ + 1) hcur1.2.1 (by omega) hcur1.2.2.2.2.2).2.2
      simpa using this
    refine ⟨final, ?_, ?_, ?_⟩
    · rw [process_locs, hstep]
      exact hrun
    · rw [hfout, hout, List.filter_cons]
      by_cases h100 : 100 ≤ loc.end_ - loc.start + 1
      · rw [if_pos h100, if_pos (decide_eq_true h100), List.map_cons, List.append_assoc]
        rfl
      · rw [if_neg h100, if_neg (by simpa using h100), List.append_nil]
    · intro init q tail hsplit
      cases init with
      | nil =>
        rw [List.nil_append] at hsplit
        injection hsplit with hq ht
        subst hq
        exact ⟨cur, cur1, d2, ref2, rfl, hseek, hext, hstep, hlen, hcur1.2.2.2.1, hheld⟩
      | cons x init =>
        rw [List.cons_append] at hsplit
        injection hsplit with hx ht
        subst hx
        obtain ⟨c0, c1, d4, ref4, hinit, hrest⟩ := hall init q tail ht
        refine ⟨c0, c1, d4, ref4, ?_, hrest⟩
        rw [process_locs, hstep]
        exact hinit

/-! ## The claims -/

/-- The example of the specification, in the environment where the freed
name still reads as it was written: on a chromosome `chr1` of 200 bases `A` on
one line, the location `chr1 1 150` gives the record `>chr1_1_150` with 150
bases `A`. -/
theorem example_200_bases :
    main Env.intact 0 (">chr1\n".toList ++ List.replicate 200 'A' ++ ['\n']) "chr1 1 150\n".toList
        = some ⟨[⟨"chr1".toList, 1, 150, List.replicate 150 'A'⟩],
            List.replicate 49 'A' ++ ['\n'], none⟩ ∧
      (⟨"chr1".toList, 1, 150, List.replicate 150 'A'⟩ : Record).text
        = ">chr1_1_150\n".toList ++ List.replicate 150 'A' ++ ['\n'] := by
  constructor <;> decide!

/-- C1: a location that ends on the last base of the sequence gives no
record.  For every reference made of the header line `>name` and a sequence
that starts with a base, holds no `>` and has exactly `e` bases, and for the
location `name s e` with `1 ≤ s ≤ e`, the run writes nothing and ends with the
fatal error of line 129: the extract loop of lines 119-135 stops only after it
has read the base at position `end + 1`.  The environment is `Env.intact`,
where the freed name still reads as it was written. -/
theorem location_on_last_base_fails (fuel : Nat) (name : List Char) (d : Char) (ref : Stream)
    (s e : Nat) (hname : name ≠ []) (hn : ∀ c ∈ name, c ≠ ' ' ∧ c ≠ '\n')
    (hd : is_base d = true) (href : ∀ c ∈ ref, c ≠ '>')
    (hs : 1 ≤ s) (hse : s ≤ e) (hmax : e + 1 < ULONG_MOD)
    (hlast : ((d :: ref).filter is_base).length = e) :
    main Env.intact fuel ('>' :: name ++ '\n' :: d :: ref)
        (name ++ ' ' :: Nat.toDigits 10 s ++ ' ' :: Nat.toDigits 10 e ++ ['\n'])
      = some ⟨[], [], some (.fatal "ERROR: Reference file too short [3]\n")⟩ := by
  have hlen : ((d :: ref).filter is_base).length = (ref.filter is_base).length + 1 := by
    rw [List.filter_cons, if_pos hd, List.length_cons]
  obtain ⟨b, pre, post, hsplit, hb, _, hpost, hpre, hseek⟩ :=
    seek_from_first_base s d ref hd hs (by omega) href (by omega)
  have hcount : (pre.filter is_base).length + 1 + (post.filter is_base).length = e := by
    rw [← hlast, hsplit, List.filter_append, List.length_append, List.filter_cons, if_pos hb,
      List.length_cons]
    omega
  have hext : extract e (e - s + 2) post b s []
      = .error (.fatal "ERROR: Reference file too short [3]\n", []) := by
    refine extract_too_short e (e - s + 2) hmax post b s [] hpost (is_base_ne_marker b hb)
      (by omega) ?_
    rw [List.nil_append, List.filter_cons, if_pos hb, List.length_cons]
    omega
  have hproc := process_loc_extract_error Env.intact fuel ⟨name, d, ref, 1, []⟩
    ⟨name, d, ref, 1, []⟩ ⟨name, false, s, e⟩ name b post s _ hse hs hmax (read_name_intact _)
    (stack_intact _ (by show e - s + 2 < ULONG_MOD; omega)) (resolve_chromo_same fuel _ _ rfl)
    hseek hext
  rw [main_one_location Env.intact fuel name name d ref s e hn hname hn (by omega) (by omega),
    hproc]

/-- C1, at the reference `>chr1` with exactly 150 bases `A` on one line and
the location `chr1 1 150`. -/
theorem location_on_last_base_fails_witness :
    ("chr1".toList ≠ [] ∧ (∀ c ∈ "chr1".toList, c ≠ ' ' ∧ c ≠ '\n') ∧ is_base 'A' = true ∧
      (∀ c ∈ List.replicate 149 'A' ++ ['\n'], c ≠ '>') ∧ 1 ≤ 1 ∧ 1 ≤ 150 ∧
      150 + 1 < ULONG_MOD ∧
      (('A' :: (List.replicate 149 'A' ++ ['\n'])).filter is_base).length = 150) ∧
    main Env.intact 0 (">chr1\n".toList ++ List.replicate 150 'A' ++ ['\n'])
        "chr1 1 150\n".toList
      = some ⟨[], [], some (.fatal "ERROR: Reference file too short [3]\n")⟩ :=
  ⟨⟨by decide, by decide, by decide, by decide!, by decide, by decide, by decide, by decide!⟩,
    location_on_last_base_fails 0 "chr1".toList 'A' (List.replicate 149 'A' ++ ['\n']) 1 150
      (by decide) (by decide) (by decide) (by decide!) (by decide) (by decide) (by decide)
      (by decide!)⟩

/-- C2: when a run of `main` ends with `return 0`, in any environment, every
line of the location file was read as a location with `start ≤ end` (`N` of
them, the number of newline characters), and standard output holds, in the
order of the file, one record for each location with `end - start + 1 ≥ 100`
and no other: the text `>name_start_end`, a newline, the body and a newline,
where `start` and `end` are those of the location and `name` is what the read
of `loc.name` gave.  The number of records is the number of these locations,
and at most `N`. -/
theorem records_are_the_long_locations (env : Env) (fuel : Nat) (ref mask_locs : Stream)
    (r : Run) (hrun : main env fuel ref mask_locs = some r) (hok : r.halt = none) :
    ∃ locs, read_locs (mask_locs.count '\n') mask_locs = some locs ∧
      locs.length = mask_locs.count '\n' ∧
      (∀ l ∈ locs, l.start ≤ l.end_) ∧
      r.out.map (fun x => (some x.name, x.start, x.end_))
        = (locs.filter (fun l => decide (100 ≤ l.end_ - l.start + 1))).map
            (fun l => (read_name env l, l.start, l.end_)) ∧
      r.stdout
        = (r.out.map (fun x => '>' :: x.name ++ '_' :: Nat.toDigits 10 x.start
            ++ '_' :: Nat.toDigits 10 x.end_ ++ '\n' :: x.sequence ++ ['\n'])).flatten ∧
      r.out.length = (locs.filter (fun l => decide (100 ≤ l.end_ - l.start + 1))).length ∧
      r.out.length ≤ mask_locs.count '\n' := by
  unfold main at hrun
  simp only at hrun
  split at hrun
  · simp only [Option.some.injEq] at hrun
    subst hrun
    cases hok
  · split at hrun
    · simp only [Option.some.injEq] at hrun
      subst hrun
      cases hok
    · rw [count_newlines_eq, Nat.zero_add] at hrun
      obtain ⟨locs, hlocs, hall, hmap⟩ :=
        loc_loop_records env fuel _ _ _ r (by simp [ULONG_MOD]) hrun hok
      have hlen := read_locs_length _ _ _ hlocs
      simp only [List.map_nil, List.nil_append] at hmap
      have hcount : r.out.length
          = (locs.filter (fun l => decide (100 ≤ l.end_ - l.start + 1))).length := by
        have := congrArg List.length hmap
        simpa using this
      refine ⟨locs, hlocs, hlen, hall, hmap, rfl, hcount, ?_⟩
      rw [hcount, ← hlen]
      exact List.length_filter_le _ _

/-- C2, on a chromosome of 250 bases with three locations, in the environment
where the freed name still reads as it was written: the spans of length 99
and 1 give no record, the span of length 100 gives one, and standard output
is the line `>chr1_101_200` and a line of 100 bases.  The lines of the
location file start with 16 spaces. -/
theorem records_are_the_long_locations_witness :
    (main Env.intact 0 (">chr1\n".toList ++ List.replicate 250 'A' ++ ['\n'])
        "                chr1 1 99\n                chr1 101 200\n                chr1 210 210\n".toList
      = some ⟨[⟨"chr1".toList, 101, 200, List.replicate 100 'A'⟩],
          List.replicate 39 'A' ++ ['\n'], none⟩ ∧
      (⟨[⟨"chr1".toList, 101, 200, List.replicate 100 'A'⟩],
          List.replicate 39 'A' ++ ['\n'], none⟩ : Run).halt = none) ∧
    (∃ locs, read_locs
          ("                chr1 1 99\n                chr1 101 200\n                chr1 210 210\n".toList.count '\n')
          "                chr1 1 99\n                chr1 101 200\n                chr1 210 210\n".toList = some locs ∧
      locs.length
        = "                chr1 1 99\n                chr1 101 200\n                chr1 210 210\n".toList.count '\n' ∧
      (∀ l ∈ locs, l.start ≤ l.end_) ∧
      [(⟨"chr1".toList, 101, 200, List.replicate 100 'A'⟩ : Record)].map
          (fun x => (some x.name, x.start, x.end_))
        = (locs.filter (fun l => decide (100 ≤ l.end_ - l.start + 1))).map
            (fun l => (read_name Env.intact l, l.start, l.end_)) ∧
      (⟨[⟨"chr1".toList, 101, 200, List.replicate 100 'A'⟩],
          List.replicate 39 'A' ++ ['\n'], none⟩ : Run).stdout
        = ([(⟨"chr1".toList, 101, 200, List.replicate 100 'A'⟩ : Record)].map
            (fun x => '>' :: x.name ++ '_' :: Nat.toDigits 10 x.start
              ++ '_' :: Nat.toDigits 10 x.end_ ++ '\n' :: x.sequence ++ ['\n'])).flatten ∧
      [(⟨"chr1".toList, 101, 200, List.replicate 100 'A'⟩ : Record)].length
        = (locs.filter (fun l => decide (100 ≤ l.end_ - l.start + 1))).length ∧
      [(⟨"chr1".toList, 101, 200, List.replicate 100 'A'⟩ : Record)].length
        ≤ "                chr1 1 99\n                chr1 101 200\n                chr1 210 210\n".toList.count '\n') ∧
    (⟨[⟨"chr1".toList, 101, 200, List.replicate 100 'A'⟩],
        List.replicate 39 'A' ++ ['\n'], none⟩ : Run).stdout
      = ">chr1_101_200\n".toList ++ List.replicate 100 'A' ++ ['\n'] :=
  ⟨⟨by decide!, rfl⟩,
    records_are_the_long_locations Env.intact 0
      (">chr1\n".toList ++ List.replicate 250 'A' ++ ['\n'])
      "                chr1 1 99\n                chr1 101 200\n                chr1 210 210\n".toList
      ⟨[⟨"chr1".toList, 101, 200, List.replicate 100 'A'⟩], List.replicate 39 'A' ++ ['\n'], none⟩
      (by decide!) rfl,
    by decide!⟩

/-- C3 as stated fails: on a chromosome of 250 bases (100 `A`, 100 `C`, 50
`G`), after `chr1 1 100` the location `chr1 50 200` asks for positions that
were passed; in the environment where the freed name still reads as it was
written, the run ends with `return 0` and writes the record `>chr1_50_200`,
whose body is the 100 bases at positions 101..200 and not the 151 bases at
positions 50..200.  The lines of the location file start with 16 spaces. -/
theorem passed_start_is_not_fatal :
    main Env.intact 0
        (">chr1\n".toList ++ List.replicate 100 'A' ++ List.replicate 100 'C'
          ++ List.replicate 50 'G' ++ ['\n'])
        "                chr1 1 100\n                chr1 50 200\n".toList
      = some ⟨[⟨"chr1".toList, 1, 100, List.replicate 100 'A'⟩,
               ⟨"chr1".toList, 50, 200, List.replicate 100 'C'⟩],
          List.replicate 49 'G' ++ ['\n'], none⟩ ∧
    List.replicate 100 'C'
      ≠ (((List.replicate 100 'A' ++ List.replicate 100 'C' ++ List.replicate 50 'G').filter
            is_base).drop 49).take 151 := by
  constructor <;> decide!

/-- C3 as amended: a location whose `start` is smaller than `base_index` (with
`1 ≤ start ≤ end < ULONG_MAX`) is not detected.  When the read of `loc.name`
gives the name of the current chromosome and the stack holds the array of
`end - start + 2` characters, the seek loop reads nothing and the extract loop
starts at the held character.  When `end < base_index` too, nothing is read
and the body is empty.  Otherwise, when the reference goes on with `pre`,
which holds `end - base_index` bases, and then a base `b`, the body is the
bases among the held character and `pre`, fewer than `end - start + 1`, and
the loop stops on `b` with `base_index = end + 1`.  In both cases the record
`name, start, end` with that body is written when `end - start + 1 ≥ 100`, and
the run goes on. -/
theorem passed_start_is_extracted_from_cursor (env : Env) (fuel : Nat) (cur : Cursor)
    (loc : location) (name : List Char) (hread : read_name env loc = some name)
    (hname : cur.chromo_name = name) (hstack : loc.end_ - loc.start + 2 ≤ env.stack)
    (hstart : 1 ≤ loc.start) (hpassed : loc.start < cur.base_index)
    (hle : loc.start ≤ loc.end_) (hmax : loc.end_ + 1 < ULONG_MOD) :
    (loc.end_ < cur.base_index →
      process_loc env fuel cur loc
        = some (.ok ⟨cur.chromo_name, cur.d, cur.ref, cur.base_index,
            cur.out ++ (if 100 ≤ loc.end_ - loc.start + 1
              then [⟨name, loc.start, loc.end_, []⟩] else [])⟩)) ∧
    (∀ (pre : List Char) (b : Char) (post : Stream),
      cur.base_index ≤ loc.end_ → cur.d ≠ '>' → cur.ref = pre ++ b :: post →
      (∀ c ∈ pre, c ≠ '>') → is_base b = true →
      cur.base_index + (pre.filter is_base).length = loc.end_ →
      process_loc env fuel cur loc
          = some (.ok ⟨cur.chromo_name, b, post, loc.end_ + 1,
              cur.out ++ (if 100 ≤ loc.end_ - loc.start + 1
                then [⟨name, loc.start, loc.end_, (cur.d :: pre).filter is_base⟩]
                else [])⟩) ∧
        ((cur.d :: pre).filter is_base).length < loc.end_ - loc.start + 1) := by
  have hres := resolve_chromo_same fuel cur name hname
  have hseek : seek loc.start cur.ref cur.d cur.base_index = .ok (cur.d, cur.ref, cur.base_index) :=
    seek_done _ _ _ _ (by omega)
  constructor
  · intro hend
    exact process_loc_steps env fuel cur cur loc name cur.d cur.d cur.ref cur.ref cur.base_index
      cur.base_index [] hle hstart hmax hread hstack hres hseek
      (extract_done _ _ _ _ _ _ (by omega)) (by simp)
  · intro pre b post hend hd href hpre hb hcount
    have hlen : ((cur.d :: pre).filter is_base).length ≤ loc.end_ + 1 - cur.base_index := by
      rw [List.filter_cons]
      split
      · rw [List.length_cons]; omega
      · omega
    refine ⟨?_, by omega⟩
    refine process_loc_steps env fuel cur cur loc name cur.d b cur.ref post cur.base_index
      (loc.end_ + 1) _ hle hstart hmax hread hstack hres hseek ?_ (by omega)
    rw [href]
    have := extract_bases loc.end_ (loc.end_ - loc.start + 2) b post hb hmax pre cur.d
      cur.base_index [] hpre hd hcount (by rw [List.nil_append]; omega)
    rw [List.nil_append] at this
    exact this

/-- C3 as amended, in the state after `chr1 1 100` on a chromosome of 100
`A`, 100 `C` and 50 `G`, at the location `chr1 50 200`, with a stack of 8 MiB:
the body is the 100 bases `C` from the cursor on. -/
theorem passed_start_is_extracted_from_cursor_witness :
    (read_name ⟨some, 8388608⟩ ⟨"chr1".toList, false, 50, 200⟩ = some "chr1".toList ∧
      "chr1".toList = "chr1".toList ∧ 200 - 50 + 2 ≤ 8388608 ∧ 1 ≤ 50 ∧ 50 < 101 ∧ 50 ≤ 200 ∧
      200 + 1 < ULONG_MOD) ∧
    process_loc ⟨some, 8388608⟩ 0
        ⟨"chr1".toList, 'C', List.replicate 99 'C' ++ 'G' :: (List.replicate 49 'G' ++ ['\n']),
          101, [⟨"chr1".toList, 1, 100, List.replicate 100 'A'⟩]⟩
        ⟨"chr1".toList, false, 50, 200⟩
      = some (.ok ⟨"chr1".toList, 'G', List.replicate 49 'G' ++ ['\n'], 201,
          [⟨"chr1".toList, 1, 100, List.replicate 100 'A'⟩,
           ⟨"chr1".toList, 50, 200, List.replicate 100 'C'⟩]⟩) :=
  ⟨⟨rfl, rfl, by decide, by decide, by decide, by decide, by decide⟩,
    ((passed_start_is_extracted_from_cursor ⟨some, 8388608⟩ 0
        ⟨"chr1".toList, 'C', List.replicate 99 'C' ++ 'G' :: (List.replicate 49 'G' ++ ['\n']),
          101, [⟨"chr1".toList, 1, 100, List.replicate 100 'A'⟩]⟩
        ⟨"chr1".toList, false, 50, 200⟩ "chr1".toList rfl rfl (by decide) (by decide)
        (by decide) (by decide) (by decide)).2 (List.replicate 99 'C') 'G'
        (List.replicate 49 'G' ++ ['\n']) (by decide) (by decide) rfl
        (fun c hc => by rw [List.eq_of_mem_replicate hc]; decide) (by decide)
        (by decide!)).1.trans (by decide!)⟩

/-- C4: the search for a chromosome that no later record names does not end
with a fatal error at the end of the stream.  In any state of the loop over the
locations, when the rest of the reference holds no `>` (no record follows, as
for a chromosome that stands only before the cursor) and the next location
names another chromosome than the current one, the run does not end within any
number of iterations of line 89: that loop has no test for `EOF` and goes on
reading it.  The environment is `Env.intact`, where the name of the location
is the one that the line held. -/
theorem missing_chromosome_never_ends (fuel n : Nat) (cur : Cursor) (mask_locs rest : Stream)
    (loc : location) (hloc : get_next_loc mask_locs = .ok (loc, rest))
    (hle : loc.start ≤ loc.end_) (hne : cur.chromo_name ≠ loc.name)
    (href : ∀ c ∈ cur.ref, c ≠ '>') :
    loc_loop Env.intact fuel (n + 1) cur mask_locs = none := by
  have hproc : process_loc Env.intact fuel cur loc = none :=
    process_loc_other_name Env.intact fuel cur loc loc.name hle (read_name_intact loc) hne href
  rw [loc_loop, hloc]
  simp only [hproc]

/-- C4, on the reference `>chr1\nACGT\n>chr2\nACGT\n` in the state after the
location `chr2 1 2`, at the location `chr1 1 2` of the chromosome that stands
before the cursor, with a thousand iterations of line 89 allowed; and for the
whole run on `>chr1\nACGT\n` with the location `chr2 1 1`. -/
theorem missing_chromosome_never_ends_witness :
    (get_next_loc "chr1 1 2\n".toList = .ok (⟨"chr1".toList, false, 1, 2⟩, []) ∧ 1 ≤ 2 ∧
      "chr2".toList ≠ "chr1".toList ∧ (∀ c ∈ "T\n".toList, c ≠ '>')) ∧
    loc_loop Env.intact 1000 (0 + 1) ⟨"chr2".toList, 'G', "T\n".toList, 3, []⟩
        "chr1 1 2\n".toList = none ∧
    main Env.intact 1000 ">chr1\nACGT\n>chr2\nACGT\n".toList "chr2 1 2\nchr1 1 2\n".toList
      = none ∧
    main Env.intact 1000 ">chr1\nACGT\n".toList "chr2 1 1\n".toList = none :=
  ⟨⟨by decide!, by decide, by decide, by decide⟩,
    missing_chromosome_never_ends 1000 0 ⟨"chr2".toList, 'G', "T\n".toList, 3, []⟩
      "chr1 1 2\n".toList [] ⟨"chr1".toList, false, 1, 2⟩ (by decide!) (by decide) (by decide)
      (by decide),
    by decide!,
    main_other_chromosome Env.intact 1000 "chr1".toList "chr2".toList "chr2".toList 'A'
      "CGT\n".toList 1 1 (by decide) (by decide) (by decide) rfl (by decide) (by decide)
      (by decide) (by decide)⟩

/-- C5 as stated fails: the line `chr1 abc 150` is no parse error, and
`get_next_loc` returns a location with `start = 0`. -/
theorem non_numeric_start_is_read_as_zero :
    get_next_loc "chr1 abc 150\n".toList = .ok (⟨"chr1".toList, false, 0, 150⟩, []) := by
  decide!

/-- C5 as amended: `get_next_loc` does not check the numbers.  For a line of
three fields (not empty, single spaces between them) it returns a location
whatever the second and the third field hold, with the values `strtoul` gives
for them: the number that the decimal digits at the front of the field write,
whatever follows them (`1x` gives 1), and 0 for a field whose first character
is neither a digit, nor a sign, nor white space (`abc` gives 0). -/
theorem get_next_loc_does_not_check_numbers (name f1 f2 : List Char) (tail : Stream)
    (hname : name ≠ []) (hf1 : f1 ≠ []) (hf2 : f2 ≠ [])
    (hn : ∀ c ∈ name, c ≠ ' ' ∧ c ≠ '\n') (h1 : ∀ c ∈ f1, c ≠ ' ' ∧ c ≠ '\n')
    (h2 : ∀ c ∈ f2, c ≠ ' ' ∧ c ≠ '\n') :
    get_next_loc (name ++ ' ' :: f1 ++ ' ' :: f2 ++ '\n' :: tail)
        = .ok (⟨name, false, strtoul f1, strtoul f2⟩, tail) ∧
      (∀ (n : Nat) (junk : List Char), n < ULONG_MOD →
        (junk = [] ∨ ∃ c r, junk = c :: r ∧ isdigit c = false) →
        strtoul (Nat.toDigits 10 n ++ junk) = n) ∧
      (∀ (c : Char) (s : List Char), isspace c = false → c ≠ '-' → c ≠ '+' →
        isdigit c = false → strtoul (c :: s) = 0) :=
  ⟨get_next_loc_fields name f1 f2 tail hname hf1 hf2 hn h1 h2,
    fun n junk hn hj => strtoul_toDigits n hn junk hj,
    fun c s hsp hm hp hd => strtoul_no_digit c s hsp hm hp hd⟩

/-- C5 as amended, at the line `chr1 10 1x`: the location has `end = 1`. -/
theorem get_next_loc_does_not_check_numbers_witness :
    ("chr1".toList ≠ [] ∧ "10".toList ≠ [] ∧ "1x".toList ≠ [] ∧
      (∀ c ∈ "chr1".toList, c ≠ ' ' ∧ c ≠ '\n') ∧ (∀ c ∈ "10".toList, c ≠ ' ' ∧ c ≠ '\n') ∧
      (∀ c ∈ "1x".toList, c ≠ ' ' ∧ c ≠ '\n')) ∧
    get_next_loc "chr1 10 1x\nchr1 20 30\n".toList
      = .ok (⟨"chr1".toList, false, 10, 1⟩, "chr1 20 30\n".toList) :=
  ⟨⟨by decide, by decide, by decide, by decide, by decide, by decide⟩,
    (get_next_loc_does_not_check_numbers "chr1".toList "10".toList "1x".toList
      "chr1 20 30\n".toList (by decide) (by decide) (by decide) (by decide) (by decide)
      (by decide)).1⟩

/-- C6: a line of two fields, such as `chr1 50`, does not end the run with a
fatal error.  The third `strtok` gives the null pointer, which goes to
`strtoul` unchecked (line 242): in any state of the loop over the locations the
behaviour of the run is undefined from there on. -/
theorem missing_field_is_undefined_behaviour (env : Env) (fuel n : Nat) (cur : Cursor)
    (name f1 : List Char) (tail : Stream) (hname : name ≠ []) (hf1 : f1 ≠ [])
    (hn : ∀ c ∈ name, c ≠ ' ' ∧ c ≠ '\n') (h1 : ∀ c ∈ f1, c ≠ ' ' ∧ c ≠ '\n') :
    get_next_loc (name ++ ' ' :: f1 ++ '\n' :: tail)
        = .error (.undefined "strtoul(NULL, NULL, 10)") ∧
      loc_loop env fuel (n + 1) cur (name ++ ' ' :: f1 ++ '\n' :: tail)
        = some ⟨cur.out, cur.ref, some (.undefined "strtoul(NULL, NULL, 10)")⟩ := by
  have h := get_next_loc_two_fields name f1 tail hname hf1 hn h1
  refine ⟨h, ?_⟩
  rw [loc_loop, h]

/-- C6, at the location file `chr1 1 100\nchr1 50\n` on a chromosome of 120
bases: the second line is read in the state after the first record, and the
whole run ends in undefined behaviour. -/
theorem missing_field_is_undefined_behaviour_witness :
    ("chr1".toList ≠ [] ∧ "50".toList ≠ [] ∧ (∀ c ∈ "chr1".toList, c ≠ ' ' ∧ c ≠ '\n') ∧
      (∀ c ∈ "50".toList, c ≠ ' ' ∧ c ≠ '\n')) ∧
    (get_next_loc "chr1 50\n".toList = .error (.undefined "strtoul(NULL, NULL, 10)") ∧
      loc_loop Env.intact 0 (0 + 1)
          ⟨"chr1".toList, 'A', List.replicate 19 'A' ++ ['\n'], 101,
            [⟨"chr1".toList, 1, 100, List.replicate 100 'A'⟩]⟩
          "chr1 50\n".toList
        = some ⟨[⟨"chr1".toList, 1, 100, List.replicate 100 'A'⟩],
            List.replicate 19 'A' ++ ['\n'], some (.undefined "strtoul(NULL, NULL, 10)")⟩) ∧
    main Env.intact 0 (">chr1\n".toList ++ List.replicate 120 'A' ++ ['\n'])
        "chr1 1 100\nchr1 50\n".toList
      = some ⟨[⟨"chr1".toList, 1, 100, List.replicate 100 'A'⟩],
          List.replicate 19 'A' ++ ['\n'], some (.undefined "strtoul(NULL, NULL, 10)")⟩ :=
  ⟨⟨by decide, by decide, by decide, by decide⟩,
    missing_field_is_undefined_behaviour Env.intact 0 0
      ⟨"chr1".toList, 'A', List.replicate 19 'A' ++ ['\n'], 101,
        [⟨"chr1".toList, 1, 100, List.replicate 100 'A'⟩]⟩
      "chr1".toList "50".toList [] (by decide) (by decide) (by decide) (by decide),
    by decide!⟩

/-- C7: for a line `name start end` written with single spaces and decimal
numerals that fit an `unsigned long`, `get_next_loc` reads the line with its
newline and returns these numbers, but the name it returns has lost its
storage: `loc.name` points into the line buffer `str` (line 240), and `str` is
freed (line 244) before the struct is returned. -/
theorem get_next_loc_name_is_freed (name : List Char) (s e : Nat) (tail : Stream)
    (hname : name ≠ []) (hn : ∀ c ∈ name, c ≠ ' ' ∧ c ≠ '\n') (hs : s < ULONG_MOD)
    (he : e < ULONG_MOD) :
    ∃ loc, get_next_loc
          (name ++ ' ' :: Nat.toDigits 10 s ++ ' ' :: Nat.toDigits 10 e ++ '\n' :: tail)
        = .ok (loc, tail) ∧
      loc.start = s ∧ loc.end_ = e ∧ loc.name = name ∧ loc.name_live = false :=
  ⟨⟨name, false, s, e⟩, get_next_loc_line name s e tail hname hn hs he, rfl, rfl, rfl, rfl⟩

/-- C7, at the line `chr1 1 150` followed by another line. -/
theorem get_next_loc_name_is_freed_witness :
    ("chr1".toList ≠ [] ∧ (∀ c ∈ "chr1".toList, c ≠ ' ' ∧ c ≠ '\n') ∧ 1 < ULONG_MOD ∧
      150 < ULONG_MOD) ∧
    ∃ loc, get_next_loc "chr1 1 150\nchr1 200 400\n".toList
        = .ok (loc, "chr1 200 400\n".toList) ∧
      loc.start = 1 ∧ loc.end_ = 150 ∧ loc.name = "chr1".toList ∧ loc.name_live = false :=
  ⟨⟨by decide, by decide, by decide, by decide⟩,
    get_next_loc_name_is_freed "chr1".toList 1 150 "chr1 200 400\n".toList (by decide)
      (by decide) (by decide) (by decide)⟩

/-- C8: for a stream `id ++ rest ++ "\n" ++ tail` read from just after a `>`,
where `id` holds no space and no newline and `rest` is empty or starts with a
space and holds no newline, `get_chromo_name` returns exactly `id`, whatever
its length, and leaves the stream at `tail`: no write leaves the buffer, which
is doubled in time. -/
theorem get_chromo_name_returns_id (id rest : List Char) (tail : Stream)
    (hid : ∀ c ∈ id, c ≠ ' ' ∧ c ≠ '\n')
    (hrest : rest = [] ∨ (rest.head? = some ' ' ∧ ∀ c ∈ rest, c ≠ '\n')) :
    get_chromo_name (id ++ rest ++ '\n' :: tail) = .ok (id, tail) := by
  have hid1 : ∀ c ∈ id, c ≠ '\n' ∧ c ≠ ' ' := fun c hc => ⟨(hid c hc).2, (hid c hc).1⟩
  rcases hrest with h | ⟨hhead, hnl⟩
  · rw [h, List.append_nil]
    exact get_chromo_name_plain id tail hid1
  · cases rest with
    | nil => simp at hhead
    | cons c rest =>
      simp only [List.head?_cons, Option.some.injEq] at hhead
      subst hhead
      have := get_chromo_name_described id rest tail hid1 (fun x hx => hnl x (by simp [hx]))
      simpa [List.append_assoc] using this

/-- C8, at an identifier of 150 characters (longer than the first two sizes
of the buffer, 60 and 120) followed by a description. -/
theorem get_chromo_name_returns_id_witness :
    ((∀ c ∈ List.replicate 150 'x', c ≠ ' ' ∧ c ≠ '\n') ∧
      (" two words".toList = [] ∨
        (" two words".toList.head? = some ' ' ∧ ∀ c ∈ " two words".toList, c ≠ '\n'))) ∧
    get_chromo_name (List.replicate 150 'x' ++ " two words".toList ++ '\n' :: "ACGT\n".toList)
      = .ok (List.replicate 150 'x', "ACGT\n".toList) :=
  ⟨⟨fun c hc => by rw [List.eq_of_mem_replicate hc]; decide, by decide⟩,
    get_chromo_name_returns_id (List.replicate 150 'x') " two words".toList "ACGT\n".toList
      (fun c hc => by rw [List.eq_of_mem_replicate hc]; decide) (by decide)⟩

/-- C9: when the location that `get_next_loc` returns has `end < start`, the
loop over the locations stops there with the fatal error of line 82, in any
state and for any bound on line 89: the reference is where it was (no character
of it was read) and the output holds the records written before, and nothing
for this location or a later one. -/
theorem end_before_start_aborts (env : Env) (fuel n : Nat) (cur : Cursor)
    (mask_locs rest : Stream) (loc : location) (hloc : get_next_loc mask_locs = .ok (loc, rest))
    (hlt : loc.end_ < loc.start) :
    loc_loop env fuel (n + 1) cur mask_locs
      = some ⟨cur.out, cur.ref,
          some (.fatal "ERROR: End point of location cannot be smaller than start point\n")⟩ := by
  rw [loc_loop, hloc]
  simp only [process_loc, if_pos hlt]

/-- C9, at the second of three locations on a chromosome of 200 bases: the
record of the first location stays, and the rest of the reference is unread. -/
theorem end_before_start_aborts_witness :
    (get_next_loc "chr1 150 120\nchr1 151 160\n".toList
        = .ok (⟨"chr1".toList, false, 150, 120⟩, "chr1 151 160\n".toList) ∧ 120 < 150) ∧
    loc_loop Env.intact 0 (1 + 1)
        ⟨"chr1".toList, 'C', List.replicate 99 'C' ++ ['\n'], 101,
          [⟨"chr1".toList, 1, 100, List.replicate 100 'A'⟩]⟩
        "chr1 150 120\nchr1 151 160\n".toList
      = some ⟨[⟨"chr1".toList, 1, 100, List.replicate 100 'A'⟩], List.replicate 99 'C' ++ ['\n'],
          some (.fatal "ERROR: End point of location cannot be smaller than start point\n")⟩ :=
  ⟨⟨by decide!, by decide⟩,
    end_before_start_aborts Env.intact 0 1
      ⟨"chr1".toList, 'C', List.replicate 99 'C' ++ ['\n'], 101,
        [⟨"chr1".toList, 1, 100, List.replicate 100 'A'⟩]⟩
      "chr1 150 120\nchr1 151 160\n".toList "chr1 151 160\n".toList
      ⟨"chr1".toList, false, 150, 120⟩ (by decide!) (by decide)⟩

/-- C10: on the reference with `chr1` (120 bases `A`) and then `chr2` (120
bases `C`), the locations `chr1 1 100` and `chr2 11 119`, in the order of the
reference, give their two records, the second with bases of `chr2`; but with
`chr2 11 120`, which lies within `chr2` and ends on its last base, the run
ends with the fatal error of line 129 after the first record.  The environment
is `Env.intact`. -/
theorem ordered_chromosomes_fail_on_last_base (fuel : Nat) (hfuel : 200 ≤ fuel) :
    main Env.intact fuel
        (">chr1\n".toList ++ List.replicate 120 'A' ++ "\n>chr2\n".toList
          ++ List.replicate 120 'C' ++ ['\n'])
        "chr1 1 100\nchr2 11 119\n".toList
      = some ⟨[⟨"chr1".toList, 1, 100, List.replicate 100 'A'⟩,
               ⟨"chr2".toList, 11, 119, List.replicate 109 'C'⟩], ['\n'], none⟩ ∧
    main Env.intact fuel
        (">chr1\n".toList ++ List.replicate 120 'A' ++ "\n>chr2\n".toList
          ++ List.replicate 120 'C' ++ ['\n'])
        "chr1 1 100\nchr2 11 120\n".toList
      = some ⟨[⟨"chr1".toList, 1, 100, List.replicate 100 'A'⟩], [],
          some (.fatal "ERROR: Reference file too short [3]\n")⟩ :=
  ⟨main_mono Env.intact 200 fuel hfuel _ _ _ (by decide!), main_mono Env.intact 200 fuel hfuel _ _ _ (by decide!)⟩

/-- C10, with 200 iterations of line 89 allowed. -/
theorem ordered_chromosomes_fail_on_last_base_witness :
    200 ≤ 200 ∧
    main Env.intact 200
        (">chr1\n".toList ++ List.replicate 120 'A' ++ "\n>chr2\n".toList
          ++ List.replicate 120 'C' ++ ['\n'])
        "chr1 1 100\nchr2 11 120\n".toList
      = some ⟨[⟨"chr1".toList, 1, 100, List.replicate 100 'A'⟩], [],
          some (.fatal "ERROR: Reference file too short [3]\n")⟩ :=
  ⟨Nat.le_refl _, (ordered_chromosomes_fail_on_last_base 200 (Nat.le_refl _)).2⟩

/-- C11: a `>` that is held when the seek loop starts is not tested.  On the
reference `>chr1` without a base, followed at once by the record `chr2` of 200
bases `A`, the character held after the header line of `chr1` is the `>` of
`chr2` (line 69).  For the location `chr1 2 150`, whose start is greater than
the number of bases of `chr1`, the seek loop (lines 102-114), which tests only
the characters it reads, goes on through the header line of `chr2` and counts
the first base of `chr2` as number 2: the run ends with `return 0` and writes
the record `>chr1_2_150` with 149 bases of `chr2`.  For `chr1 1 150` the
extract loop, which does test the held character (line 123), stops the run.
The environment is the one where the freed name still reads as it was written;
the lines of the location file start with 16 spaces. -/
theorem held_marker_passes_seek :
    main Env.intact 0 (">chr1\n>chr2\n".toList ++ List.replicate 200 'A' ++ ['\n'])
        "                chr1 2 150\n".toList
      = some ⟨[⟨"chr1".toList, 2, 150, List.replicate 149 'A'⟩],
          List.replicate 50 'A' ++ ['\n'], none⟩ ∧
    get_chromo_name ("chr1\n>chr2\n".toList ++ List.replicate 200 'A' ++ ['\n'])
      = .ok ("chr1".toList, ">chr2\n".toList ++ List.replicate 200 'A' ++ ['\n']) ∧
    seek 2 ("chr2\n".toList ++ List.replicate 200 'A' ++ ['\n']) '>' 1
      = .ok ('A', List.replicate 199 'A' ++ ['\n'], 2) ∧
    main Env.intact 0 (">chr1\n>chr2\n".toList ++ List.replicate 200 'A' ++ ['\n'])
        "                chr1 1 150\n".toList
      = some ⟨[], "chr2\n".toList ++ List.replicate 200 'A' ++ ['\n'],
          some (.fatal "ERROR: Reached end of chromosome without finding location\n")⟩ := by
  refine ⟨?_, ?_, ?_, ?_⟩ <;> decide!

/-- C12: the loop over the locations runs once for each newline character of
the location file (`num_locations` of lines 59-63), so a run that ends with
`return 0` has read exactly that many locations; and the text after the last
newline is never read: with any text without newline added at the end of the
location file the run is the same, with the same records and the same end. -/
theorem trailing_text_is_not_parsed (env : Env) (fuel : Nat) (ref mask_locs trail : Stream)
    (htrail : ∀ c ∈ trail, c ≠ '\n') :
    main env fuel ref (mask_locs ++ trail) = main env fuel ref mask_locs ∧
    (∀ name ref1 d ref2, get_chromo_name (getc ref).2 = .ok (name, ref1) →
      getc ref1 = (some d, ref2) →
      main env fuel ref (mask_locs ++ trail)
        = loc_loop env fuel (mask_locs.count '\n') ⟨name, d, ref2, 1, []⟩ mask_locs) ∧
    (∀ r, main env fuel ref (mask_locs ++ trail) = some r → r.halt = none →
      ∃ locs, read_locs (mask_locs.count '\n') mask_locs = some locs ∧
        locs.length = mask_locs.count '\n') := by
  have h := main_append env fuel ref mask_locs trail htrail
  refine ⟨h, ?_, ?_⟩
  · intro name ref1 d ref2 hname hd
    rw [h]
    exact main_loop_bound env fuel ref mask_locs name ref1 ref2 d hname hd
  · intro r hr hok
    rw [h] at hr
    exact main_read_locs env fuel ref mask_locs r hr hok

/-- C12, on a chromosome of 120 bases with the location file `chr1 1 100`
followed by the text `chr1 50` without newline: one location is read, the
record is written, and the last text gives no error. -/
theorem trailing_text_is_not_parsed_witness :
    (∀ c ∈ "chr1 50".toList, c ≠ '\n') ∧
    main Env.intact 0 (">chr1\n".toList ++ List.replicate 120 'A' ++ ['\n'])
        ("chr1 1 100\n".toList ++ "chr1 50".toList)
      = main Env.intact 0 (">chr1\n".toList ++ List.replicate 120 'A' ++ ['\n'])
          "chr1 1 100\n".toList ∧
    main Env.intact 0 (">chr1\n".toList ++ List.replicate 120 'A' ++ ['\n'])
        "chr1 1 100\n".toList
      = some ⟨[⟨"chr1".toList, 1, 100, List.replicate 100 'A'⟩],
          List.replicate 19 'A' ++ ['\n'], none⟩ ∧
    "chr1 1 100\n".toList.count '\n' = 1 :=
  ⟨by decide,
    (trailing_text_is_not_parsed Env.intact 0 (">chr1\n".toList ++ List.replicate 120 'A' ++ ['\n'])
      "chr1 1 100\n".toList "chr1 50".toList (by decide)).1,
    by decide!, by decide⟩

/-- C13: on the reference `>chr1`, a blank line, then the bases `C`, 100 times
`A`, `G`, `G`, the driver starts with `base_index = 1` while the held
character is the line break, no base.  For the location `chr1 2 101` the seek
loop then stops on `C`, the base at position 1, and the run writes the record
`>chr1_2_101` with the bases at positions 1..100; it leaves `base_index = 102`
with the held character `A`, the base at position 101.  The environment is
`Env.intact`. -/
theorem base_index_is_off_by_one :
    main Env.intact 0 (">chr1\n\nC".toList ++ List.replicate 100 'A' ++ "GG\n".toList)
          "chr1 2 101\n".toList
        = some ⟨[⟨"chr1".toList, 2, 101, 'C' :: List.replicate 99 'A'⟩], "GG\n".toList, none⟩ ∧
      seek 2 ('C' :: List.replicate 100 'A' ++ "GG\n".toList) '\n' 1
        = .ok ('C', List.replicate 100 'A' ++ "GG\n".toList, 2) ∧
      process_loc Env.intact 0
          ⟨"chr1".toList, '\n', 'C' :: List.replicate 100 'A' ++ "GG\n".toList, 1, []⟩
          ⟨"chr1".toList, false, 2, 101⟩
        = some (.ok ⟨"chr1".toList, 'A', "GG\n".toList, 102,
            [⟨"chr1".toList, 2, 101, 'C' :: List.replicate 99 'A'⟩]⟩) ∧
      bases_at ("\nC".toList ++ List.replicate 100 'A' ++ "GG\n".toList) 2 101
        = List.replicate 100 'A' ∧
      bases_at ("\nC".toList ++ List.replicate 100 'A' ++ "GG\n".toList) 1 100
        = 'C' :: List.replicate 99 'A' ∧
      bases_at ("\nC".toList ++ List.replicate 100 'A' ++ "GG\n".toList) 101 101 = ['A'] ∧
      bases_at ("\nC".toList ++ List.replicate 100 'A' ++ "GG\n".toList) 102 102 = ['G'] := by
  refine ⟨?_, ?_, ?_, ?_, ?_, ?_, ?_⟩ <;> decide!

/-- C14: the size of `sequence` is computed modulo `ULONG_MOD` and wraps.  On
the reference `>chr1\nACGT\n`, the location `chr1 1 18446744073709551615` gives
a buffer of size 0, and the location `chr1 0 18446744073709551615` a buffer of
size 1 into which the extract loop writes a second character, at index 1: in
both runs a write leaves the buffer.  The environment is `Env.intact`. -/
theorem sequence_buffer_size_wraps :
    ((18446744073709551615 + ULONG_MOD - 1) % ULONG_MOD + 2) % ULONG_MOD = 0 ∧
      main Env.intact 0 ">chr1\nACGT\n".toList "chr1 1 18446744073709551615\n".toList
        = some ⟨[], "CGT\n".toList, some (.undefined "char sequence[0]")⟩ ∧
      ((18446744073709551615 + ULONG_MOD - 0) % ULONG_MOD + 2) % ULONG_MOD = 1 ∧
      extract 18446744073709551615 1 "CGT\n".toList 'A' 1 []
        = .error (.undefined "sequence[i] is outside the buffer", "GT\n".toList) ∧
      main Env.intact 0 ">chr1\nACGT\n".toList "chr1 0 18446744073709551615\n".toList
        = some ⟨[], "GT\n".toList, some (.undefined "sequence[i] is outside the buffer")⟩ := by
  refine ⟨?_, ?_, ?_, ?_, ?_⟩ <;> decide!

/-- C15: the array `sequence` is on the stack (line 117), whatever its size.
With a stack of 8 MiB, on the reference `>chr1\nACGT\n`, the location
`chr1 1 9000000` (start within the chromosome, end after its last base) asks
for an array of 9000001 characters, which the stack does not hold: the
behaviour of the run is undefined from the declaration on, and the fatal error
of line 129 is not reached.  The location `chr1 2 5` does end the run with
that fatal error.  The freed name reads as it was written; the lines of the
location file start with 16 spaces. -/
theorem end_beyond_chromosome_with_large_span :
    main ⟨some, 8388608⟩ 0 ">chr1\nACGT\n".toList "                chr1 1 9000000\n".toList
      = some ⟨[], "CGT\n".toList,
          some (.undefined "char sequence[str_len_required] is outside the stack")⟩ ∧
    ((9000000 + ULONG_MOD - 1) % ULONG_MOD + 2) % ULONG_MOD = 9000001 ∧
    main ⟨some, 8388608⟩ 0 ">chr1\nACGT\n".toList "                chr1 2 5\n".toList
      = some ⟨[], [], some (.fatal "ERROR: Reference file too short [3]\n")⟩ := by
  refine ⟨?_, ?_, ?_⟩ <;> decide!

/-- C16: a character outside `A`, `C`, `G`, `T`, `N` is neither counted nor
copied.  Every record of every run, ended or not by a fatal error, has a body
made of these five characters only; the seek loop and the extract loop add to
`base_index` the number of bases among the characters they read, and the
extract loop adds to the body the bases among the characters it has held (the
last one, which stays held, left out). -/
theorem bodies_hold_bases_only (env : Env) (fuel : Nat) (ref mask_locs : Stream) (r : Run)
    (h : main env fuel ref mask_locs = some r) :
    (∀ x ∈ r.out, ∀ c ∈ x.sequence, c = 'A' ∨ c = 'C' ∨ c = 'G' ∨ c = 'T' ∨ c = 'N') ∧
    (∀ (start : Nat) (ref : Stream) (d : Char) (bi : Nat) (d1 : Char) (ref1 : Stream) (bi1 : Nat),
      start < ULONG_MOD → seek start ref d bi = .ok (d1, ref1, bi1) →
      ∃ consumed, ref = consumed ++ ref1 ∧ bi1 = bi + (consumed.filter is_base).length) ∧
    (∀ (end_ cap : Nat) (ref : Stream) (d : Char) (bi : Nat) (seq : List Char) (d1 : Char)
        (ref1 : Stream) (bi1 : Nat) (seq1 : List Char),
      bi < ULONG_MOD → extract end_ cap ref d bi seq = .ok (d1, ref1, bi1, seq1) →
      ∃ consumed, ref = consumed ++ ref1 ∧ bi1 = bi + (consumed.filter is_base).length ∧
        seq1 = seq ++ ((d :: consumed).dropLast).filter is_base) ∧
    (∀ c : Char, is_base c = true ↔ c = 'A' ∨ c = 'C' ∨ c = 'G' ∨ c = 'T' ∨ c = 'N') := by
  refine ⟨?_, ?_, ?_, is_base_iff⟩
  · intro x hx c hc
    exact (is_base_iff c).1 (main_bodies env fuel ref mask_locs r h x hx c hc)
  · intro start ref d bi d1 ref1 bi1 hs hseek
    obtain ⟨consumed, h1, h2, _⟩ := seek_reads start hs ref d bi d1 ref1 bi1 hseek
    exact ⟨consumed, h1, h2⟩
  · intro end_ cap ref d bi seq d1 ref1 bi1 seq1 hbi hext
    obtain ⟨consumed, h1, h2, h3, _⟩ :=
      extract_reads end_ cap ref d bi seq d1 ref1 bi1 seq1 hext hbi
    exact ⟨consumed, h1, h2, h3⟩

/-- C16, on a chromosome of 60 `A`, a line `acgtn` in lower case and 61 `C`,
with line breaks between them, at the location `chr1 11 110`: the body is the
50 `A` and the 50 `C` at these positions, the lower case line and the line
breaks being neither counted nor copied. -/
theorem bodies_hold_bases_only_witness :
    main Env.intact 0
        (">chr1\n".toList ++ List.replicate 60 'A' ++ "\nacgtn\n".toList
          ++ List.replicate 61 'C' ++ ['\n'])
        "chr1 11 110\n".toList
      = some ⟨[⟨"chr1".toList, 11, 110, List.replicate 50 'A' ++ List.replicate 50 'C'⟩],
          List.replicate 10 'C' ++ ['\n'], none⟩ ∧
    ∀ x ∈ [(⟨"chr1".toList, 11, 110, List.replicate 50 'A' ++ List.replicate 50 'C'⟩ : Record)],
      ∀ c ∈ x.sequence, c = 'A' ∨ c = 'C' ∨ c = 'G' ∨ c = 'T' ∨ c = 'N' :=
  ⟨by decide!,
    (bodies_hold_bases_only Env.intact 0
      (">chr1\n".toList ++ List.replicate 60 'A' ++ "\nacgtn\n".toList
        ++ List.replicate 61 'C' ++ ['\n'])
      "chr1 11 110\n".toList
      ⟨[⟨"chr1".toList, 11, 110, List.replicate 50 'A' ++ List.replicate 50 'C'⟩],
        List.replicate 10 'C' ++ ['\n'], none⟩ (by decide!)).1⟩

/-- C17: a run on a reference of one chromosome does not get to the
extraction unless the read of the freed name gives the name again.  On a
reference whose header line gives the chromosome `name`, followed by a
character `d` and by characters `rest` without `>`, with a location file
whose first line gives a location `q` with `start ≤ end`: when the read of
`q.name` (line 87) gives no string the behaviour is undefined there, and when
it gives another string than `name` the search of line 89 never ends, whatever
the bound.  In both cases nothing is written. -/
theorem ordered_locations_need_the_freed_name (env : Env) (fuel : Nat) (ref : Stream)
    (name : List Char) (d : Char) (rest mask_locs tail : Stream) (q : location)
    (hhead : get_chromo_name (getc ref).2 = .ok (name, d :: rest))
    (hrest : ∀ c ∈ rest, c ≠ '>')
    (hloc : get_next_loc mask_locs = .ok (q, tail)) (hle : q.start ≤ q.end_) :
    (read_name env q = none →
      main env fuel ref mask_locs
        = some ⟨[], rest, some (.undefined "loc.name is read after free(str)")⟩) ∧
    (∀ other, read_name env q = some other → other ≠ name →
      main env fuel ref mask_locs = none) := by
  have hcount := get_next_loc_count mask_locs tail q hloc
  have hmain := main_loop_bound env fuel ref mask_locs name (d :: rest) rest d hhead rfl
  obtain ⟨n, hn⟩ : ∃ n, mask_locs.count '\n' = n + 1 := ⟨tail.count '\n', by omega⟩
  rw [hn] at hmain
  constructor
  · intro hread
    rw [hmain, loc_loop, hloc]
    simp only [process_loc_name_undefined env fuel _ q hle hread]
  · intro other hread hne
    rw [hmain, loc_loop, hloc]
    simp only [process_loc_other_name env fuel ⟨name, d, rest, 1, []⟩ q other hle hread
      (fun h => hne h.symm) hrest]

/-- C17, on a chromosome of 115 `A` and 115 `C` on two lines, with the
locations `chr1 1 100` and `chr1 111 220`: when the read of the freed name
gives no string the behaviour is undefined at the first location, and when it
gives the empty string the run does not end within a thousand iterations of
line 89. -/
theorem ordered_locations_need_the_freed_name_witness :
    (get_chromo_name
          (getc (">chr1\n".toList ++ List.replicate 115 'A' ++ '\n' :: List.replicate 115 'C'
            ++ ['\n'])).2
        = .ok ("chr1".toList,
            'A' :: (List.replicate 114 'A' ++ '\n' :: List.replicate 115 'C' ++ ['\n'])) ∧
      (∀ c ∈ List.replicate 114 'A' ++ '\n' :: List.replicate 115 'C' ++ ['\n'], c ≠ '>') ∧
      get_next_loc "chr1 1 100\nchr1 111 220\n".toList
        = .ok (⟨"chr1".toList, false, 1, 100⟩, "chr1 111 220\n".toList) ∧
      1 ≤ 100) ∧
    main ⟨fun _ => none, 8388608⟩ 0
        (">chr1\n".toList ++ List.replicate 115 'A' ++ '\n' :: List.replicate 115 'C' ++ ['\n'])
        "chr1 1 100\nchr1 111 220\n".toList
      = some ⟨[], List.replicate 114 'A' ++ '\n' :: List.replicate 115 'C' ++ ['\n'],
          some (.undefined "loc.name is read after free(str)")⟩ ∧
    main ⟨fun _ => some [], 8388608⟩ 1000
        (">chr1\n".toList ++ List.replicate 115 'A' ++ '\n' :: List.replicate 115 'C' ++ ['\n'])
        "chr1 1 100\nchr1 111 220\n".toList
      = none :=
  ⟨⟨by decide!, by decide!, by decide!, by decide⟩,
    (ordered_locations_need_the_freed_name ⟨fun _ => none, 8388608⟩ 0
      (">chr1\n".toList ++ List.replicate 115 'A' ++ '\n' :: List.replicate 115 'C' ++ ['\n'])
      "chr1".toList 'A' (List.replicate 114 'A' ++ '\n' :: List.replicate 115 'C' ++ ['\n'])
      "chr1 1 100\nchr1 111 220\n".toList "chr1 111 220\n".toList
      ⟨"chr1".toList, false, 1, 100⟩ (by decide!) (by decide!) (by decide!) (by decide)).1 rfl,
    (ordered_locations_need_the_freed_name ⟨fun _ => some [], 8388608⟩ 1000
      (">chr1\n".toList ++ List.replicate 115 'A' ++ '\n' :: List.replicate 115 'C' ++ ['\n'])
      "chr1".toList 'A' (List.replicate 114 'A' ++ '\n' :: List.replicate 115 'C' ++ ['\n'])
      "chr1 1 100\nchr1 111 220\n".toList "chr1 111 220\n".toList
      ⟨"chr1".toList, false, 1, 100⟩ (by decide!) (by decide!) (by decide!) (by decide)).2
      [] rfl (by decide)⟩

/-- C18: a location that ends on the last base of its chromosome does not
always stop the run.  On the reference `>chr1`, a blank line and 100 bases
`A`, the driver counts every base one too high (the held character after the
header line is the line break, and `base_index` starts at 1), so for the
location `chr1 1 100` the extract loop is done when it reads the last base:
the run ends with `return 0` and writes the record `>chr1_1_100`, with a body
of 99 bases.  The environment is the one where the freed name still reads as
it was written; the line of the location file starts with 16 spaces. -/
theorem last_base_after_blank_line_is_emitted :
    main Env.intact 0 (">chr1\n\n".toList ++ List.replicate 100 'A' ++ ['\n'])
        "                chr1 1 100\n".toList
      = some ⟨[⟨"chr1".toList, 1, 100, List.replicate 99 'A'⟩], ['\n'], none⟩ ∧
    (("\n".toList ++ List.replicate 100 'A' ++ ['\n']).filter is_base).length = 100 ∧
    (⟨[⟨"chr1".toList, 1, 100, List.replicate 99 'A'⟩], ['\n'], none⟩ : Run).stdout
      = ">chr1_1_100\n".toList ++ List.replicate 99 'A' ++ ['\n'] := by
  refine ⟨?_, ?_, ?_⟩ <;> decide!

/-! ## Further properties of the loop body -/

/-- The writes into `sequence` when its size does not wrap.  For a location
with `1 ≤ start ≤ end < ULONG_MAX` the buffer has `end - start + 2` characters;
from any state that the seek loop can leave (`base_index` not smaller than
`start`) the extract loop stores at most `end - start + 1` characters and ends
with its result or with a fatal error; and when the read of the name gives a
string and the stack holds the array, the loop body as a whole ends, if it
stops the run, with a fatal error: no write leaves a buffer. -/
theorem writes_stay_in_buffer (start end_ : Nat) (hs : 1 ≤ start) (hle : start ≤ end_)
    (hmax : end_ + 1 < ULONG_MOD) :
    ((end_ + ULONG_MOD - start) % ULONG_MOD + 2) % ULONG_MOD = end_ - start + 2 ∧
    (∀ (ref : Stream) (d : Char) (bi : Nat), start ≤ bi →
      match extract end_ (end_ - start + 2) ref d bi [] with
      | .ok (_, _, _, seq) => seq.length ≤ end_ - start + 1
      | .error (h, _) => ∃ msg, h = .fatal msg) ∧
    (∀ (env : Env) (fuel : Nat) (cur : Cursor) (name : List Char) (live : Bool)
        (read : List Char) (h : Halt) (r : Stream),
      cur.base_index < ULONG_MOD → read_name env ⟨name, live, start, end_⟩ = some read →
      end_ - start + 2 ≤ env.stack →
      process_loc env fuel cur ⟨name, live, start, end_⟩ = some (.error (h, r)) →
      ∃ msg, h = .fatal msg) := by
  have hsize := (str_len_required_eq start end_ hle hs hmax).1
  have hext : ∀ (ref : Stream) (d : Char) (bi : Nat), start ≤ bi →
      match extract end_ (end_ - start + 2) ref d bi [] with
      | .ok (_, _, _, seq) => seq.length ≤ end_ - start + 1
      | .error (h, _) => ∃ msg, h = .fatal msg := by
    intro ref d bi hbi
    have h2 : end_ - start + 2 = (end_ - start + 1) + 1 := rfl
    rw [h2]
    refine extract_in_bounds end_ (end_ - start + 1) hmax ref d bi [] (by simp) ?_
    intro h1
    rw [List.length_nil]
    split <;> omega
  refine ⟨hsize, hext, ?_⟩
  intro env fuel cur name live read h r hbi hread hstack heq
  unfold process_loc at heq
  simp only at heq
  rw [if_neg (by omega), hread] at heq
  simp only at heq
  split at heq
  · cases heq
  · rename_i e hres
    simp only [Option.some.injEq, Except.error.injEq] at heq
    subst heq
    exact resolve_chromo_safe _ _ _ _ _ hres
  · rename_i cur1 hres
    obtain ⟨_, hb1⟩ := resolve_chromo_ok fuel cur cur1 _ hres
    split at heq
    · rename_i e hseek
      simp only [Option.some.injEq, Except.error.injEq] at heq
      subst heq
      exact seek_safe _ _ _ _ _ _ hseek
    · rename_i d2 ref2 bi2 hseek
      obtain ⟨_, hge⟩ := seek_ok _ _ _ _ _ _ _ hseek (hb1 hbi)
      rw [hsize] at heq
      rw [if_neg (by omega), if_neg (by omega)] at heq
      have hx := hext ref2 d2 bi2 hge
      split at heq
      · rename_i e hex
        rw [hex] at hx
        simp only [Option.some.injEq, Except.error.injEq] at heq
        subst heq
        exact hx
      · rename_i d3 ref3 bi3 seq hex
        rw [hex] at hx
        simp only at hx
        rw [if_pos (by omega)] at heq
        cases heq

/-- The writes into `sequence` for the location `chr1 1 100` on 120 bases:
the buffer has 101 characters and the extract loop stores 100. -/
theorem writes_stay_in_buffer_witness :
    (1 ≤ 1 ∧ 1 ≤ 100 ∧ 100 + 1 < ULONG_MOD) ∧
    ((100 + ULONG_MOD - 1) % ULONG_MOD + 2) % ULONG_MOD = 100 - 1 + 2 ∧
    extract 100 (100 - 1 + 2) (List.replicate 119 'A' ++ ['\n']) 'A' 1 []
      = .ok ('A', List.replicate 19 'A' ++ ['\n'], 101, List.replicate 100 'A') :=
  ⟨⟨by decide, by decide, by decide⟩,
    (writes_stay_in_buffer 1 100 (by decide) (by decide) (by decide)).1, by decide!⟩

/-- The extract step for an end after the last base.  For a location with
`1 ≤ start ≤ end < ULONG_MAX`, when the read of `loc.name` gives `name`, lines
86-99 have made its chromosome the current one, the held character is no `>`,
the stack holds the array, the start lies within the rest of the current
chromosome (`pre`, the characters up to the next `>` or to the end of the
stream) and the end is greater than `base_index` plus the number of bases in
`pre`, the loop over the locations stops with a fatal error and writes no
record: the error of line 129 at the end of the stream, the error of line 124
at the `>` of the next record. -/
theorem end_beyond_chromosome_aborts (env : Env) (fuel n : Nat) (cur cur1 : Cursor)
    (mask_locs rest : Stream) (loc : location) (name : List Char) (pre : List Char)
    (hloc : get_next_loc mask_locs = .ok (loc, rest))
    (hread : read_name env loc = some name)
    (hstack : loc.end_ - loc.start + 2 ≤ env.stack)
    (hres : resolve_chromo fuel cur name = some (.ok cur1))
    (hd : cur1.d ≠ '>') (hpre : ∀ c ∈ pre, c ≠ '>') (hs : 1 ≤ loc.start)
    (hle : loc.start ≤ loc.end_) (hmax : loc.end_ + 1 < ULONG_MOD)
    (hin : loc.start ≤ cur1.base_index + (pre.filter is_base).length)
    (hbeyond : cur1.base_index + (pre.filter is_base).length < loc.end_) :
    (cur1.ref = pre →
      loc_loop env fuel (n + 1) cur mask_locs
        = some ⟨cur.out, [], some (.fatal "ERROR: Reference file too short [3]\n")⟩) ∧
    (∀ post, cur1.ref = pre ++ '>' :: post →
      loc_loop env fuel (n + 1) cur mask_locs
        = some ⟨cur.out, post,
            some (.fatal "ERROR: Reached end of chromosome without finding location\n")⟩) := by
  obtain ⟨h1, h2⟩ := process_loc_span_beyond env fuel cur cur1 loc name pre hread hstack hres hd
    hpre hs hle hmax hin (by omega)
  constructor
  · intro href
    rw [loc_loop, hloc]
    simp only [h1 href]
  · intro post href
    rw [loc_loop, hloc]
    simp only [h2 post href]

/-- The extract step for an end after the last base, on a chromosome `chr1`
of 120 bases at the end of the reference, in the state after the location
`chr1 1 100`, at the location `chr1 101 300` of length 200, with a stack of
8 MiB. -/
theorem end_beyond_chromosome_aborts_witness :
    (get_next_loc "                chr1 101 300\n".toList = .ok (⟨"chr1".toList, false, 101, 300⟩, []) ∧
      read_name ⟨some, 8388608⟩ ⟨"chr1".toList, false, 101, 300⟩ = some "chr1".toList ∧
      300 - 101 + 2 ≤ 8388608 ∧
      resolve_chromo 0
          ⟨"chr1".toList, 'A', List.replicate 19 'A' ++ ['\n'], 101,
            [⟨"chr1".toList, 1, 100, List.replicate 100 'A'⟩]⟩
          "chr1".toList
        = some (.ok ⟨"chr1".toList, 'A', List.replicate 19 'A' ++ ['\n'], 101,
            [⟨"chr1".toList, 1, 100, List.replicate 100 'A'⟩]⟩) ∧
      'A' ≠ '>' ∧ (∀ c ∈ List.replicate 19 'A' ++ ['\n'], c ≠ '>') ∧ 1 ≤ 101 ∧ 101 ≤ 300 ∧
      300 + 1 < ULONG_MOD ∧
      101 ≤ 101 + ((List.replicate 19 'A' ++ ['\n']).filter is_base).length ∧
      101 + ((List.replicate 19 'A' ++ ['\n']).filter is_base).length < 300) ∧
    loc_loop ⟨some, 8388608⟩ 0 (0 + 1)
        ⟨"chr1".toList, 'A', List.replicate 19 'A' ++ ['\n'], 101,
          [⟨"chr1".toList, 1, 100, List.replicate 100 'A'⟩]⟩
        "                chr1 101 300\n".toList
      = some ⟨[⟨"chr1".toList, 1, 100, List.replicate 100 'A'⟩], [],
          some (.fatal "ERROR: Reference file too short [3]\n")⟩ :=
  ⟨⟨by decide!, rfl, by decide, by decide!, by decide, by decide!, by decide, by decide,
      by decide, by decide!, by decide!⟩,
    (end_beyond_chromosome_aborts ⟨some, 8388608⟩ 0 0
      ⟨"chr1".toList, 'A', List.replicate 19 'A' ++ ['\n'], 101,
        [⟨"chr1".toList, 1, 100, List.replicate 100 'A'⟩]⟩
      ⟨"chr1".toList, 'A', List.replicate 19 'A' ++ ['\n'], 101,
        [⟨"chr1".toList, 1, 100, List.replicate 100 'A'⟩]⟩
      "                chr1 101 300\n".toList [] ⟨"chr1".toList, false, 101, 300⟩ "chr1".toList
      (List.replicate 19 'A' ++ ['\n']) (by decide!) rfl (by decide) (by decide!) (by decide)
      (by decide!) (by decide) (by decide) (by decide) (by decide!) (by decide!)).1 rfl⟩

/-- The seek step for a start that the count does not reach.  When the read
of `loc.name` gives `name`, lines 86-99 have made its chromosome the current
one, and the characters still unread up to the next `>` or to the end of the
stream (`pre`) hold fewer bases than `base_index` has to count up to `start`,
the seek loop ends the run with a fatal error and no record is written: with
the error of line 104 when the stream ends there, and with the error of line
111 when a `>` follows, the stream being left just after that `>`. -/
theorem start_beyond_chromosome_aborts (env : Env) (fuel n : Nat) (cur cur1 : Cursor)
    (mask_locs rest : Stream) (loc : location) (name : List Char) (pre : List Char)
    (hloc : get_next_loc mask_locs = .ok (loc, rest)) (hle : loc.start ≤ loc.end_)
    (hread : read_name env loc = some name)
    (hres : resolve_chromo fuel cur name = some (.ok cur1))
    (hpre : ∀ c ∈ pre, c ≠ '>')
    (hshort : cur1.base_index + (pre.filter is_base).length < loc.start) :
    (cur1.ref = pre →
      loc_loop env fuel (n + 1) cur mask_locs
        = some ⟨cur.out, [], some (.fatal "ERROR: Reference file too short [2]\n")⟩) ∧
    (∀ post, cur1.ref = pre ++ '>' :: post →
      loc_loop env fuel (n + 1) cur mask_locs
        = some ⟨cur.out, post,
            some (.fatal "ERROR: Reached end of chromosome without finding location\n")⟩) := by
  have hs : loc.start < ULONG_MOD := (get_next_loc_bounds mask_locs rest loc hloc).1
  constructor
  · intro href
    have hseek := seek_too_short loc.start hs pre cur1.d cur1.base_index hpre hshort
    rw [← href] at hseek
    rw [loc_loop, hloc]
    simp only [process_loc_seek_error env fuel cur cur1 loc name _ hle hread hres hseek]
  · intro post href
    have hseek := seek_next_record loc.start post hs pre cur1.d cur1.base_index hpre hshort
    rw [← href] at hseek
    rw [loc_loop, hloc]
    simp only [process_loc_seek_error env fuel cur cur1 loc name _ hle hread hres hseek]

/-- The seek step on a chromosome `chr1` of 120 bases followed by the record
`chr2`, in the state after the location `chr1 1 100`, at the location
`chr1 130 140`: the run stops at the `>` of `chr2`. -/
theorem start_beyond_chromosome_aborts_witness :
    (get_next_loc "                chr1 130 140\n".toList = .ok (⟨"chr1".toList, false, 130, 140⟩, []) ∧
      130 ≤ 140 ∧
      read_name ⟨some, 8388608⟩ ⟨"chr1".toList, false, 130, 140⟩ = some "chr1".toList ∧
      resolve_chromo 0
          ⟨"chr1".toList, 'A', List.replicate 19 'A' ++ "\n>chr2\nACGT\n".toList, 101,
            [⟨"chr1".toList, 1, 100, List.replicate 100 'A'⟩]⟩
          "chr1".toList
        = some (.ok ⟨"chr1".toList, 'A', List.replicate 19 'A' ++ "\n>chr2\nACGT\n".toList, 101,
            [⟨"chr1".toList, 1, 100, List.replicate 100 'A'⟩]⟩) ∧
      (∀ c ∈ List.replicate 19 'A' ++ ['\n'], c ≠ '>') ∧
      101 + ((List.replicate 19 'A' ++ ['\n']).filter is_base).length < 130) ∧
    loc_loop ⟨some, 8388608⟩ 0 (0 + 1)
        ⟨"chr1".toList, 'A', List.replicate 19 'A' ++ "\n>chr2\nACGT\n".toList, 101,
          [⟨"chr1".toList, 1, 100, List.replicate 100 'A'⟩]⟩
        "                chr1 130 140\n".toList
      = some ⟨[⟨"chr1".toList, 1, 100, List.replicate 100 'A'⟩], "chr2\nACGT\n".toList,
          some (.fatal "ERROR: Reached end of chromosome without finding location\n")⟩ :=
  ⟨⟨by decide!, by decide, rfl, by decide!, by decide!, by decide!⟩,
    (start_beyond_chromosome_aborts ⟨some, 8388608⟩ 0 0
      ⟨"chr1".toList, 'A', List.replicate 19 'A' ++ "\n>chr2\nACGT\n".toList, 101,
        [⟨"chr1".toList, 1, 100, List.replicate 100 'A'⟩]⟩
      ⟨"chr1".toList, 'A', List.replicate 19 'A' ++ "\n>chr2\nACGT\n".toList, 101,
        [⟨"chr1".toList, 1, 100, List.replicate 100 'A'⟩]⟩
      "                chr1 130 140\n".toList [] ⟨"chr1".toList, false, 130, 140⟩ "chr1".toList
      (List.replicate 19 'A' ++ ['\n']) (by decide!) (by decide) rfl (by decide!) (by decide!)
      (by decide!)).2 "chr2\nACGT\n".toList (by decide!)⟩

/-- A span that ends on the last base the driver counts.  For a location with
`1 ≤ start ≤ end < ULONG_MAX`, when the read of `loc.name` gives `name`, lines
86-99 have made its chromosome the current one, the stack holds the array, the
held character is a base, which the driver numbers `base_index`, and the
characters still unread up to the next `>` or to the end of the stream (`pre`)
hold `end - base_index` more bases, the loop over the locations stops with a
fatal error and writes no record for the location: the extract loop needs one
more base, and runs into the end of the stream (line 129) or into the `>` of
the next record (line 124). -/
theorem span_to_last_base_aborts (env : Env) (fuel n : Nat) (cur cur1 : Cursor)
    (mask_locs rest : Stream) (loc : location) (name : List Char) (pre : List Char)
    (hloc : get_next_loc mask_locs = .ok (loc, rest))
    (hread : read_name env loc = some name)
    (hstack : loc.end_ - loc.start + 2 ≤ env.stack)
    (hres : resolve_chromo fuel cur name = some (.ok cur1))
    (hd : is_base cur1.d = true) (hpre : ∀ c ∈ pre, c ≠ '>') (hs : 1 ≤ loc.start)
    (hle : loc.start ≤ loc.end_) (hmax : loc.end_ + 1 < ULONG_MOD)
    (hlast : cur1.base_index + (pre.filter is_base).length = loc.end_) :
    (cur1.ref = pre →
      loc_loop env fuel (n + 1) cur mask_locs
        = some ⟨cur.out, [], some (.fatal "ERROR: Reference file too short [3]\n")⟩) ∧
    (∀ post, cur1.ref = pre ++ '>' :: post →
      loc_loop env fuel (n + 1) cur mask_locs
        = some ⟨cur.out, post,
            some (.fatal "ERROR: Reached end of chromosome without finding location\n")⟩) := by
  obtain ⟨h1, h2⟩ := process_loc_span_beyond env fuel cur cur1 loc name pre hread hstack hres
    (is_base_ne_marker _ hd) hpre hs hle hmax (by omega) (by omega)
  constructor
  · intro href
    rw [loc_loop, hloc]
    simp only [h1 href]
  · intro post href
    rw [loc_loop, hloc]
    simp only [h2 post href]

/-- A span that ends on the last base the driver counts, on a chromosome
`chr1` of 120 bases followed by the record `chr2`, in the state after the
location `chr1 1 100`, at the location `chr1 101 120`: the run stops at the
`>` of `chr2`. -/
theorem span_to_last_base_aborts_witness :
    (get_next_loc "                chr1 101 120\n".toList = .ok (⟨"chr1".toList, false, 101, 120⟩, []) ∧
      read_name ⟨some, 8388608⟩ ⟨"chr1".toList, false, 101, 120⟩ = some "chr1".toList ∧
      120 - 101 + 2 ≤ 8388608 ∧
      resolve_chromo 0
          ⟨"chr1".toList, 'A', List.replicate 19 'A' ++ "\n>chr2\nACGT\n".toList, 101,
            [⟨"chr1".toList, 1, 100, List.replicate 100 'A'⟩]⟩
          "chr1".toList
        = some (.ok ⟨"chr1".toList, 'A', List.replicate 19 'A' ++ "\n>chr2\nACGT\n".toList, 101,
            [⟨"chr1".toList, 1, 100, List.replicate 100 'A'⟩]⟩) ∧
      is_base 'A' = true ∧ (∀ c ∈ List.replicate 19 'A' ++ ['\n'], c ≠ '>') ∧ 1 ≤ 101 ∧
      101 ≤ 120 ∧ 120 + 1 < ULONG_MOD ∧
      101 + ((List.replicate 19 'A' ++ ['\n']).filter is_base).length = 120) ∧
    loc_loop ⟨some, 8388608⟩ 0 (0 + 1)
        ⟨"chr1".toList, 'A', List.replicate 19 'A' ++ "\n>chr2\nACGT\n".toList, 101,
          [⟨"chr1".toList, 1, 100, List.replicate 100 'A'⟩]⟩
        "                chr1 101 120\n".toList
      = some ⟨[⟨"chr1".toList, 1, 100, List.replicate 100 'A'⟩], "chr2\nACGT\n".toList,
          some (.fatal "ERROR: Reached end of chromosome without finding location\n")⟩ :=
  ⟨⟨by decide!, rfl, by decide, by decide!, by decide, by decide!, by decide, by decide,
      by decide, by decide!⟩,
    (span_to_last_base_aborts ⟨some, 8388608⟩ 0 0
      ⟨"chr1".toList, 'A', List.replicate 19 'A' ++ "\n>chr2\nACGT\n".toList, 101,
        [⟨"chr1".toList, 1, 100, List.replicate 100 'A'⟩]⟩
      ⟨"chr1".toList, 'A', List.replicate 19 'A' ++ "\n>chr2\nACGT\n".toList, 101,
        [⟨"chr1".toList, 1, 100, List.replicate 100 'A'⟩]⟩
      "                chr1 101 120\n".toList [] ⟨"chr1".toList, false, 101, 120⟩ "chr1".toList
      (List.replicate 19 'A' ++ ['\n']) (by decide!) rfl (by decide) (by decide!) (by decide)
      (by decide!) (by decide) (by decide) (by decide) (by decide!)).2 "chr2\nACGT\n".toList
      (by decide!)⟩

/-- Locations in order inside one chromosome, when every read of a freed name
gives the name of the chromosome and the stack holds every array.  On a
reference whose header line gives the chromosome `name` and is followed by a
base `d` and by characters `rest` without `>` (one chromosome, of fewer than
`ULONG_MOD` bases), with a location file whose lines give the locations
`locs`, with `1 ≤ start ≤ end`, every start greater than the end before it and
every end smaller than the number of bases: the run ends with `return 0`, for
any fuel; it writes the records of the locations of at least 100 bases, in
order; and for each location the seek loop stops with `base_index = start`,
the extract loop leaves in `sequence` the bases at the positions `start..end`,
`end - start + 1` of them, and stops with `base_index = end + 1` on the base
at that position. -/
theorem ordered_locations_inside_are_extracted (env : Env) (fuel : Nat) (ref : Stream)
    (name : List Char) (d : Char) (rest mask_locs : Stream) (locs : List location)
    (hhead : get_chromo_name (getc ref).2 = .ok (name, d :: rest))
    (hd : is_base d = true) (hrest : ∀ c ∈ rest, c ≠ '>')
    (hsize : ((d :: rest).filter is_base).length < ULONG_MOD)
    (hlocs : read_locs (mask_locs.count '\n') mask_locs = some locs)
    (hread : ∀ q ∈ locs, read_name env q = some name)
    (hstack : ∀ q ∈ locs, q.end_ - q.start + 2 ≤ env.stack)
    (horder : increasing_from 0 locs)
    (hend : ∀ q ∈ locs, q.end_ < ((d :: rest).filter is_base).length) :
    ∃ final, process_locs env fuel ⟨name, d, rest, 1, []⟩ locs = some (.ok final) ∧
      main env fuel ref mask_locs = some ⟨final.out, final.ref, none⟩ ∧
      final.out
        = (locs.filter (fun q => decide (100 ≤ q.end_ - q.start + 1))).map
            (fun q => ⟨name, q.start, q.end_, bases_at (d :: rest) q.start q.end_⟩) ∧
      ∀ init q tail, locs = init ++ q :: tail →
        ∃ c0 c1 d2 ref2, process_locs env fuel ⟨name, d, rest, 1, []⟩ init = some (.ok c0) ∧
          seek q.start c0.ref c0.d c0.base_index = .ok (d2, ref2, q.start) ∧
          extract q.end_ (((q.end_ + ULONG_MOD - q.start) % ULONG_MOD + 2) % ULONG_MOD)
              ref2 d2 q.start []
            = .ok (c1.d, c1.ref, q.end_ + 1, bases_at (d :: rest) q.start q.end_) ∧
          process_loc env fuel c0 q = some (.ok c1) ∧
          (bases_at (d :: rest) q.start q.end_).length = q.end_ - q.start + 1 ∧
          c1.base_index = q.end_ + 1 ∧ base_at (d :: rest) (q.end_ + 1) = some c1.d := by
  have hcur : cursor_at name ((d :: rest).filter is_base) 1 ⟨name, d, rest, 1, []⟩ :=
    ⟨rfl, hd, hrest, rfl, Nat.le_refl _, rfl⟩
  obtain ⟨final, hrun, hout, hall⟩ :=
    process_locs_inside env fuel name ((d :: rest).filter is_base) hsize locs _ 1 hcur horder
      hread hstack hend
  refine ⟨final, hrun, ?_, ?_, hall⟩
  · rw [main_loop_bound env fuel ref mask_locs name (d :: rest) rest d hhead rfl]
    exact loc_loop_process_locs env fuel _ _ _ locs final hlocs hrun
  · rw [hout, List.nil_append]
    rfl

/-- Locations in order inside one chromosome, on a chromosome of 115 `A` and
115 `C` on two lines, with the locations `chr1 1 100` and `chr1 111 220` and a
stack of 8 MiB: both records are written, and the run ends with `return 0`
after the base at position 221.  The lines of the location file start with 16
spaces. -/
theorem ordered_locations_inside_are_extracted_witness :
    (get_chromo_name
          (getc (">chr1\n".toList ++ List.replicate 115 'A' ++ '\n' :: List.replicate 115 'C'
            ++ ['\n'])).2
        = .ok ("chr1".toList,
            'A' :: (List.replicate 114 'A' ++ '\n' :: List.replicate 115 'C' ++ ['\n'])) ∧
      is_base 'A' = true ∧
      (∀ c ∈ List.replicate 114 'A' ++ '\n' :: List.replicate 115 'C' ++ ['\n'], c ≠ '>') ∧
      (('A' :: (List.replicate 114 'A' ++ '\n' :: List.replicate 115 'C' ++ ['\n'])).filter
          is_base).length < ULONG_MOD ∧
      read_locs ("                chr1 1 100\n                chr1 111 220\n".toList.count '\n')
          "                chr1 1 100\n                chr1 111 220\n".toList
        = some [⟨"chr1".toList, false, 1, 100⟩, ⟨"chr1".toList, false, 111, 220⟩] ∧
      (∀ q ∈ [(⟨"chr1".toList, false, 1, 100⟩ : location), ⟨"chr1".toList, false, 111, 220⟩],
        read_name ⟨some, 8388608⟩ q = some "chr1".toList) ∧
      (∀ q ∈ [(⟨"chr1".toList, false, 1, 100⟩ : location), ⟨"chr1".toList, false, 111, 220⟩],
        q.end_ - q.start + 2 ≤ 8388608) ∧
      increasing_from 0 [⟨"chr1".toList, false, 1, 100⟩, ⟨"chr1".toList, false, 111, 220⟩] ∧
      (∀ q ∈ [(⟨"chr1".toList, false, 1, 100⟩ : location), ⟨"chr1".toList, false, 111, 220⟩],
        q.end_ < (('A' :: (List.replicate 114 'A' ++ '\n' :: List.replicate 115 'C'
          ++ ['\n'])).filter is_base).length)) ∧
    (∃ final : Cursor,
      main ⟨some, 8388608⟩ 0
          (">chr1\n".toList ++ List.replicate 115 'A' ++ '\n' :: List.replicate 115 'C'
            ++ ['\n'])
          "                chr1 1 100\n                chr1 111 220\n".toList
        = some ⟨final.out, final.ref, none⟩ ∧
      final.out = [⟨"chr1".toList, 1, 100, List.replicate 100 'A'⟩,
        ⟨"chr1".toList, 111, 220, List.replicate 5 'A' ++ List.replicate 105 'C'⟩]) ∧
    main ⟨some, 8388608⟩ 0
        (">chr1\n".toList ++ List.replicate 115 'A' ++ '\n' :: List.replicate 115 'C' ++ ['\n'])
        "                chr1 1 100\n                chr1 111 220\n".toList
      = some ⟨[⟨"chr1".toList, 1, 100, List.replicate 100 'A'⟩,
          ⟨"chr1".toList, 111, 220, List.replicate 5 'A' ++ List.replicate 105 'C'⟩],
        List.replicate 9 'C' ++ ['\n'], none⟩ :=
  ⟨⟨by decide!, by decide, by decide!, by decide!, by decide!, by decide!, by decide!,
      by decide!, by decide!⟩,
    (ordered_locations_inside_are_extracted ⟨some, 8388608⟩ 0
      (">chr1\n".toList ++ List.replicate 115 'A' ++ '\n' :: List.replicate 115 'C' ++ ['\n'])
      "chr1".toList 'A' (List.replicate 114 'A' ++ '\n' :: List.replicate 115 'C' ++ ['\n'])
      "                chr1 1 100\n                chr1 111 220\n".toList
      [⟨"chr1".toList, false, 1, 100⟩, ⟨"chr1".toList, false, 111, 220⟩]
      (by decide!) (by decide) (by decide!) (by decide!) (by decide!) (by decide!) (by decide!)
      (by decide!) (by decide!)).elim
      (fun final h => ⟨final, h.2.1, h.2.2.1.trans (by decide!)⟩),
    by decide!⟩

end ExtractFromMask
